import Mathlib

/-! # CPU scheduling simulator (`script.js`): a shallow embedding

The JavaScript program keeps a global array `processes` of process objects and
offers five scheduling routines (`runFCFS`, `runSJF`, `runSRTF`, `runPriority`,
`runRR`) followed by `calculateMetrics`.

Modelling decisions.

* Numbers are JavaScript doubles. The numbers of the program are the integers produced by
  `parseInt` and the sums and differences computed from them, so a Number is modelled by the
  integer it holds (`Int`), and every addition and subtraction of the source returns its exact
  result rounded to the nearest double, ties to even (`num`). Every integer of absolute value
  at most `2 ^ 53` is a double, so the rounding changes nothing as long as the exact results
  stay in that range; beyond it increments are lost (`2 ^ 53 + 1` is `2 ^ 53`). The exponent
  range of doubles is not modelled: `num` rounds to 53 significant bits whatever the size,
  whereas JavaScript gives `Infinity` from `2 ^ 1024` on, so the model speaks of runs whose
  numbers stay below that bound.
* A JavaScript array of objects is a `List`; a *reference* to an object of an
  array (the elements of `sorted`, `ready`, `done`, `queue`, `candidates`) is the
  position of the object in that array, so that a mutation through a reference
  is visible through every alias, as in the source.
* A field that may be `undefined` is an `Option`; arithmetic on `undefined`
  gives `NaN`, which is `none` as well.
* `Array.prototype.sort` is stable; it is modelled by `List.insertionSort` with
  the relation `key a ≤ key b`, which is a stable sort.
* A `while` loop is run with a fuel argument and returns `none` when the fuel is
  exhausted.
* The namespace `Exact` holds the loop bodies once more with exact integer arithmetic; they
  are used in proofs only, and agree with the loop bodies of the program as long as every
  value stays a safe integer.
-/

namespace CPUSched

/-! ## Data model -/

/-- A process object of the global array `processes` (line 49), with the derived
fields that the scheduling routines attach to it. -/
structure Process where
  pid : String
  arrival : Int
  burst : Int
  priority : Int
  originalBurst : Int
  completion : Option Int := none
  turnaround : Option Int := none
  waiting : Option Int := none
  response : Option Int := none
deriving DecidableEq, Repr

/-- A working copy `{...p, remaining: p.burst}` of a process object. -/
structure Job extends Process where
  remaining : Int
deriving DecidableEq, Repr

/-- An entry `{pid, start, duration}` of a `schedule` array. -/
structure Segment where
  pid : String
  start : Int
  duration : Int
deriving DecidableEq, Repr

/-- The outcome of one scheduling routine: the `schedule` handed to `showResult`,
the array that was passed to `calculateMetrics` (after the call), the global array
`processes` as it stands after the run, and the three averages (`none` is `NaN`). -/
structure RunResult (α : Type) where
  schedule : List Segment
  procs : List α
  registry : List Process
  avgTAT : Option ℚ
  avgWT : Option ℚ
  avgRT : Option ℚ

/-- The object literal `{ pid, arrival, burst, priority, originalBurst: burst }` of line 49. -/
def newProcess (pid : String) (arrival burst priority : Int) : Process :=
  { pid := pid, arrival := arrival, burst := burst, priority := priority, originalBurst := burst }

/-- The spread `{...p, remaining: p.burst}`. -/
def Job.ofProcess (p : Process) : Job :=
  { toProcess := p, remaining := p.burst }

/-- A working copy of `p` whose fields `completion` and `remaining` have been assigned. -/
def Job.withRun (p : Process) (completion : Option Int) (remaining : Int) : Job :=
  { toProcess := { p with completion := completion }, remaining := remaining }

instance : Inhabited Process := ⟨newProcess "" 0 0 0⟩

instance : Inhabited Job := ⟨Job.ofProcess default⟩

/-! ## Number arithmetic -/

/-- The integer `2 ^ 53`: every integer from `-2 ^ 53` to `2 ^ 53` is a double. -/
def maxSafe : Nat := 9007199254740992

/-- The number of low-order bits of `n` that do not fit into the 53 bits of the significand
of a double (`fuel` bounds the number of halvings). -/
def dropBits : Nat → Nat → Nat
  | 0, _ => 0
  | fuel + 1, n => if n < 9007199254740992 then 0 else dropBits fuel (n / 2) + 1

/-- The natural number `n` rounded to the nearest double, ties to the even significand. -/
def roundNat (n : Nat) : Nat :=
  let e := dropBits n n
  let q := n / 2 ^ e
  let r := n % 2 ^ e
  if 2 * r < 2 ^ e ∨ (2 * r = 2 ^ e ∧ q % 2 = 0) then q * 2 ^ e else (q + 1) * 2 ^ e

/-- The Number that an addition or a subtraction returns when its exact result is the
integer `x`: `x` rounded to the nearest double, ties to even. -/
def num (x : Int) : Int :=
  if 0 ≤ x then (roundNat x.toNat : Int) else -(roundNat (-x).toNat : Int)

/-! ## Generic helpers -/

/-- A `while (cond) body` loop with fuel. -/
def whileLoop {σ : Type} (cond : σ → Bool) (body : σ → σ) : Nat → σ → Option σ
  | 0, _ => none
  | fuel + 1, s => if cond s then whileLoop cond body fuel (body s) else some s

/-- Mutation of the object at position `i` of an array of objects. -/
def mutate {α : Type} (heap : List α) (i : Nat) (f : α → α) : List α :=
  match heap[i]? with
  | some a => heap.set i (f a)
  | none => heap

/-- The object that the reference `i` into the array `heap` designates. -/
def deref {α : Type} [Inhabited α] (heap : List α) (i : Nat) : α :=
  heap.getD i default

/-- The stable sort `refs.sort((a, b) => key(a) - key(b))` of an array of references. The
keys are integers, so the rounded difference has the sign of the exact one: the comparator
orders `a` before `b` exactly when `key(a) ≤ key(b)`. -/
def sortRefs (key : Nat → Int) (refs : List Nat) : List Nat :=
  refs.insertionSort (fun i j => key i ≤ key j)

/-- The sum `xs.reduce((s, x) => s + x, 0)` of an array of numbers. -/
def sumNum (xs : List Int) : Int :=
  xs.foldl (fun s x => num (s + x)) 0

/-- The same sum over a field that may be `NaN` (`none`): `NaN` as soon as one summand is. -/
def sumOpt (xs : List (Option Int)) : Option Int :=
  xs.foldl (fun acc x => acc.bind (fun s => x.map (fun a => num (s + a)))) (some 0)

/-- The quotient `sum / length`; `0 / 0` is `NaN`. The quotient is kept exact, as a rational
number: JavaScript holds the double nearest to it. -/
def average (sum : Option Int) (length : Nat) : Option ℚ :=
  if length = 0 then none else sum.map (fun s => (s : ℚ) / (length : ℚ))

/-! ## `calculateMetrics` (lines 333-339) -/

/-- The body of the `forEach` of `calculateMetrics` on one process object. -/
def calculateMetricsOne (p : Process) : Process :=
  let turnaround := p.completion.map (fun c => num (c - p.arrival))
  let waiting := turnaround.map (fun t => num (t - p.originalBurst))
  { p with
    turnaround := turnaround
    waiting := waiting
    response := match p.response with
      | some r => some r
      | none => waiting }

/-- The same on a working copy. -/
def Job.calculateMetrics (j : Job) : Job :=
  { j with toProcess := calculateMetricsOne j.toProcess }

/-! ## `runFCFS` (lines 131-149) -/

/-- State of the `forEach` of `runFCFS`: the cursor `time`, the `schedule`, and the process
objects (`sorted` holds references to the objects of `processes`). -/
structure FCFSState where
  time : Int
  schedule : List Segment
  heap : List Process

/-- One round of `sorted.forEach(p => ...)` on the object referenced by `i`. -/
def fcfsVisit (st : FCFSState) (i : Nat) : FCFSState :=
  match st.heap[i]? with
  | none => st
  | some p =>
    let time := if st.time < p.arrival then p.arrival else st.time
    { time := num (time + p.burst)
      schedule := st.schedule ++ [{ pid := p.pid, start := time, duration := p.burst }]
      heap := st.heap.set i { p with completion := some (num (time + p.burst)) } }

/-- The array `sorted`: references to the objects of `processes`, stably sorted by arrival. -/
def fcfsSorted (processes : List Process) : List Nat :=
  sortRefs (fun i => (processes.getD i default).arrival) (List.range processes.length)

/-- The routine `runFCFS`. -/
def runFCFS (processes : List Process) : RunResult Process :=
  let sorted := fcfsSorted processes
  let st := sorted.foldl fcfsVisit { time := 0, schedule := [], heap := processes }
  let heap := sorted.foldl (fun h i => mutate h i calculateMetricsOne) st.heap
  let procs := sorted.map (fun i => heap.getD i default)
  { schedule := st.schedule
    procs := procs
    registry := heap
    avgTAT := average (some (sumNum (procs.map (fun p => p.turnaround.getD 0)))) procs.length
    avgWT := average (some (sumNum (procs.map (fun p => p.waiting.getD 0)))) procs.length
    avgRT := average (some (sumNum (procs.map (fun p => p.response.getD 0)))) procs.length }

/-! ## `runSJF` (lines 151-190) and `runPriority` (lines 243-281)

The two routines are the same text except for the comparator of `ready.sort`
(`a.remaining - b.remaining` against `a.priority - b.priority`) and the label given to
`showResult`; the loop is embedded once, with the sort key as a parameter. -/

/-- State of the loop of `runSJF` / `runPriority`. `ready` and `done` hold references to
the objects of `remaining`. -/
structure NPState where
  time : Int
  ready : List Nat
  done : List Nat
  schedule : List Segment
  remaining : List Job

/-- The admission pass
`remaining.forEach(p => { if (p.arrival <= time && p.remaining > 0 &&
!ready.some(r => r.pid === p.pid)) ready.push(p); })`. -/
def admitReady (time : Int) (remaining : List Job) (ready : List Nat) : List Nat :=
  (List.range remaining.length).foldl
    (fun rdy i =>
      let p := deref remaining i
      if p.arrival ≤ time ∧ 0 < p.remaining ∧
          ∀ r ∈ rdy, (deref remaining r).pid ≠ p.pid then rdy ++ [i] else rdy)
    ready

/-- One iteration of the `while` loop. Sorting an empty `ready` leaves it empty, so the test
`ready.length === 0` is made on the sorted array. -/
def npBody (key : Job → Int) (s : NPState) : NPState :=
  let ready := admitReady s.time s.remaining s.ready
  match sortRefs (fun i => key (deref s.remaining i)) ready with
  | [] => { s with time := num (s.time + 1), ready := [] }
  | c :: rest =>
    let curr := deref s.remaining c
    let start := s.time
    let time := num (s.time + curr.remaining)
    { time := time
      ready := rest
      done := s.done ++ [c]
      schedule := s.schedule ++ [{ pid := curr.pid, start := start, duration := curr.remaining }]
      remaining := mutate s.remaining c (fun j => { j with completion := some time, remaining := 0 }) }

/-- The loop test `done.length < processes.length`. -/
def npCond (n : Nat) (s : NPState) : Bool :=
  decide (s.done.length < n)

/-- The state before the loop. -/
def npInit (processes : List Process) : NPState :=
  { time := 0, ready := [], done := [], schedule := [], remaining := processes.map Job.ofProcess }

/-- What follows the loop: `calculateMetrics(done)` and the averages. After `calculateMetrics`
the field `response` is a number or `NaN`, so `p.response ?? 0` is `p.response`. The routines
work on copies, so the global array is left as it was. -/
def npFinish (processes : List Process) (s : NPState) : RunResult Job :=
  let heap := s.done.foldl (fun h i => mutate h i Job.calculateMetrics) s.remaining
  let done := s.done.map (fun i => deref heap i)
  { schedule := s.schedule
    procs := done
    registry := processes
    avgTAT := average (sumOpt (done.map (fun p => p.turnaround))) done.length
    avgWT := average (sumOpt (done.map (fun p => p.waiting))) done.length
    avgRT := average (sumOpt (done.map (fun p => p.response))) done.length }

/-- The routine `runSJF`. -/
def runSJF (fuel : Nat) (processes : List Process) : Option (RunResult Job) :=
  (whileLoop (npCond processes.length) (npBody (fun j => j.remaining)) fuel (npInit processes)).map
    (npFinish processes)

/-- The routine `runPriority`. -/
def runPriority (fuel : Nat) (processes : List Process) : Option (RunResult Job) :=
  (whileLoop (npCond processes.length) (npBody (fun j => j.priority)) fuel (npInit processes)).map
    (npFinish processes)

/-! ## `runSRTF` (lines 192-241) -/

/-- State of the loop of `runSRTF`. -/
structure SRTFState where
  time : Int
  schedule : List Segment
  remaining : List Job
  completed : Nat
  lastPid : Option String

/-- The assignment `lastSeg.duration = time - lastSeg.start` to the last entry of `schedule`
(nothing happens on an empty `schedule`, where the source is guarded or not reached). -/
def setLastDuration (schedule : List Segment) (time : Int) : List Segment :=
  match schedule.getLast? with
  | none => schedule
  | some lastSeg =>
    schedule.dropLast ++ [{ lastSeg with duration := num (time - lastSeg.start) }]

/-- The array `candidates` after `filter` and `sort`. -/
def srtfCandidates (s : SRTFState) : List Nat :=
  sortRefs (fun i => (deref s.remaining i).remaining)
    ((List.range s.remaining.length).filter
      (fun i => decide ((deref s.remaining i).arrival ≤ s.time ∧
        0 < (deref s.remaining i).remaining)))

/-- One iteration of the `while` loop of `runSRTF`. -/
def srtfBody (s : SRTFState) : SRTFState :=
  match srtfCandidates s with
  | [] => { s with time := num (s.time + 1) }
  | c :: _ =>
    let curr := deref s.remaining c
    let opened : List Segment × Option String :=
      if s.lastPid ≠ some curr.pid then
        ((if s.lastPid ≠ none then setLastDuration s.schedule s.time else s.schedule) ++
            [{ pid := curr.pid, start := s.time, duration := 0 }],
          some curr.pid)
      else (s.schedule, s.lastPid)
    let rem := num (curr.remaining - 1)
    let time := num (s.time + 1)
    if rem = 0 then
      { time := time
        schedule := opened.1
        remaining := mutate s.remaining c (fun j => { j with remaining := rem, completion := some time })
        completed := s.completed + 1
        lastPid := none }
    else
      { time := time
        schedule := opened.1
        remaining := mutate s.remaining c (fun j => { j with remaining := rem })
        completed := s.completed
        lastPid := opened.2 }

/-- The loop test `completed < processes.length`. -/
def srtfCond (n : Nat) (s : SRTFState) : Bool :=
  decide (s.completed < n)

/-- The state before the loop. -/
def srtfInit (processes : List Process) : SRTFState :=
  { time := 0, schedule := [], remaining := processes.map Job.ofProcess, completed := 0,
    lastPid := none }

/-- What follows the loop: the last segment is closed, then `calculateMetrics(remaining)` and
the averages (`p.response ?? p.arrival` is `p.response` after `calculateMetrics`). -/
def srtfFinish (processes : List Process) (s : SRTFState) : RunResult Job :=
  let remaining := s.remaining.map Job.calculateMetrics
  { schedule := setLastDuration s.schedule s.time
    procs := remaining
    registry := processes
    avgTAT := average (sumOpt (remaining.map (fun p => p.turnaround))) remaining.length
    avgWT := average (sumOpt (remaining.map (fun p => p.waiting))) remaining.length
    avgRT := average (sumOpt (remaining.map (fun p => p.response))) remaining.length }

/-- The routine `runSRTF`. -/
def runSRTF (fuel : Nat) (processes : List Process) : Option (RunResult Job) :=
  (whileLoop (srtfCond processes.length) srtfBody fuel (srtfInit processes)).map
    (srtfFinish processes)

/-! ## `runRR` (lines 283-331) -/

/-- State of the loop of `runRR`. `queue` holds references to the objects of `remaining`;
`arrived` is the `Set` of admitted pids. -/
structure RRState where
  time : Int
  queue : List Nat
  schedule : List Segment
  remaining : List Job
  arrived : List String

/-- The quantum `parseInt(value) || 4`; the argument is the parsed input, `none` for `NaN`. -/
def rrQuantum (input : Option Int) : Int :=
  match input with
  | none => 4
  | some v => if v = 0 then 4 else v

/-- The pass "add newly arrived":
`remaining.forEach(p => { if (p.arrival <= time && p.remaining > 0 && !arrived.has(p.pid))
{ queue.push(p); arrived.add(p.pid); } })`. -/
def rrAdmit (time : Int) (remaining : List Job) (queue : List Nat) (arrived : List String) :
    List Nat × List String :=
  (List.range remaining.length).foldl
    (fun qa i =>
      let p := deref remaining i
      if p.arrival ≤ time ∧ 0 < p.remaining ∧ p.pid ∉ qa.2 then (qa.1 ++ [i], qa.2 ++ [p.pid])
      else qa)
    (queue, arrived)

/-- One iteration of the `while` loop of `runRR`. -/
def rrBody (q : Int) (s : RRState) : RRState :=
  let qa := rrAdmit s.time s.remaining s.queue s.arrived
  match qa.1 with
  | [] => { s with time := num (s.time + 1), queue := [], arrived := qa.2 }
  | c :: rest =>
    let curr := deref s.remaining c
    let exec := min q curr.remaining
    let start := s.time
    let time := num (s.time + exec)
    let rem := num (curr.remaining - exec)
    let schedule := s.schedule ++ [{ pid := curr.pid, start := start, duration := exec }]
    if 0 < rem then
      { time := time
        queue := rest ++ [c]
        schedule := schedule
        remaining := mutate s.remaining c (fun j => { j with remaining := rem })
        arrived := qa.2 }
    else
      { time := time
        queue := rest
        schedule := schedule
        remaining := mutate s.remaining c (fun j => { j with remaining := rem, completion := some time })
        arrived := qa.2 }

/-- The loop test `queue.length > 0 || remaining.some(p => p.remaining > 0)`. -/
def rrCond (s : RRState) : Bool :=
  !s.queue.isEmpty || s.remaining.any (fun p => decide (0 < p.remaining))

/-- The state before the loop, after the "initial enqueue"
`remaining.forEach(p => { if (p.arrival === 0) queue.push(p); })`. -/
def rrInit (processes : List Process) : RRState :=
  let remaining := processes.map Job.ofProcess
  { time := 0
    queue := (List.range remaining.length).filter
      (fun i => decide ((deref remaining i).arrival = 0))
    schedule := []
    remaining := remaining
    arrived := [] }

/-- What follows the loop: `calculateMetrics(remaining)` and the averages. -/
def rrFinish (processes : List Process) (s : RRState) : RunResult Job :=
  let remaining := s.remaining.map Job.calculateMetrics
  { schedule := s.schedule
    procs := remaining
    registry := processes
    avgTAT := average (sumOpt (remaining.map (fun p => p.turnaround))) remaining.length
    avgWT := average (sumOpt (remaining.map (fun p => p.waiting))) remaining.length
    avgRT := average (sumOpt (remaining.map (fun p => p.response))) remaining.length }

/-- The routine `runRR`; `quantum` is the parsed content of the quantum input. -/
def runRR (fuel : Nat) (quantum : Option Int) (processes : List Process) :
    Option (RunResult Job) :=
  (whileLoop rrCond (rrBody (rrQuantum quantum)) fuel (rrInit processes)).map (rrFinish processes)

/-! ## Specification-side vocabulary -/

/-- The first-come-first-served rule in the words of the specification, on processes taken
in order: with the cursor at `cursor`, a process starts at `max cursor arrival`, runs for
`burst`, and moves the cursor to the end of its segment. -/
def fcfsRule (cursor : Int) : List Process → List Segment
  | [] => []
  | p :: ps =>
    { pid := p.pid, start := max cursor p.arrival, duration := p.burst } ::
      fcfsRule (max cursor p.arrival + p.burst) ps

/-! ## Invariants of the loops -/

/-- No two processes of the registry have the same pid. -/
def DistinctPids (P : List Process) : Prop :=
  ∀ i j, i < P.length → j < P.length → (deref P i).pid = (deref P j).pid → i = j

/-- Invariant of the loop of `runSJF` / `runPriority` on the registry `P`, for a sort key
whose value on an untouched working copy is `skey` of the process. -/
structure NPInv (P : List Process) (skey : Process → Int) (s : NPState) : Prop where
  len : s.remaining.length = P.length
  ready_nodup : s.ready.Nodup
  ready_ok : ∀ i ∈ s.ready, i < P.length ∧ i ∉ s.done ∧ (deref P i).arrival ≤ s.time
  done_nodup : s.done.Nodup
  done_lt : ∀ i ∈ s.done, i < P.length
  pending : ∀ i, i < P.length → i ∉ s.done → deref s.remaining i = Job.ofProcess (deref P i)
  finished : ∀ i ∈ s.done, ∃ c, deref s.remaining i = Job.withRun (deref P i) (some c) 0 ∧
    (deref P i).arrival + (deref P i).burst ≤ c ∧ c ≤ s.time
  sched : s.schedule = s.done.map (fun i =>
    { pid := (deref P i).pid
      start := (deref s.remaining i).completion.getD 0 - (deref P i).burst
      duration := (deref P i).burst })
  minimal : ∀ i ∈ s.done, ∀ j, j < P.length → ∀ ci, (deref s.remaining i).completion = some ci →
    (deref P j).arrival ≤ ci - (deref P i).burst →
    (j ∈ s.done → ∀ cj, (deref s.remaining j).completion = some cj →
      ci - (deref P i).burst < cj) →
    skey (deref P i) ≤ skey (deref P j)

/-- A bound on the arrival times of the registry. -/
def arrivalBound (P : List Process) : Nat :=
  (P.map (fun p => p.arrival.toNat)).sum

/-- The total of the bursts of the registry. -/
def burstTotal (P : List Process) : Nat :=
  (P.map (fun p => p.burst.toNat)).sum

/-- Fuel that suffices for the loop of `runSJF` / `runPriority`: one iteration per process
and one per idle time unit. -/
def npFuel (P : List Process) : Nat :=
  P.length + arrivalBound P + 1

/-- Fuel that suffices for the loop of `runSRTF`: one iteration per unit of burst and one
per idle time unit. -/
def srtfFuel (P : List Process) : Nat :=
  burstTotal P + arrivalBound P + 1

/-- Fuel that suffices for the loop of `runRR`. -/
def rrFuel (P : List Process) : Nat :=
  burstTotal P + 2 * P.length + arrivalBound P + 1

/-- The attributes of a process that the user entered: pid, arrival, burst and priority. -/
def Process.entered (p : Process) : String × Int × Int × Int :=
  (p.pid, p.arrival, p.burst, p.priority)

/-- The time that the segments of `schedule` give to the process `pid`. -/
def served (schedule : List Segment) (pid : String) : Int :=
  ((schedule.filter (fun seg => decide (seg.pid = pid))).map (fun seg => seg.duration)).sum

/-- The number of processes of the registry whose pid is not in the set `arrived`. -/
def unadmitted (P : List Process) (arrived : List String) : Nat :=
  ((List.range P.length).filter (fun i => decide ((deref P i).pid ∉ arrived))).length

/-- Invariant of the loop of `runRR` on the registry `P` with quantum `q`. -/
structure RRInv (P : List Process) (q : Int) (s : RRState) : Prop where
  len : s.remaining.length = P.length
  form : ∀ i, i < P.length → deref s.remaining i =
    Job.withRun (deref P i) (deref s.remaining i).completion (deref s.remaining i).remaining
  rem_nonneg : ∀ i, i < P.length → 0 ≤ (deref s.remaining i).remaining
  inq : ∀ i ∈ s.queue, i < P.length ∧ ((deref P i).pid ∈ s.arrived ∨
    ((deref P i).arrival ≤ s.time ∧ 0 < (deref s.remaining i).remaining))
  queued : ∀ i, i < P.length → (deref P i).pid ∈ s.arrived →
    0 < (deref s.remaining i).remaining → i ∈ s.queue
  fresh : ∀ i, i < P.length → i ∉ s.queue → (deref P i).pid ∉ s.arrived →
    deref s.remaining i = Job.ofProcess (deref P i)
  timely : ∀ i, i < P.length → (i ∈ s.queue ∨ (deref P i).pid ∈ s.arrived) →
    (deref P i).arrival + ((deref P i).burst - (deref s.remaining i).remaining) ≤ s.time
  completed : ∀ i, i < P.length → (deref s.remaining i).remaining = 0 →
    ∃ c, (deref s.remaining i).completion = some c ∧
      (deref P i).arrival + (deref P i).burst ≤ c
  served_eq : ∀ i, i < P.length →
    served s.schedule (deref P i).pid = (deref P i).burst - (deref s.remaining i).remaining
  slices : ∀ pre seg post, s.schedule = pre ++ seg :: post →
    ∃ i, i < P.length ∧ (deref P i).pid = seg.pid ∧
      seg.duration = min q ((deref P i).burst - served pre seg.pid)

/-- Invariant of the loop of `runSRTF` on the registry `P`. -/
structure SRTFInv (P : List Process) (s : SRTFState) : Prop where
  len : s.remaining.length = P.length
  form : ∀ i, i < P.length → deref s.remaining i =
    Job.withRun (deref P i) (deref s.remaining i).completion (deref s.remaining i).remaining
  rem_nonneg : ∀ i, i < P.length → 0 ≤ (deref s.remaining i).remaining
  rem_le : ∀ i, i < P.length → (deref s.remaining i).remaining ≤ (deref P i).burst
  count : s.completed = s.remaining.countP (fun j => decide (j.remaining = 0))
  timely : ∀ i, i < P.length → (deref s.remaining i).remaining < (deref P i).burst →
    (deref P i).arrival + ((deref P i).burst - (deref s.remaining i).remaining) ≤ s.time
  completed : ∀ i, i < P.length → (deref s.remaining i).remaining = 0 →
    ∃ c, (deref s.remaining i).completion = some c ∧
      (deref P i).arrival + (deref P i).burst ≤ c

/-- The three relations between the derived fields of a process record after
`calculateMetrics`: the completion time is at least arrival plus burst, the waiting time is
not negative, and the turnaround time is the waiting time plus the burst. -/
def MetricsSound (p : Process) : Prop :=
  ∃ c t w, p.completion = some c ∧ p.turnaround = some t ∧ p.waiting = some w ∧
    p.arrival + p.burst ≤ c ∧ 0 ≤ w ∧ t = w + p.burst

/-! ## The registry: the `addProcess` and `delete-btn` handlers (lines 28-57) -/

/-- The idiom `parseInt(value) || fallback`: the argument is the result of `parseInt`
(`none` for `NaN`); `NaN` and `0` are falsy and give the fallback. -/
def parseOr (parsed : Option Int) (fallback : Int) : Int :=
  match parsed with
  | none => fallback
  | some v => if v = 0 then fallback else v

/-- The default label `P${processes.length + 1}`. -/
def defaultPid (processes : List Process) : String :=
  "P" ++ toString (processes.length + 1)

/-- The `click` handler of `addProcess` (lines 38-51). `pidField` is the content of the pid
field after `trim()`, the three other arguments are the results of `parseInt` on the arrival,
burst and priority fields. The result is the registry after the click, or the text of the
alert when the handler returns early and leaves the registry as it was. -/
def addProcess (processes : List Process) (pidField : String)
    (arrivalField burstField priorityField : Option Int) : Except String (List Process) :=
  let pid := if pidField = "" then defaultPid processes else pidField
  let arrival := parseOr arrivalField 0
  let burst := parseOr burstField 1
  let priority := parseOr priorityField 1
  if burst ≤ 0 then Except.error "Burst time must be positive."
  else Except.ok (processes ++ [newProcess pid arrival burst priority])

/-- The `click` handler of a delete button (lines 29-34): `processes.splice(idx, 1)`. -/
def deleteProcess (processes : List Process) (idx : Nat) : List Process :=
  processes.eraseIdx idx

/-- An operation on the registry: a click on `addProcess` with the given field contents, or a
click on the delete button of a row. -/
inductive RegistryOp where
  | add (pidField : String) (arrivalField burstField priorityField : Option Int)
  | delete (idx : Nat)

/-- The registry after one operation (an add that alerts leaves it as it was). -/
def applyOp (processes : List Process) : RegistryOp → List Process
  | RegistryOp.add pidField a b p =>
    match addProcess processes pidField a b p with
    | Except.ok processes' => processes'
    | Except.error _ => processes
  | RegistryOp.delete idx => deleteProcess processes idx

/-- The registry after a sequence of operations, starting from the empty registry of line 1. -/
def registryAfter (ops : List RegistryOp) : List Process :=
  ops.foldl applyOp []

/-! ## The handler of the algorithm buttons (lines 342-365) -/

/-- The reset of lines 352-357: the four `delete` statements on one process object. -/
def resetDerived (p : Process) : Process :=
  { p with completion := none, turnaround := none, waiting := none, response := none }

/-- The value of `btn.dataset.algo`. -/
inductive Algo where
  | fcfs
  | sjf
  | srtf
  | priority
  | rr
deriving DecidableEq, Repr

/-- A result on working copies, seen as a result on process records (the field `remaining`
of the copies is dropped). -/
def RunResult.forget (r : RunResult Job) : RunResult Process :=
  { schedule := r.schedule
    procs := r.procs.map (fun j => j.toProcess)
    registry := r.registry
    avgTAT := r.avgTAT
    avgWT := r.avgWT
    avgRT := r.avgRT }

/-- What a click on an algorithm button leads to: an alert, a loop that does not end within
the fuel, or a call of `showResult`. -/
inductive ClickOutcome where
  | alert (message : String)
  | outOfFuel
  | shown (result : RunResult Process)

/-- The `click` handler of an algorithm button: the guard on an empty registry, the reset of
the derived fields of the registry objects, and the dispatch. -/
def clickAlgo (fuel : Nat) (algo : Algo) (quantum : Option Int) (processes : List Process) :
    ClickOutcome :=
  if processes.length = 0 then ClickOutcome.alert "Please add at least one process."
  else
    let cleared := processes.map resetDerived
    match algo with
    | Algo.fcfs => ClickOutcome.shown (runFCFS cleared)
    | Algo.sjf =>
      match runSJF fuel cleared with
      | some r => ClickOutcome.shown r.forget
      | none => ClickOutcome.outOfFuel
    | Algo.srtf =>
      match runSRTF fuel cleared with
      | some r => ClickOutcome.shown r.forget
      | none => ClickOutcome.outOfFuel
    | Algo.priority =>
      match runPriority fuel cleared with
      | some r => ClickOutcome.shown r.forget
      | none => ClickOutcome.outOfFuel
    | Algo.rr =>
      match runRR fuel quantum cleared with
      | some r => ClickOutcome.shown r.forget
      | none => ClickOutcome.outOfFuel

/-- A row of the results table: pid, completion, turnaround, waiting and response, where
`none` is displayed as a dash. -/
structure TableRow where
  pid : String
  completion : Option Int
  turnaround : Option Int
  waiting : Option Int
  response : Option Int
deriving DecidableEq, Repr

/-- The row of a process record. -/
def TableRow.ofProcess (p : Process) : TableRow :=
  { pid := p.pid, completion := p.completion, turnaround := p.turnaround, waiting := p.waiting,
    response := p.response }

/-- The rows of the results table that `showResult` builds from the global array
(lines 101-113). -/
def resultRows (r : RunResult Process) : List TableRow :=
  r.registry.map TableRow.ofProcess

/-- The result that a click handed to `showResult`, if it did. -/
def ClickOutcome.result : ClickOutcome → Option (RunResult Process)
  | ClickOutcome.shown r => some r
  | _ => none

/-- The derived fields of the records that the routine passed to `calculateMetrics`. -/
def computedRows (r : RunResult Process) : List TableRow :=
  r.procs.map TableRow.ofProcess

/-- The state of the loop of `runSJF` on the registry `P` after `k` iterations. -/
def sjfStateAt (P : List Process) (k : Nat) : NPState :=
  (npBody (fun j => j.remaining))^[k] (npInit P)

/-- The number that a list of decimal digit characters denotes. -/
def digitsValue (start : Nat) (ds : List Char) : Nat :=
  ds.foldl (fun acc c => acc * 10 + (c.toNat - 48)) start

/-- The default label of the row number `k + 1`. -/
def labelOf (k : Nat) : String :=
  "P" ++ toString (k + 1)

/-! ## Idle gaps of a timeline -/

/-- Consecutive segments of `schedule` do not overlap, and wherever the CPU is idle between
two consecutive segments, every process of `P` that has arrived by the end of the first of
them has no work left at that time: the segments up to there cover its whole burst. -/
def IdleOnlyWhenNothingReady (P : List Process) (schedule : List Segment) : Prop :=
  ∀ pre a b post, schedule = pre ++ a :: b :: post →
    a.start + a.duration ≤ b.start ∧
      (a.start + a.duration < b.start →
        ∀ p ∈ P, p.arrival ≤ a.start + a.duration → served (pre ++ [a]) p.pid = p.burst)

/-- The cursor of `runFCFS` after the processes `ps`, from the cursor `cursor`. -/
def fcfsCursor (cursor : Int) : List Process → Int
  | [] => cursor
  | p :: ps => fcfsCursor (max cursor p.arrival + p.burst) ps

/-- What the loop of `runRR` keeps true about the end of its timeline: the last segment ends
by the current time, and if it ends before, no arrived process has work left. -/
structure RRGap (P : List Process) (s : RRState) : Prop where
  tail : ∀ pre a, s.schedule = pre ++ [a] →
    a.start + a.duration ≤ s.time ∧
      (a.start + a.duration < s.time →
        ∀ i, i < P.length → (deref P i).arrival ≤ a.start + a.duration →
          (deref s.remaining i).remaining = 0)
  gaps : IdleOnlyWhenNothingReady P s.schedule

/-- What the loop of `runSJF` / `runPriority` keeps true about the end of its timeline. -/
structure NPGap (P : List Process) (s : NPState) : Prop where
  tail : ∀ pre a, s.schedule = pre ++ [a] →
    a.start + a.duration ≤ s.time ∧
      (a.start + a.duration < s.time →
        ∀ i, i < P.length → (deref P i).arrival ≤ a.start + a.duration → i ∈ s.done)
  served_eq : ∀ i, i < P.length →
    served s.schedule (deref P i).pid = if i ∈ s.done then (deref P i).burst else 0
  gaps : IdleOnlyWhenNothingReady P s.schedule

/-! ## The loop bodies in exact integer arithmetic

The bodies of `runFCFS`, `runSJF` / `runPriority`, `runSRTF` and `runRR` once more, with the
exact sum or difference where the program has the rounded one. They are what the bodies of
the program compute as long as every value is a safe integer (see `SafeTimes`), and the
invariants of the loops are proved on them. -/

namespace Exact

/-- The round `fcfsVisit` of `runFCFS` in exact arithmetic. -/
def fcfsVisit (st : FCFSState) (i : Nat) : FCFSState :=
  match st.heap[i]? with
  | none => st
  | some p =>
    let time := if st.time < p.arrival then p.arrival else st.time
    { time := time + p.burst
      schedule := st.schedule ++ [{ pid := p.pid, start := time, duration := p.burst }]
      heap := st.heap.set i { p with completion := some (time + p.burst) } }

/-- The iteration `npBody` of `runSJF` / `runPriority` in exact arithmetic. -/
def npBody (key : Job → Int) (s : NPState) : NPState :=
  let ready := admitReady s.time s.remaining s.ready
  match sortRefs (fun i => key (deref s.remaining i)) ready with
  | [] => { s with time := s.time + 1, ready := [] }
  | c :: rest =>
    let curr := deref s.remaining c
    let start := s.time
    let time := s.time + curr.remaining
    { time := time
      ready := rest
      done := s.done ++ [c]
      schedule := s.schedule ++ [{ pid := curr.pid, start := start, duration := curr.remaining }]
      remaining := mutate s.remaining c (fun j => { j with completion := some time, remaining := 0 }) }

/-- The assignment `setLastDuration` in exact arithmetic. -/
def setLastDuration (schedule : List Segment) (time : Int) : List Segment :=
  match schedule.getLast? with
  | none => schedule
  | some lastSeg => schedule.dropLast ++ [{ lastSeg with duration := time - lastSeg.start }]

/-- The iteration `srtfBody` of `runSRTF` in exact arithmetic. -/
def srtfBody (s : SRTFState) : SRTFState :=
  match srtfCandidates s with
  | [] => { s with time := s.time + 1 }
  | c :: _ =>
    let curr := deref s.remaining c
    let opened : List Segment × Option String :=
      if s.lastPid ≠ some curr.pid then
        ((if s.lastPid ≠ none then setLastDuration s.schedule s.time else s.schedule) ++
            [{ pid := curr.pid, start := s.time, duration := 0 }],
          some curr.pid)
      else (s.schedule, s.lastPid)
    let rem := curr.remaining - 1
    let time := s.time + 1
    if rem = 0 then
      { time := time
        schedule := opened.1
        remaining := mutate s.remaining c (fun j => { j with remaining := rem, completion := some time })
        completed := s.completed + 1
        lastPid := none }
    else
      { time := time
        schedule := opened.1
        remaining := mutate s.remaining c (fun j => { j with remaining := rem })
        completed := s.completed
        lastPid := opened.2 }

/-- The iteration `rrBody` of `runRR` in exact arithmetic. -/
def rrBody (q : Int) (s : RRState) : RRState :=
  let qa := rrAdmit s.time s.remaining s.queue s.arrived
  match qa.1 with
  | [] => { s with time := s.time + 1, queue := [], arrived := qa.2 }
  | c :: rest =>
    let curr := deref s.remaining c
    let exec := min q curr.remaining
    let start := s.time
    let time := s.time + exec
    let rem := curr.remaining - exec
    let schedule := s.schedule ++ [{ pid := curr.pid, start := start, duration := exec }]
    if 0 < rem then
      { time := time
        queue := rest ++ [c]
        schedule := schedule
        remaining := mutate s.remaining c (fun j => { j with remaining := rem })
        arrived := qa.2 }
    else
      { time := time
        queue := rest
        schedule := schedule
        remaining := mutate s.remaining c (fun j => { j with remaining := rem, completion := some time })
        arrived := qa.2 }

end Exact

/-! ## The safe integers -/

/-- The latest arrival time of the registry, counted from 0. -/
def latestArrival (P : List Process) : Nat :=
  (P.map (fun p => p.arrival.toNat)).foldr max 0

/-- How far below 0 the earliest arrival time of the registry lies (0 when no arrival time is
negative). -/
def earliestArrival (P : List Process) : Nat :=
  (P.map (fun p => (-p.arrival).toNat)).foldr max 0

/-- The times of a run on the registry `P` are safe integers: the latest arrival plus the
total of the bursts, plus the distance below 0 of the earliest arrival when there is a
negative one, is at most `2 ^ 53`. Every time, remaining time, turnaround and waiting time
that a run computes is then an integer of absolute value at most `2 ^ 53`. -/
def SafeTimes (P : List Process) : Prop :=
  earliestArrival P + latestArrival P + burstTotal P ≤ maxSafe

instance (P : List Process) : Decidable (SafeTimes P) :=
  inferInstanceAs (Decidable (earliestArrival P + latestArrival P + burstTotal P ≤ maxSafe))

/-- What the loops keep true about the size of their numbers on the registry `P`: the time is
not negative, the work that remains is at most the total of the bursts, and the time plus the
work that remains is at most the latest arrival plus the total of the bursts. -/
structure RunSafe (P : List Process) (time : Int) (remaining : List Job) : Prop where
  time_nonneg : 0 ≤ time
  work_le : (remaining.map (fun j => j.remaining.toNat)).sum ≤ burstTotal P
  time_le : time + ((remaining.map (fun j => j.remaining.toNat)).sum : Nat) ≤
    (latestArrival P : Int) + (burstTotal P : Nat)

/-- The completion times recorded so far are not after the current time. -/
def CompletedByNow (time : Int) (remaining : List Job) : Prop :=
  ∀ i, i < remaining.length → (deref remaining i).remaining = 0 →
    ∀ c, (deref remaining i).completion = some c → c ≤ time

/-- The segments opened so far start between 0 and the current time. -/
def StartedByNow (time : Int) (schedule : List Segment) : Prop :=
  ∀ seg ∈ schedule, 0 ≤ seg.start ∧ seg.start ≤ time

/-- What the loop of `runSRTF` keeps true about the size of its numbers. -/
structure SRTFSafe (P : List Process) (s : SRTFState) : Prop where
  run : RunSafe P s.time s.remaining
  started : StartedByNow s.time s.schedule
  completed : CompletedByNow s.time s.remaining

/-- What the loop of `runRR` keeps true about the size of its numbers. -/
structure RRSafe (P : List Process) (s : RRState) : Prop where
  run : RunSafe P s.time s.remaining
  completed : CompletedByNow s.time s.remaining

/-! ## The loop of `runSJF` and `runPriority` whatever the size of the numbers -/

/-- What the loop of `runSJF` / `runPriority` keeps true on the registry `P` whatever the size
of its numbers: the clock is a double; the working copies of the processes that are not done
are untouched; the ready list holds arrived processes that are not done, each once; a done
process has no work left and a completion time that is not after the clock; and the segments
of the timeline and the done processes correspond one to one, a segment carrying the pid and
the burst of its process, starting at or after its arrival, at a time at which its process
had the least key among the processes that had arrived and were not completed (not done, or
done with a later completion time). -/
structure NPLive (P : List Process) (skey : Process → Int) (s : NPState) : Prop where
  len : s.remaining.length = P.length
  time_num : num s.time = s.time
  pending : ∀ i, i < P.length → i ∉ s.done → deref s.remaining i = Job.ofProcess (deref P i)
  ready_nodup : s.ready.Nodup
  ready_ok : ∀ i ∈ s.ready, i < P.length ∧ i ∉ s.done ∧ (deref P i).arrival ≤ s.time
  done_nodup : s.done.Nodup
  done_lt : ∀ i ∈ s.done, i < P.length
  finished : ∀ i ∈ s.done, ∃ c, deref s.remaining i = Job.withRun (deref P i) (some c) 0 ∧
    c ≤ s.time
  aligned : List.Forall₂ (fun (seg : Segment) (i : Nat) =>
      seg.pid = (deref P i).pid ∧ seg.duration = (deref P i).burst ∧
      (deref P i).arrival ≤ seg.start ∧
      ∀ j, j < P.length → (deref P j).arrival ≤ seg.start →
        (j ∈ s.done → ∀ cj, (deref s.remaining j).completion = some cj → seg.start < cj) →
        skey (deref P i) ≤ skey (deref P j))
    s.schedule s.done

/-- The processes that the admission pass of the iteration `k` of `runSJF` pushes on the ready
list, in the order in which it pushes them. -/
def sjfAdmitted (P : List Process) (k : Nat) : List Nat :=
  (admitReady (sjfStateAt P k).time (sjfStateAt P k).remaining (sjfStateAt P k).ready).drop
    (sjfStateAt P k).ready.length

/-- By the iteration `k` of `runSJF`, the process `i` was admitted to the ready list before the
process `j`: at an earlier iteration, or at the same iteration with `i` before `j` in the
registry. -/
def AdmittedBefore (P : List Process) (k i j : Nat) : Prop :=
  ∃ ki kj, ki ≤ kj ∧ kj ≤ k ∧ i ∈ sjfAdmitted P ki ∧ j ∈ sjfAdmitted P kj ∧ (ki = kj → i < j)

/-! # Theorems -/

/-! ## Arrays of objects, references and sorting; loops with fuel -/

theorem length_mutate {α : Type} (h : List α) (i : Nat) (f : α → α) : (mutate h i f).length = h.length := by
  unfold mutate; split <;> simp

theorem getElem?_mutate {α : Type} (h : List α) (i j : Nat) (f : α → α) :
    (mutate h i f)[j]? = if i = j then h[j]?.map f else h[j]? := by
  unfold mutate
  split
  · rename_i a ha
    by_cases hij : i = j
    · subst hij
      have hi : i < h.length := by
        rcases List.getElem?_eq_some.mp ha with ⟨hi, _⟩; exact hi
      simp [ha, hi]
    · simp [hij, List.getElem?_set_ne hij]
  · rename_i ha
    by_cases hij : i = j
    · subst hij; simp [ha]
    · simp [hij]

theorem getD_mutate {α : Type} (h : List α) (i j : Nat) (f : α → α) (d : α) (hj : j < h.length) :
    (mutate h i f).getD j d = if i = j then f (h.getD j d) else h.getD j d := by
  have := getElem?_mutate h i j f
  simp only [List.getD_eq_getElem?_getD, this]
  split <;> simp [List.getElem?_eq_getElem hj]

theorem pair_sublist_indexOf_lt {l : List Nat} (hl : l.Nodup) {a b : Nat}
    (h : List.Sublist [a, b] l) : l.indexOf a < l.indexOf b := by
  induction l with
  | nil => simp at h
  | cons x l ih =>
    rw [List.nodup_cons] at hl
    cases h with
    | cons _ h' =>
      have ha : a ∈ l := h'.subset (by simp)
      have hb : b ∈ l := h'.subset (by simp)
      have hxa : a ≠ x := fun e => hl.1 (e ▸ ha)
      have hxb : b ≠ x := fun e => hl.1 (e ▸ hb)
      rw [List.indexOf_cons_ne _ hxa.symm, List.indexOf_cons_ne _ hxb.symm]
      exact Nat.succ_lt_succ (ih hl.2 h')
    | cons₂ _ h' =>
      have hb : b ∈ l := h'.subset (by simp)
      have hxb : b ≠ a := fun e => hl.1 (e ▸ hb)
      rw [List.indexOf_cons_self, List.indexOf_cons_ne _ hxb.symm]
      exact Nat.succ_pos _

theorem pair_sublist_of_increasing {l : List Nat} (hl : l.Pairwise (fun a b => a < b)) {a b : Nat}
    (ha : a ∈ l) (hb : b ∈ l) (hab : a < b) : List.Sublist [a, b] l := by
  induction l with
  | nil => simp at ha
  | cons x l ih =>
    rw [List.pairwise_cons] at hl
    rcases List.mem_cons.mp ha with rfl | ha'
    · rcases List.mem_cons.mp hb with rfl | hb'
      · omega
      · exact List.Sublist.cons₂ _ (List.singleton_sublist.mpr hb')
    · rcases List.mem_cons.mp hb with rfl | hb'
      · have := hl.1 a ha'
        omega
      · exact List.Sublist.cons _ (ih hl.2 ha' hb')

theorem sortRefs_perm (key : Nat → Int) (l : List Nat) : (sortRefs key l).Perm l :=
  List.perm_insertionSort _ l

theorem sortRefs_sorted (key : Nat → Int) (l : List Nat) :
    (sortRefs key l).Pairwise (fun i j => key i ≤ key j) := by
  haveI : IsTotal ℕ (fun i j => key i ≤ key j) := ⟨fun a b => le_total (key a) (key b)⟩
  haveI : IsTrans ℕ (fun i j => key i ≤ key j) := ⟨fun a b c h1 h2 => le_trans h1 h2⟩
  exact List.sorted_insertionSort _ l

theorem sortRefs_pairwise (key : Nat → Int) (l : List Nat) (hl : l.Pairwise (fun a b => a < b)) :
    (sortRefs key l).Pairwise (fun i j => key i < key j ∨ (key i = key j ∧ i < j)) := by
  haveI : IsTotal ℕ (fun i j => key i ≤ key j) := ⟨fun a b => le_total (key a) (key b)⟩
  haveI : IsTrans ℕ (fun i j => key i ≤ key j) := ⟨fun a b c h1 h2 => le_trans h1 h2⟩
  have hs := sortRefs_sorted key l
  have hnd : (sortRefs key l).Nodup :=
    (sortRefs_perm key l).nodup_iff.mpr (hl.imp (fun h => Nat.ne_of_lt h))
  rw [List.pairwise_iff_forall_sublist]
  intro i j hij
  have hle : key i ≤ key j := (List.pairwise_iff_forall_sublist.mp hs) hij
  rcases lt_or_eq_of_le hle with hlt | heq
  · exact Or.inl hlt
  · refine Or.inr ⟨heq, ?_⟩
    by_contra hnot
    have h1 := pair_sublist_indexOf_lt hnd hij
    have hne : i ≠ j := by
      intro e
      subst e
      omega
    have hji : j < i := by omega
    have hi : i ∈ l := (sortRefs_perm key l).subset (hij.subset (by simp))
    have hj : j ∈ l := (sortRefs_perm key l).subset (hij.subset (by simp))
    have hsub : List.Sublist [j, i] l := pair_sublist_of_increasing hl hj hi hji
    have hsub2 : List.Sublist [j, i] (sortRefs key l) :=
      List.pair_sublist_insertionSort (r := fun i j => key i ≤ key j) (le_of_eq heq.symm) hsub
    have h2 := pair_sublist_indexOf_lt hnd hsub2
    omega

theorem mutate_fold {α : Type} (f : α → α) (d : α) (l : List Nat) : ∀ heap : List α, l.Nodup →
    (∀ i ∈ l, i < heap.length) →
    (l.foldl (fun h i => mutate h i f) heap).length = heap.length ∧
      (∀ j, j ∉ l → (l.foldl (fun h i => mutate h i f) heap)[j]? = heap[j]?) ∧
      (∀ j, j ∈ l → (l.foldl (fun h i => mutate h i f) heap).getD j d = f (heap.getD j d)) := by
  induction l with
  | nil => intro heap _ _; simp
  | cons i l ih =>
    intro heap hnd hlt
    rw [List.nodup_cons] at hnd
    have hi : i < heap.length := hlt i (by simp)
    obtain ⟨h1, h2, h3⟩ := ih (mutate heap i f) hnd.2
      (fun j hj => by rw [length_mutate]; exact hlt j (by simp [hj]))
    simp only [List.foldl_cons]
    refine ⟨by rw [h1, length_mutate], ?_, ?_⟩
    · intro j hj
      simp only [List.mem_cons, not_or] at hj
      rw [h2 j hj.2, getElem?_mutate, if_neg (Ne.symm hj.1)]
    · intro j hj
      rcases List.mem_cons.mp hj with rfl | hj'
      · have := h2 j hnd.1
        rw [List.getD_eq_getElem?_getD, this, ← List.getD_eq_getElem?_getD, getD_mutate _ _ _ _ _ hi]
        simp
      · rw [h3 j hj', getD_mutate _ _ _ _ _ (hlt j hj), if_neg (fun (e : i = j) => hnd.1 (e ▸ hj'))]

theorem fcfsSorted_perm (processes : List Process) :
    (fcfsSorted processes).Perm (List.range processes.length) :=
  sortRefs_perm _ _

theorem fcfsSorted_nodup (processes : List Process) : (fcfsSorted processes).Nodup :=
  (fcfsSorted_perm processes).nodup_iff.mpr (List.nodup_range _)

theorem fcfsSorted_lt (processes : List Process) :
    ∀ i ∈ fcfsSorted processes, i < processes.length := by
  intro i hi
  exact List.mem_range.mp ((fcfsSorted_perm processes).subset hi)

theorem whileLoop_mono {σ : Type} (cond : σ → Bool) (body : σ → σ) :
    ∀ (fuel : Nat) (s s' : σ), whileLoop cond body fuel s = some s' →
      ∀ fuel', fuel ≤ fuel' → whileLoop cond body fuel' s = some s' := by
  intro fuel
  induction fuel with
  | zero => intro s s' h; simp [whileLoop] at h
  | succ k ih =>
    intro s s' h fuel' hle
    obtain ⟨m, rfl⟩ : ∃ m, fuel' = m + 1 := ⟨fuel' - 1, by omega⟩
    simp only [whileLoop] at h ⊢
    split
    · rename_i hc
      rw [if_pos hc] at h
      exact ih _ _ h m (by omega)
    · rename_i hc
      rw [if_neg hc] at h
      exact h

/-- A loop whose body keeps an invariant and decreases a measure ends, within as many
iterations as the measure allows, in a state that has the invariant and fails the test. -/
theorem whileLoop_terminates {σ : Type} (cond : σ → Bool) (body : σ → σ) (Inv : σ → Prop)
    (μ : σ → Nat)
    (hstep : ∀ s, Inv s → cond s = true → Inv (body s) ∧ μ (body s) < μ s) :
    ∀ (fuel : Nat) (s : σ), Inv s → μ s < fuel →
      ∃ s', whileLoop cond body fuel s = some s' ∧ Inv s' ∧ cond s' = false := by
  intro fuel
  induction fuel with
  | zero => intro s _ h; omega
  | succ k ih =>
    intro s hinv hμ
    simp only [whileLoop]
    by_cases hc : cond s = true
    · rw [if_pos hc]
      obtain ⟨h1, h2⟩ := hstep s hinv hc
      exact ih (body s) h1 (by omega)
    · rw [if_neg hc]
      exact ⟨s, rfl, hinv, by simpa using hc⟩

theorem mutate_nil {α : Type} (i : Nat) (f : α → α) : mutate [] i f = [] := by
  simp [mutate]

theorem mutate_cons_zero {α : Type} (a : α) (l : List α) (f : α → α) :
    mutate (a :: l) 0 f = f a :: l := by
  simp [mutate]

theorem mutate_cons_succ {α : Type} (a : α) (l : List α) (i : Nat) (f : α → α) :
    mutate (a :: l) (i + 1) f = a :: mutate l i f := by
  simp only [mutate, List.getElem?_cons_succ]
  split <;> simp

theorem sum_map_mutate {α : Type} (g : α → Nat) (f : α → α) (d : α) :
    ∀ (l : List α) (i : Nat), i < l.length →
      ((mutate l i f).map g).sum + g (l.getD i d) = (l.map g).sum + g (f (l.getD i d)) := by
  intro l
  induction l with
  | nil => intro i hi; simp at hi
  | cons a l ih =>
    intro i hi
    cases i with
    | zero => simp [mutate_cons_zero]; omega
    | succ i =>
      have := ih i (by simpa using hi)
      simp only [mutate_cons_succ, List.map_cons, List.sum_cons, List.getD_cons_succ]
      omega

theorem countP_mutate {α : Type} (p : α → Bool) (f : α → α) (d : α) :
    ∀ (l : List α) (i : Nat), i < l.length →
      (mutate l i f).countP p + (if p (l.getD i d) then 1 else 0) =
        l.countP p + (if p (f (l.getD i d)) then 1 else 0) := by
  intro l
  induction l with
  | nil => intro i hi; simp at hi
  | cons a l ih =>
    intro i hi
    cases i with
    | zero =>
      simp only [mutate_cons_zero, List.countP_cons, List.getD_cons_zero]
      omega
    | succ i =>
      have := ih i (by simpa using hi)
      simp only [mutate_cons_succ, List.countP_cons, List.getD_cons_succ]
      omega

theorem map_mutate_of_fixed {α β : Type} (g : α → β) (f : α → α) (hf : ∀ a, g (f a) = g a) :
    ∀ (l : List α) (i : Nat), (mutate l i f).map g = l.map g := by
  intro l
  induction l with
  | nil => intro i; simp [mutate_nil]
  | cons a l ih =>
    intro i
    cases i with
    | zero => simp [mutate_cons_zero, hf]
    | succ i => simp [mutate_cons_succ, ih]

theorem getD_mutate_self {α : Type} (h : List α) (i : Nat) (f : α → α) (d : α)
    (hi : i < h.length) : (mutate h i f).getD i d = f (h.getD i d) := by
  rw [getD_mutate h i i f d hi, if_pos rfl]

theorem getD_mutate_ne {α : Type} (h : List α) (i j : Nat) (f : α → α) (d : α)
    (hij : i ≠ j) : (mutate h i f).getD j d = h.getD j d := by
  rw [List.getD_eq_getElem?_getD, List.getD_eq_getElem?_getD, getElem?_mutate, if_neg hij]

theorem deref_mutate_self {α : Type} [Inhabited α] (h : List α) (i : Nat) (f : α → α)
    (hi : i < h.length) : deref (mutate h i f) i = f (deref h i) :=
  getD_mutate_self h i f default hi

theorem deref_mutate_ne {α : Type} [Inhabited α] (h : List α) (i j : Nat) (f : α → α)
    (hij : i ≠ j) : deref (mutate h i f) j = deref h j :=
  getD_mutate_ne h i j f default hij

theorem deref_map {α β : Type} [Inhabited α] [Inhabited β] (g : α → β) (h : List α) (i : Nat)
    (hi : i < h.length) : deref (h.map g) i = g (deref h i) := by
  simp [deref, List.getD_eq_getElem?_getD, List.getElem?_eq_getElem hi]

theorem deref_mem {α : Type} [Inhabited α] (h : List α) (i : Nat) (hi : i < h.length) :
    deref h i ∈ h := by
  simp [deref, List.getD_eq_getElem?_getD, List.getElem?_eq_getElem hi]

theorem exists_deref_of_mem {α : Type} [Inhabited α] (h : List α) (a : α) (ha : a ∈ h) :
    ∃ i, i < h.length ∧ deref h i = a := by
  obtain ⟨i, hi, rfl⟩ := List.getElem_of_mem ha
  exact ⟨i, hi, by simp [deref, List.getD_eq_getElem?_getD, List.getElem?_eq_getElem hi]⟩

theorem sortRefs_head_le (key : Nat → Int) (l : List Nat) (c : Nat) (rest : List Nat)
    (h : sortRefs key l = c :: rest) : ∀ j ∈ l, key c ≤ key j := by
  intro j hj
  have hs := sortRefs_sorted key l
  rw [h, List.pairwise_cons] at hs
  have hj' : j ∈ c :: rest := h ▸ (sortRefs_perm key l).symm.subset hj
  rcases List.mem_cons.mp hj' with rfl | hj'
  · exact le_refl _
  · exact hs.1 j hj'

theorem sortRefs_eq_nil (key : Nat → Int) (l : List Nat) (h : sortRefs key l = []) : l = [] := by
  have := (sortRefs_perm key l).length_eq
  rw [h] at this
  exact List.length_eq_zero.mp this.symm

/-- A list of numbers that is shorter than `n` misses one of the numbers below `n`. -/
theorem exists_not_mem_of_length_lt (l : List Nat) (n : Nat)
    (hlen : l.length < n) : ∃ j, j < n ∧ j ∉ l := by
  by_contra hcon
  push_neg at hcon
  have hsub : List.range n ⊆ l := fun j hj => hcon j (List.mem_range.mp hj)
  have := (List.subperm_of_subset (List.nodup_range n) hsub).length_le
  rw [List.length_range] at this
  omega

theorem length_le_of_nodup_lt (l : List Nat) (n : Nat) (hnd : l.Nodup) (hlt : ∀ i ∈ l, i < n) :
    l.length ≤ n := by
  have hsub : l ⊆ List.range n := fun j hj => List.mem_range.mpr (hlt j hj)
  have := (List.subperm_of_subset hnd hsub).length_le
  rwa [List.length_range] at this

theorem admitReady_fold (time : Int) (R : List Job) (good : Nat → Prop)
    (hpid : ∀ i j, i < R.length → j < R.length → (deref R i).pid = (deref R j).pid → i = j)
    (hgood : ∀ i, i < R.length → (deref R i).arrival ≤ time → 0 < (deref R i).remaining → good i)
    (l : List Nat) : ∀ rdy : List Nat, (∀ i ∈ l, i < R.length) → rdy.Nodup →
      (∀ i ∈ rdy, i < R.length ∧ good i) →
      (l.foldl (fun rdy i =>
          if (deref R i).arrival ≤ time ∧ 0 < (deref R i).remaining ∧
              ∀ r ∈ rdy, (deref R r).pid ≠ (deref R i).pid then rdy ++ [i] else rdy) rdy).Nodup ∧
        (∀ i ∈ (l.foldl (fun rdy i =>
          if (deref R i).arrival ≤ time ∧ 0 < (deref R i).remaining ∧
              ∀ r ∈ rdy, (deref R r).pid ≠ (deref R i).pid then rdy ++ [i] else rdy) rdy),
          i < R.length ∧ good i) ∧
        (∀ i ∈ rdy, i ∈ (l.foldl (fun rdy i =>
          if (deref R i).arrival ≤ time ∧ 0 < (deref R i).remaining ∧
              ∀ r ∈ rdy, (deref R r).pid ≠ (deref R i).pid then rdy ++ [i] else rdy) rdy)) ∧
        (∀ i ∈ l, (deref R i).arrival ≤ time → 0 < (deref R i).remaining →
          i ∈ (l.foldl (fun rdy i =>
          if (deref R i).arrival ≤ time ∧ 0 < (deref R i).remaining ∧
              ∀ r ∈ rdy, (deref R r).pid ≠ (deref R i).pid then rdy ++ [i] else rdy) rdy)) := by
  induction l with
  | nil => intro rdy _ hnd hok; exact ⟨hnd, hok, fun i hi => hi, fun i hi => by simp at hi⟩
  | cons a l ih =>
    intro rdy hl hnd hok
    have ha : a < R.length := hl a (by simp)
    have hl' : ∀ i ∈ l, i < R.length := fun i hi => hl i (by simp [hi])
    simp only [List.foldl_cons]
    by_cases hc : (deref R a).arrival ≤ time ∧ 0 < (deref R a).remaining ∧
        ∀ r ∈ rdy, (deref R r).pid ≠ (deref R a).pid
    · rw [if_pos hc]
      have hnot : a ∉ rdy := fun hmem => hc.2.2 a hmem rfl
      obtain ⟨h1, h2, h3, h4⟩ := ih (rdy ++ [a]) hl'
        (List.nodup_append.mpr ⟨hnd, List.nodup_singleton a, by
          intro x hx hx'
          rw [List.mem_singleton] at hx'
          exact hnot (hx' ▸ hx)⟩)
        (by
          intro i hi
          rcases List.mem_append.mp hi with hi | hi
          · exact hok i hi
          · rw [List.mem_singleton] at hi
            subst hi
            exact ⟨ha, hgood i ha hc.1 hc.2.1⟩)
      refine ⟨h1, h2, fun i hi => h3 i (List.mem_append_left _ hi), ?_⟩
      intro i hi harr hrem
      rcases List.mem_cons.mp hi with rfl | hi'
      · exact h3 i (List.mem_append_right _ (List.mem_singleton_self i))
      · exact h4 i hi' harr hrem
    · rw [if_neg hc]
      obtain ⟨h1, h2, h3, h4⟩ := ih rdy hl' hnd hok
      refine ⟨h1, h2, h3, ?_⟩
      intro i hi harr hrem
      rcases List.mem_cons.mp hi with rfl | hi'
      · have : ¬ ∀ r ∈ rdy, (deref R r).pid ≠ (deref R i).pid := fun hall => hc ⟨harr, hrem, hall⟩
        push_neg at this
        obtain ⟨r, hr, hrp⟩ := this
        have : r = i := hpid r i (hok r hr).1 ha hrp
        exact h3 i (this ▸ hr)
      · exact h4 i hi' harr hrem

theorem admitReady_spec (time : Int) (R : List Job) (good : Nat → Prop) (rdy : List Nat)
    (hpid : ∀ i j, i < R.length → j < R.length → (deref R i).pid = (deref R j).pid → i = j)
    (hgood : ∀ i, i < R.length → (deref R i).arrival ≤ time → 0 < (deref R i).remaining → good i)
    (hnd : rdy.Nodup) (hok : ∀ i ∈ rdy, i < R.length ∧ good i) :
    (admitReady time R rdy).Nodup ∧
      (∀ i ∈ admitReady time R rdy, i < R.length ∧ good i) ∧
      (∀ i ∈ rdy, i ∈ admitReady time R rdy) ∧
      (∀ i, i < R.length → (deref R i).arrival ≤ time → 0 < (deref R i).remaining →
        i ∈ admitReady time R rdy) := by
  obtain ⟨h1, h2, h3, h4⟩ := admitReady_fold time R good hpid hgood (List.range R.length) rdy
    (fun i hi => List.mem_range.mp hi) hnd hok
  exact ⟨h1, h2, h3, fun i hi => h4 i (List.mem_range.mpr hi)⟩

theorem NPInv.fields {P : List Process} {skey : Process → Int} {s : NPState}
    (h : NPInv P skey s) (i : Nat) (hi : i < P.length) :
    (deref s.remaining i).pid = (deref P i).pid ∧
      (deref s.remaining i).arrival = (deref P i).arrival ∧
      (i ∉ s.done → (deref s.remaining i).remaining = (deref P i).burst) ∧
      (i ∈ s.done → (deref s.remaining i).remaining = 0) := by
  by_cases hd : i ∈ s.done
  · obtain ⟨c, hc, _⟩ := h.finished i hd
    rw [hc]
    exact ⟨rfl, rfl, fun hn => absurd hd hn, fun _ => rfl⟩
  · rw [h.pending i hi hd]
    exact ⟨rfl, rfl, fun _ => rfl, fun hn => absurd hn hd⟩

theorem npInit_inv (P : List Process) (skey : Process → Int) : NPInv P skey (npInit P) where
  len := by simp [npInit]
  ready_nodup := by simp [npInit]
  ready_ok := by simp [npInit]
  done_nodup := by simp [npInit]
  done_lt := by simp [npInit]
  pending := by
    intro i hi _
    simp only [npInit]
    exact deref_map Job.ofProcess P i hi
  finished := by simp [npInit]
  sched := by simp [npInit]
  minimal := by simp [npInit]

theorem arrival_le_arrivalBound (P : List Process) (i : Nat) (hi : i < P.length) :
    (deref P i).arrival ≤ (arrivalBound P : Int) := by
  have hmem := deref_mem P i hi
  have h1 : (deref P i).arrival.toNat ≤ arrivalBound P :=
    List.single_le_sum (by simp) _ (List.mem_map_of_mem (fun p => p.arrival.toNat) hmem)
  have h2 := Int.self_le_toNat (deref P i).arrival
  omega

theorem distinctPids_of_nodup (P : List Process) (h : (P.map (fun p => p.pid)).Nodup) :
    DistinctPids P := by
  intro i j hi hj hpid
  have hi' : i < (P.map (fun p => p.pid)).length := by simpa using hi
  have hj' : j < (P.map (fun p => p.pid)).length := by simpa using hj
  have e : (P.map (fun p => p.pid))[i] = (P.map (fun p => p.pid))[j] := by
    simp only [deref, List.getD_eq_getElem?_getD, List.getElem?_eq_getElem hi,
      List.getElem?_eq_getElem hj, Option.getD_some] at hpid
    simpa using hpid
  exact (List.Nodup.getElem_inj_iff h).mp e

theorem burst_pos_of_forall (P : List Process) (h : ∀ p ∈ P, 0 < p.burst) :
    ∀ i, i < P.length → 0 < (deref P i).burst :=
  fun i hi => h _ (deref_mem P i hi)

theorem forall₂_map_map {ι α β : Type} (rel : α → β → Prop) (f : ι → α) (g : ι → β)
    (l : List ι) (h : ∀ i ∈ l, rel (f i) (g i)) : List.Forall₂ rel (l.map f) (l.map g) := by
  induction l with
  | nil => exact List.Forall₂.nil
  | cons a l ih =>
    exact List.Forall₂.cons (h a (by simp)) (ih (fun i hi => h i (by simp [hi])))

theorem map_deref_range {α : Type} [Inhabited α] (P : List α) :
    (List.range P.length).map (deref P) = P := by
  apply List.ext_getElem
  · simp
  · intro i h1 h2
    simp [deref, List.getD_eq_getElem?_getD, List.getElem?_eq_getElem h2]

theorem whileLoop_eq_of_le {σ : Type} (cond : σ → Bool) (body : σ → σ) (fuel fuel' : Nat)
    (s : σ) (h : (whileLoop cond body fuel s).isSome = true) (hle : fuel ≤ fuel') :
    whileLoop cond body fuel' s = whileLoop cond body fuel s := by
  obtain ⟨s', hs'⟩ := Option.isSome_iff_exists.mp h
  rw [hs', whileLoop_mono cond body fuel s s' hs' fuel' hle]

theorem map_eq_of_forall₂ {α β γ : Type} (f : α → γ) (g : β → γ) (l₁ : List α) (l₂ : List β)
    (h : List.Forall₂ (fun a b => f a = g b) l₁ l₂) : l₁.map f = l₂.map g := by
  induction h with
  | nil => rfl
  | cons hab _ ih => simp [hab, ih]

theorem srtfCandidates_mem (s : SRTFState) (i : Nat) :
    i ∈ srtfCandidates s ↔
      i < s.remaining.length ∧ (deref s.remaining i).arrival ≤ s.time ∧
        0 < (deref s.remaining i).remaining := by
  unfold srtfCandidates
  rw [(sortRefs_perm _ _).mem_iff]
  simp [List.mem_filter]

theorem rrAdmit_fold (time : Int) (R : List Job) (l : List Nat) :
    ∀ (queue : List Nat) (arrived : List String),
      ∃ new : List Nat,
        l.foldl (fun (qa : List Nat × List String) i =>
            if (deref R i).arrival ≤ time ∧ 0 < (deref R i).remaining ∧ (deref R i).pid ∉ qa.2
            then (qa.1 ++ [i], qa.2 ++ [(deref R i).pid]) else qa) (queue, arrived) =
          (queue ++ new, arrived ++ new.map (fun i => (deref R i).pid)) ∧
        new.Sublist l ∧
        (∀ i ∈ new, (deref R i).arrival ≤ time ∧ 0 < (deref R i).remaining ∧
          (deref R i).pid ∉ arrived) ∧
        (∀ i ∈ l, (deref R i).arrival ≤ time → 0 < (deref R i).remaining →
          (deref R i).pid ∈ arrived ++ new.map (fun i => (deref R i).pid)) := by
  induction l with
  | nil =>
    intro queue arrived
    exact ⟨[], by simp, List.Sublist.refl _, by simp, by simp⟩
  | cons a l ih =>
    intro queue arrived
    simp only [List.foldl_cons]
    by_cases hc : (deref R a).arrival ≤ time ∧ 0 < (deref R a).remaining ∧
        (deref R a).pid ∉ arrived
    · rw [if_pos hc]
      obtain ⟨new, h1, h2, h3, h4⟩ := ih (queue ++ [a]) (arrived ++ [(deref R a).pid])
      refine ⟨a :: new, ?_, List.Sublist.cons₂ _ h2, ?_, ?_⟩
      · rw [h1]
        simp
      · intro i hi
        rcases List.mem_cons.mp hi with rfl | hi'
        · exact hc
        · obtain ⟨x1, x2, x3⟩ := h3 i hi'
          exact ⟨x1, x2, fun hmem => x3 (List.mem_append_left _ hmem)⟩
      · intro i hi harr hrem
        rcases List.mem_cons.mp hi with rfl | hi'
        · simp
        · have := h4 i hi' harr hrem
          simpa using this
    · rw [if_neg hc]
      obtain ⟨new, h1, h2, h3, h4⟩ := ih queue arrived
      refine ⟨new, h1, List.Sublist.cons _ h2, h3, ?_⟩
      intro i hi harr hrem
      rcases List.mem_cons.mp hi with rfl | hi'
      · have : (deref R i).pid ∈ arrived := by
          by_contra hn
          exact hc ⟨harr, hrem, hn⟩
        exact List.mem_append_left _ this
      · exact h4 i hi' harr hrem

/-- The admission pass of `runRR` appends to the queue, in registry order, processes that
have arrived, have work remaining and were not admitted before; afterwards every process
that has arrived and has work remaining is admitted. -/
theorem rrAdmit_spec (time : Int) (R : List Job) (queue : List Nat) (arrived : List String) :
    ∃ new : List Nat,
      rrAdmit time R queue arrived =
        (queue ++ new, arrived ++ new.map (fun i => (deref R i).pid)) ∧
      new.Sublist (List.range R.length) ∧
      (∀ i ∈ new, (deref R i).arrival ≤ time ∧ 0 < (deref R i).remaining ∧
        (deref R i).pid ∉ arrived) ∧
      (∀ i, i < R.length → (deref R i).arrival ≤ time → 0 < (deref R i).remaining →
        (deref R i).pid ∈ (rrAdmit time R queue arrived).2) := by
  obtain ⟨new, h1, h2, h3, h4⟩ := rrAdmit_fold time R (List.range R.length) queue arrived
  refine ⟨new, h1, h2, h3, ?_⟩
  intro i hi harr hrem
  have := h4 i (List.mem_range.mpr hi) harr hrem
  have e : rrAdmit time R queue arrived =
      (queue ++ new, arrived ++ new.map (fun i => (deref R i).pid)) := h1
  rw [e]
  exact this

theorem RRInv.pid {P : List Process} {q : Int} {s : RRState} (h : RRInv P q s) (i : Nat)
    (hi : i < P.length) : (deref s.remaining i).pid = (deref P i).pid := by
  rw [h.form i hi]; rfl

theorem RRInv.arrival {P : List Process} {q : Int} {s : RRState} (h : RRInv P q s) (i : Nat)
    (hi : i < P.length) : (deref s.remaining i).arrival = (deref P i).arrival := by
  rw [h.form i hi]; rfl

theorem unadmitted_admit (P : List Process) (arrived : List String)
    (new : List Nat) (hnd : new.Nodup) (hlt : ∀ i ∈ new, i < P.length)
    (hnew : ∀ i ∈ new, (deref P i).pid ∉ arrived) :
    unadmitted P (arrived ++ new.map (fun i => (deref P i).pid)) + new.length ≤
      unadmitted P arrived := by
  unfold unadmitted
  rw [← List.length_append]
  apply (List.subperm_of_subset _ _).length_le
  · refine List.nodup_append.mpr ⟨(List.nodup_range _).filter _, hnd, ?_⟩
    intro i hi hi'
    simp only [List.mem_filter, List.mem_range, List.mem_append, List.mem_map, not_or,
      decide_eq_true_eq] at hi
    exact hi.2.2 ⟨i, hi', rfl⟩
  · intro i hi
    simp only [List.mem_filter, List.mem_range, decide_eq_true_eq]
    rcases List.mem_append.mp hi with h | h
    · simp only [List.mem_filter, List.mem_range, List.mem_append, not_or,
        decide_eq_true_eq] at h
      exact ⟨h.1, h.2.1⟩
    · exact ⟨hlt i h, hnew i h⟩

theorem rr_admit_inv (P : List Process) (q : Int) (hP : DistinctPids P) (s : RRState)
    (hinv : RRInv P q s) :
    RRInv P q { s with queue := (rrAdmit s.time s.remaining s.queue s.arrived).1,
                       arrived := (rrAdmit s.time s.remaining s.queue s.arrived).2 } ∧
      (∀ i ∈ (rrAdmit s.time s.remaining s.queue s.arrived).1,
        (deref P i).pid ∈ (rrAdmit s.time s.remaining s.queue s.arrived).2) ∧
      (∀ i, i < P.length → (deref P i).arrival ≤ s.time → 0 < (deref s.remaining i).remaining →
        (deref P i).pid ∈ (rrAdmit s.time s.remaining s.queue s.arrived).2) ∧
      (rrAdmit s.time s.remaining s.queue s.arrived).1.length +
          unadmitted P (rrAdmit s.time s.remaining s.queue s.arrived).2 ≤
        s.queue.length + unadmitted P s.arrived ∧
      (∀ i ∈ s.queue, i ∈ (rrAdmit s.time s.remaining s.queue s.arrived).1) := by
  obtain ⟨new, h1, h2, h3, h4⟩ := rrAdmit_spec s.time s.remaining s.queue s.arrived
  have hlt : ∀ i ∈ new, i < P.length := fun i hi =>
    hinv.len ▸ List.mem_range.mp (h2.subset hi)
  have hpids : new.map (fun i => (deref s.remaining i).pid) = new.map (fun i => (deref P i).pid) :=
    List.map_congr_left (fun i hi => hinv.pid i (hlt i hi))
  rw [hpids] at h1
  have h4' : ∀ i, i < P.length → (deref P i).arrival ≤ s.time →
      0 < (deref s.remaining i).remaining →
      (deref P i).pid ∈ (rrAdmit s.time s.remaining s.queue s.arrived).2 := by
    intro i hi harr hrem
    have := h4 i (hinv.len ▸ hi) (by rw [hinv.arrival i hi]; exact harr) hrem
    rwa [hinv.pid i hi] at this
  have h3' : ∀ i ∈ new, (deref P i).arrival ≤ s.time ∧ 0 < (deref s.remaining i).remaining ∧
      (deref P i).pid ∉ s.arrived := by
    intro i hi
    obtain ⟨x1, x2, x3⟩ := h3 i hi
    rw [hinv.arrival i (hlt i hi)] at x1
    rw [hinv.pid i (hlt i hi)] at x3
    exact ⟨x1, x2, x3⟩
  have hmemnew : ∀ i, i < P.length → (deref P i).pid ∈ new.map (fun i => (deref P i).pid) →
      i ∈ new := by
    intro i hi hmem
    obtain ⟨j, hj, hpid⟩ := List.mem_map.mp hmem
    have := hP j i (hlt j hj) hi hpid
    exact this ▸ hj
  have hnd : new.Nodup := h2.nodup (List.nodup_range _)
  rw [h1] at h4' ⊢
  simp only
  refine ⟨?_, ?_, h4', ?_, fun i hi => List.mem_append_left _ hi⟩
  · exact
      { len := hinv.len
        form := hinv.form
        rem_nonneg := hinv.rem_nonneg
        inq := by
          intro i hi
          rcases List.mem_append.mp hi with hi | hi
          · obtain ⟨x1, x2⟩ := hinv.inq i hi
            refine ⟨x1, ?_⟩
            rcases x2 with x2 | x2
            · exact Or.inl (List.mem_append_left _ x2)
            · exact Or.inr x2
          · exact ⟨hlt i hi, Or.inl (List.mem_append_right _
              (List.mem_map_of_mem (fun i => (deref P i).pid) hi))⟩
        queued := by
          intro i hi hmem hrem
          rcases List.mem_append.mp hmem with hmem | hmem
          · exact List.mem_append_left _ (hinv.queued i hi hmem hrem)
          · exact List.mem_append_right _ (hmemnew i hi hmem)
        fresh := by
          intro i hi hq ha
          simp only [List.mem_append, not_or] at hq ha
          exact hinv.fresh i hi hq.1 ha.1
        timely := by
          intro i hi hor
          by_cases hold : i ∈ s.queue ∨ (deref P i).pid ∈ s.arrived
          · exact hinv.timely i hi hold
          · push_neg at hold
            have hin : i ∈ new := by
              rcases hor with hor | hor
              · rcases List.mem_append.mp hor with h | h
                · exact absurd h hold.1
                · exact h
              · rcases List.mem_append.mp hor with h | h
                · exact absurd h hold.2
                · exact hmemnew i hi h
            have hf := hinv.fresh i hi hold.1 hold.2
            have hr : (deref s.remaining i).remaining = (deref P i).burst := by rw [hf]; rfl
            rw [hr]
            have := (h3' i hin).1
            simp only
            omega
        completed := hinv.completed
        served_eq := hinv.served_eq
        slices := hinv.slices }
  · intro i hi
    rcases List.mem_append.mp hi with hi | hi
    · obtain ⟨x1, x2⟩ := hinv.inq i hi
      rcases x2 with x2 | x2
      · exact List.mem_append_left _ x2
      · exact h4' i x1 x2.1 x2.2
    · exact List.mem_append_right _ (List.mem_map_of_mem (fun i => (deref P i).pid) hi)
  · have := unadmitted_admit P s.arrived new hnd hlt (fun i hi => (h3' i hi).2.2)
    rw [List.length_append]
    omega

theorem served_append_singleton (l : List Segment) (seg : Segment) (pid : String) :
    served (l ++ [seg]) pid = served l pid + (if seg.pid = pid then seg.duration else 0) := by
  unfold served
  by_cases h : seg.pid = pid
  · simp [List.filter_append, h]
  · simp [List.filter_append, h]

theorem slices_append (P : List Process) (q : Int) (sched : List Segment) (new : Segment)
    (h : ∀ pre seg post, sched = pre ++ seg :: post →
      ∃ i, i < P.length ∧ (deref P i).pid = seg.pid ∧
        seg.duration = min q ((deref P i).burst - served pre seg.pid))
    (hnew : ∃ i, i < P.length ∧ (deref P i).pid = new.pid ∧
        new.duration = min q ((deref P i).burst - served sched new.pid)) :
    ∀ pre seg post, sched ++ [new] = pre ++ seg :: post →
      ∃ i, i < P.length ∧ (deref P i).pid = seg.pid ∧
        seg.duration = min q ((deref P i).burst - served pre seg.pid) := by
  intro pre seg post heq
  rcases List.eq_nil_or_concat post with hp | ⟨post', last, hp⟩
  · subst hp
    have := List.append_inj' heq (by simp)
    obtain ⟨e1, e2⟩ := this
    simp only [List.cons.injEq, and_true] at e2
    subst e1 e2
    exact hnew
  · subst hp
    have heq' : sched ++ [new] = (pre ++ seg :: post') ++ [last] := by
      rw [heq]; simp
    have := List.append_inj' heq' (by simp)
    exact h pre seg post' this.1

theorem sum_toNat_mutate (f : Job → Job) (R : List Job) (i : Nat) (hi : i < R.length) :
    ((mutate R i f).map (fun j => j.remaining.toNat)).sum + (deref R i).remaining.toNat =
      (R.map (fun j => j.remaining.toNat)).sum + (f (deref R i)).remaining.toNat :=
  sum_map_mutate (fun j : Job => j.remaining.toNat) f default R i hi

theorem rrInit_inv (P : List Process) (q : Int) (hb : ∀ i, i < P.length → 0 < (deref P i).burst) :
    RRInv P q (rrInit P) := by
  have hd : ∀ i, i < P.length → deref (P.map Job.ofProcess) i = Job.ofProcess (deref P i) :=
    fun i hi => deref_map Job.ofProcess P i hi
  exact
    { len := by simp [rrInit]
      form := by
        intro i hi
        simp only [rrInit]
        rw [hd i hi]
        rfl
      rem_nonneg := by
        intro i hi
        simp only [rrInit]
        rw [hd i hi]
        exact le_of_lt (hb i hi)
      inq := by
        intro i hi
        simp only [rrInit, List.mem_filter, List.mem_range, List.length_map,
          decide_eq_true_eq] at hi ⊢
        rw [hd i hi.1] at hi ⊢
        refine ⟨hi.1, Or.inr ⟨?_, hb i hi.1⟩⟩
        have : (deref P i).arrival = 0 := hi.2
        omega
      queued := by simp [rrInit]
      fresh := by
        intro i hi _ _
        simp only [rrInit]
        exact hd i hi
      timely := by
        intro i hi hor
        simp only [rrInit, List.mem_filter, List.mem_range, List.length_map, decide_eq_true_eq,
          List.not_mem_nil, or_false] at hor ⊢
        rw [hd i hi] at hor ⊢
        have h1 : (deref P i).arrival = 0 := hor.2
        have h2 : (Job.ofProcess (deref P i)).remaining = (deref P i).burst := rfl
        omega
      completed := by
        intro i hi hz
        simp only [rrInit] at hz
        rw [hd i hi] at hz
        have h2 : (Job.ofProcess (deref P i)).remaining = (deref P i).burst := rfl
        have := hb i hi
        omega
      served_eq := by
        intro i hi
        simp only [rrInit]
        rw [hd i hi]
        simp [served, Job.ofProcess]
      slices := by
        intro pre seg post h
        simp [rrInit] at h }

theorem rrQuantum_pos (q : Int) (hq : 0 < q) : rrQuantum (some q) = q := by
  simp only [rrQuantum]
  rw [if_neg (by omega)]

theorem exists_not_of_countP_lt {α : Type} (p : α → Bool) (l : List α)
    (h : l.countP p < l.length) : ∃ a ∈ l, p a = false := by
  by_contra hcon
  push_neg at hcon
  have : l.countP p = l.length := List.countP_eq_length.mpr (fun a ha => by simpa using hcon a ha)
  omega

theorem countP_toNat_mutate (f : Job → Job) (R : List Job) (i : Nat) (hi : i < R.length) :
    (mutate R i f).countP (fun j => decide (j.remaining = 0)) +
        (if (deref R i).remaining = 0 then 1 else 0) =
      R.countP (fun j => decide (j.remaining = 0)) +
        (if (f (deref R i)).remaining = 0 then 1 else 0) := by
  have := countP_mutate (fun j : Job => decide (j.remaining = 0)) f default R i hi
  simpa [deref] using this

theorem srtfInit_inv (P : List Process) (hb : ∀ i, i < P.length → 0 < (deref P i).burst) :
    SRTFInv P (srtfInit P) := by
  have hd : ∀ i, i < P.length → deref (P.map Job.ofProcess) i = Job.ofProcess (deref P i) :=
    fun i hi => deref_map Job.ofProcess P i hi
  exact
    { len := by simp [srtfInit]
      form := by
        intro i hi
        simp only [srtfInit]
        rw [hd i hi]
        rfl
      rem_nonneg := by
        intro i hi
        simp only [srtfInit]
        rw [hd i hi]
        exact le_of_lt (hb i hi)
      rem_le := by
        intro i hi
        simp only [srtfInit]
        rw [hd i hi]
        exact le_refl _
      count := by
        simp only [srtfInit]
        symm
        rw [List.countP_eq_zero]
        intro j hj
        obtain ⟨i, hi, rfl⟩ := exists_deref_of_mem _ j hj
        rw [List.length_map] at hi
        rw [hd i hi]
        have := hb i hi
        have h2 : (Job.ofProcess (deref P i)).remaining = (deref P i).burst := rfl
        simp only [decide_eq_true_eq, h2]
        omega
      timely := by
        intro i hi hlt
        simp only [srtfInit] at hlt
        rw [hd i hi] at hlt
        exact absurd hlt (lt_irrefl _)
      completed := by
        intro i hi hz
        simp only [srtfInit] at hz
        rw [hd i hi] at hz
        have h2 : (Job.ofProcess (deref P i)).remaining = (deref P i).burst := rfl
        have := hb i hi
        omega }

theorem forall₂_with_mem {α β : Type} (rel : α → β → Prop) (l₁ : List α) (l₂ : List β)
    (h : List.Forall₂ rel l₁ l₂) :
    List.Forall₂ (fun a b => rel a b ∧ a ∈ l₁ ∧ b ∈ l₂) l₁ l₂ := by
  induction h with
  | nil => exact List.Forall₂.nil
  | cons hab _ ih =>
    refine List.Forall₂.cons ⟨hab, by simp, by simp⟩ (ih.imp ?_)
    intro a b h
    exact ⟨h.1, List.mem_cons_of_mem _ h.2.1, List.mem_cons_of_mem _ h.2.2⟩

theorem count_pid_eq_one (pids : List String) (P : List Process)
    (hperm : pids.Perm (P.map (fun p => p.pid))) (hpid : (P.map (fun p => p.pid)).Nodup) :
    ∀ p ∈ P, pids.count p.pid = 1 := by
  intro p hp
  rw [hperm.count_eq]
  exact List.count_eq_one_of_mem hpid (List.mem_map_of_mem (fun p => p.pid) hp)

theorem pid_perm_of_entered_perm {α : Type} (f : α → Process) (l : List α) (P : List Process)
    (h : (l.map (fun a => (f a).entered)).Perm (P.map Process.entered)) :
    (l.map (fun a => (f a).pid)).Perm (P.map (fun p => p.pid)) := by
  have := h.map (fun (x : String × Int × Int × Int) => x.1)
  simpa [List.map_map, Function.comp, Process.entered] using this

theorem srtfCandidates_ordered (s : SRTFState) :
    (srtfCandidates s).Pairwise (fun i j =>
      (deref s.remaining i).remaining < (deref s.remaining j).remaining ∨
        ((deref s.remaining i).remaining = (deref s.remaining j).remaining ∧ i < j)) := by
  unfold srtfCandidates
  exact sortRefs_pairwise (fun i => (deref s.remaining i).remaining) _
    ((List.pairwise_lt_range _).filter _)

theorem sortRefs_cons (key : Nat → Int) (a : Nat) (l : List Nat) :
    sortRefs key (a :: l) = List.orderedInsert (fun i j => key i ≤ key j) a (sortRefs key l) := rfl

/-- The head of a stable sort is the first element of the list whose key is least. -/
theorem sortRefs_head_first_min (key : Nat → Int) (l : List Nat) :
    ∀ (c : Nat) (rest : List Nat), sortRefs key l = c :: rest →
      ∃ l₁ l₂, l = l₁ ++ c :: l₂ ∧ (∀ j ∈ l₁, key c < key j) ∧ (∀ j ∈ l₂, key c ≤ key j) := by
  induction l with
  | nil => intro c rest h; simp [sortRefs] at h
  | cons a l ih =>
    intro c rest h
    rw [sortRefs_cons] at h
    cases hs : sortRefs key l with
    | nil =>
      have hl := sortRefs_eq_nil key l hs
      rw [hs] at h
      simp only [List.orderedInsert, List.cons.injEq] at h
      obtain ⟨rfl, _⟩ := h
      exact ⟨[], [], by simp [hl], by simp, by simp⟩
    | cons c' rest' =>
      rw [hs] at h
      simp only [List.orderedInsert] at h
      by_cases hle : key a ≤ key c'
      · rw [if_pos hle] at h
        simp only [List.cons.injEq] at h
        obtain ⟨rfl, _⟩ := h
        refine ⟨[], l, by simp, by simp, ?_⟩
        intro j hj
        exact le_trans hle (sortRefs_head_le key l c' rest' hs j hj)
      · rw [if_neg hle] at h
        simp only [List.cons.injEq] at h
        obtain ⟨rfl, _⟩ := h
        obtain ⟨l₁, l₂, h1, h2, h3⟩ := ih c' rest' hs
        refine ⟨a :: l₁, l₂, by simp [h1], ?_, h3⟩
        intro j hj
        rcases List.mem_cons.mp hj with rfl | hj'
        · omega
        · exact h2 j hj'

theorem admitReady_append (time : Int) (R : List Job) (l : List Nat) :
    ∀ rdy : List Nat, ∃ new : List Nat,
      l.foldl (fun rdy i =>
          if (deref R i).arrival ≤ time ∧ 0 < (deref R i).remaining ∧
              ∀ r ∈ rdy, (deref R r).pid ≠ (deref R i).pid then rdy ++ [i] else rdy) rdy =
        rdy ++ new ∧ new.Sublist l := by
  induction l with
  | nil => intro rdy; exact ⟨[], by simp, List.Sublist.refl _⟩
  | cons a l ih =>
    intro rdy
    simp only [List.foldl_cons]
    split
    · obtain ⟨new, h1, h2⟩ := ih (rdy ++ [a])
      exact ⟨a :: new, by rw [h1]; simp, List.Sublist.cons₂ _ h2⟩
    · obtain ⟨new, h1, h2⟩ := ih rdy
      exact ⟨new, h1, List.Sublist.cons _ h2⟩

/-- Appending a segment that starts at the current time keeps a timeline free of overlaps and
of idle time with ready processes, when the end of the timeline was so far. -/
theorem idleOnly_append (P : List Process) (sched : List Segment) (b : Segment)
    (hgaps : IdleOnlyWhenNothingReady P sched)
    (htail : ∀ pre a, sched = pre ++ [a] →
      a.start + a.duration ≤ b.start ∧
        (a.start + a.duration < b.start →
          ∀ p ∈ P, p.arrival ≤ a.start + a.duration → served sched p.pid = p.burst)) :
    IdleOnlyWhenNothingReady P (sched ++ [b]) := by
  intro pre a b' post heq
  rcases List.eq_nil_or_concat post with hp | ⟨post', last, hp⟩
  · subst hp
    have heq' : sched ++ [b] = (pre ++ [a]) ++ [b'] := by rw [heq]; simp
    obtain ⟨e1, e2⟩ := List.append_inj' heq' (by simp)
    simp only [List.cons.injEq, and_true] at e2
    subst e2
    obtain ⟨h1, h2⟩ := htail pre a e1
    refine ⟨h1, ?_⟩
    intro hlt p hp harr
    rw [← e1]
    exact h2 hlt p hp harr
  · subst hp
    have heq' : sched ++ [b] = (pre ++ a :: b' :: post') ++ [last] := by rw [heq]; simp
    obtain ⟨e1, _⟩ := List.append_inj' heq' (by simp)
    exact hgaps pre a b' post' e1

theorem forall_mem_of_forall_deref {α : Type} [Inhabited α] (P : List α) (Q : α → Prop)
    (h : ∀ i, i < P.length → Q (deref P i)) : ∀ p ∈ P, Q p := by
  intro p hp
  obtain ⟨i, hi, rfl⟩ := exists_deref_of_mem P p hp
  exact h i hi

theorem rrInit_gap (P : List Process) : RRGap P (rrInit P) := by
  refine ⟨?_, ?_⟩
  · intro pre a h
    simp [rrInit] at h
  · intro pre a b post h
    simp [rrInit] at h

theorem npInit_gap (P : List Process) : NPGap P (npInit P) := by
  refine ⟨?_, ?_, ?_⟩
  · intro pre a h
    simp [npInit] at h
  · intro i _
    simp [npInit, served]
  · intro pre a b post h
    simp [npInit] at h

theorem fcfsRule_append (l₁ : List Process) : ∀ (c : Int) (l₂ : List Process),
    fcfsRule c (l₁ ++ l₂) = fcfsRule c l₁ ++ fcfsRule (fcfsCursor c l₁) l₂ := by
  induction l₁ with
  | nil => intro c l₂; rfl
  | cons p l₁ ih =>
    intro c l₂
    rw [List.cons_append, fcfsRule, fcfsRule, fcfsCursor, ih, List.cons_append]

theorem fcfsCursor_append (l₁ : List Process) : ∀ (c : Int) (l₂ : List Process),
    fcfsCursor c (l₁ ++ l₂) = fcfsCursor (fcfsCursor c l₁) l₂ := by
  induction l₁ with
  | nil => intro c l₂; rfl
  | cons p l₁ ih =>
    intro c l₂
    rw [List.cons_append, fcfsCursor, fcfsCursor, ih]

theorem served_eq_zero (l : List Segment) (pid : String) (h : ∀ seg ∈ l, seg.pid ≠ pid) :
    served l pid = 0 := by
  unfold served
  have : l.filter (fun seg => decide (seg.pid = pid)) = [] := by
    rw [List.filter_eq_nil_iff]
    intro seg hseg
    simpa using h seg hseg
  rw [this]
  rfl

theorem fcfsRule_gaps (c : Int) (ps : List Process) :
    ps.Pairwise (fun x y => x.arrival ≤ y.arrival) → (ps.map (fun p => p.pid)).Nodup →
    (∀ pre a, fcfsRule c ps = pre ++ [a] → a.start + a.duration = fcfsCursor c ps) ∧
    (∀ seg ∈ fcfsRule c ps, ∃ p ∈ ps, seg.pid = p.pid) ∧
    (∀ p ∈ ps, served (fcfsRule c ps) p.pid = p.burst) ∧
    (∀ pre a b post, fcfsRule c ps = pre ++ a :: b :: post →
      a.start + a.duration ≤ b.start ∧
        (a.start + a.duration < b.start →
          (∀ p ∈ ps, p.arrival ≤ a.start + a.duration → served (pre ++ [a]) p.pid = p.burst) ∧
            ∃ pb ∈ ps, pb.arrival = b.start)) := by
  induction ps using List.reverseRecOn with
  | nil =>
    intro _ _
    refine ⟨?_, ?_, ?_, ?_⟩
    · intro pre a h; simp [fcfsRule] at h
    · intro seg h; simp [fcfsRule] at h
    · intro p h; simp at h
    · intro pre a b post h; simp [fcfsRule] at h
  | append_singleton ps p ih =>
    intro hsorted hnd
    rw [List.pairwise_append] at hsorted
    obtain ⟨hs1, _, hs3⟩ := hsorted
    rw [List.map_append, List.nodup_append] at hnd
    obtain ⟨hn1, _, hn3⟩ := hnd
    obtain ⟨itail, ipids, iserved, igaps⟩ := ih hs1 hn1
    have hlate : ∀ x ∈ ps, x.arrival ≤ p.arrival := fun x hx => hs3 x hx p (by simp)
    have hfresh : ∀ x ∈ ps, x.pid ≠ p.pid := by
      intro x hx e
      exact hn3 (List.mem_map_of_mem (fun p => p.pid) hx) (by simp [e])
    have hrule : fcfsRule c (ps ++ [p]) = fcfsRule c ps ++
        [{ pid := p.pid, start := max (fcfsCursor c ps) p.arrival, duration := p.burst }] := by
      rw [fcfsRule_append]
      rfl
    have hcur : fcfsCursor c (ps ++ [p]) = max (fcfsCursor c ps) p.arrival + p.burst := by
      rw [fcfsCursor_append]
      rfl
    have hzero : served (fcfsRule c ps) p.pid = 0 := by
      apply served_eq_zero
      intro seg hseg e
      obtain ⟨x, hx, hxp⟩ := ipids seg hseg
      exact hfresh x hx (hxp ▸ e)
    rw [hrule, hcur]
    refine ⟨?_, ?_, ?_, ?_⟩
    · intro pre a heq
      obtain ⟨_, e2⟩ := List.append_inj' heq (by simp)
      simp only [List.cons.injEq, and_true] at e2
      subst e2
      rfl
    · intro seg hseg
      rcases List.mem_append.mp hseg with h | h
      · obtain ⟨x, hx, hxp⟩ := ipids seg h
        exact ⟨x, List.mem_append_left _ hx, hxp⟩
      · rw [List.mem_singleton] at h
        subst h
        exact ⟨p, by simp, rfl⟩
    · intro x hx
      rw [served_append_singleton]
      rcases List.mem_append.mp hx with h | h
      · rw [iserved x h, if_neg (fun e => hfresh x h e.symm)]
        simp
      · rw [List.mem_singleton] at h
        subst h
        rw [hzero]
        simp
    · intro pre a b post heq
      rcases List.eq_nil_or_concat post with hp | ⟨post', last, hp⟩
      · subst hp
        have heq' : fcfsRule c ps ++
            [{ pid := p.pid, start := max (fcfsCursor c ps) p.arrival, duration := p.burst }] =
            (pre ++ [a]) ++ [b] := by rw [heq]; simp
        obtain ⟨e1, e2⟩ := List.append_inj' heq' (by simp)
        simp only [List.cons.injEq, and_true] at e2
        subst e2
        have hend := itail pre a e1
        simp only
        refine ⟨by rw [hend]; exact le_max_left _ _, ?_⟩
        intro hlt
        have hparr : fcfsCursor c ps < p.arrival := by
          rw [hend] at hlt
          by_contra hcon
          rw [max_eq_left (by omega)] at hlt
          exact absurd hlt (lt_irrefl _)
        refine ⟨?_, p, by simp, ?_⟩
        · intro x hx harr
          rcases List.mem_append.mp hx with h | h
          · rw [← e1]
            exact iserved x h
          · rw [List.mem_singleton] at h
            subst h
            omega
        · rw [max_eq_right (le_of_lt hparr)]
      · subst hp
        have heq' : fcfsRule c ps ++
            [{ pid := p.pid, start := max (fcfsCursor c ps) p.arrival, duration := p.burst }] =
            (pre ++ a :: b :: post') ++ [last] := by rw [heq]; simp
        obtain ⟨e1, _⟩ := List.append_inj' heq' (by simp)
        obtain ⟨g1, g2⟩ := igaps pre a b post' e1
        refine ⟨g1, ?_⟩
        intro hlt
        obtain ⟨g3, pb, hpb, hpbs⟩ := g2 hlt
        refine ⟨?_, pb, List.mem_append_left _ hpb, hpbs⟩
        intro x hx harr
        rcases List.mem_append.mp hx with h | h
        · exact g3 x h harr
        · rw [List.mem_singleton] at h
          subst h
          have := hlate pb hpb
          omega

/-! ## The registry: default labels -/

theorem digitChar_value (k : Nat) (hk : k < 10) : (Nat.digitChar k).toNat - 48 = k := by
  interval_cases k <;> rfl

theorem digitsValue_toDigitsCore (fuel : Nat) : ∀ (n : Nat) (ds : List Char), n < fuel →
    digitsValue 0 (Nat.toDigitsCore 10 fuel n ds) = digitsValue n ds := by
  induction fuel with
  | zero => intro n ds h; omega
  | succ fuel ih =>
    intro n ds h
    simp only [Nat.toDigitsCore]
    split
    · rename_i h0
      have hn : n < 10 := by omega
      simp only [digitsValue, List.foldl_cons, Nat.mod_eq_of_lt hn, digitChar_value n hn]
      simp
    · rename_i h0
      rw [ih (n / 10) _ (by omega)]
      simp only [digitsValue, List.foldl_cons, digitChar_value (n % 10) (Nat.mod_lt _ (by decide))]
      congr 1
      omega

theorem toString_nat_injective (a b : Nat) (h : toString a = toString b) : a = b := by
  have h' : Nat.toDigits 10 a = Nat.toDigits 10 b := by
    have : (Nat.toDigits 10 a).asString = (Nat.toDigits 10 b).asString := h
    exact congrArg String.data this
  have ha := digitsValue_toDigitsCore (a + 1) a [] (by omega)
  have hb := digitsValue_toDigitsCore (b + 1) b [] (by omega)
  simp only [digitsValue, List.foldl_nil] at ha hb
  have e : digitsValue 0 (Nat.toDigits 10 a) = digitsValue 0 (Nat.toDigits 10 b) := by rw [h']
  simp only [Nat.toDigits, digitsValue] at e
  omega

theorem labelOf_injective (a b : Nat) (h : labelOf a = labelOf b) : a = b := by
  have h1 : ("P" ++ toString (a + 1)).data = ("P" ++ toString (b + 1)).data := by
    simp only [labelOf] at h
    rw [h]
  simp only [String.data_append, List.append_cancel_left_eq] at h1
  have h2 : toString (a + 1) = toString (b + 1) := String.ext h1
  have := toString_nat_injective _ _ h2
  omega

theorem defaultPid_eq_labelOf (processes : List Process) :
    defaultPid processes = labelOf processes.length := rfl

theorem addProcess_ok (processes : List Process) (pidField : String)
    (a b p : Option Int) (processes' : List Process)
    (h : addProcess processes pidField a b p = Except.ok processes') :
    processes' = processes ++ [newProcess (if pidField = "" then defaultPid processes else pidField)
      (parseOr a 0) (parseOr b 1) (parseOr p 1)] := by
  simp only [addProcess] at h
  split at h
  · exact absurd h (by simp)
  · simp only [Except.ok.injEq] at h
    exact h.symm

theorem applyOp_blank_add (processes : List Process) (a b p : Option Int) :
    applyOp processes (RegistryOp.add "" a b p) = processes ∨
      applyOp processes (RegistryOp.add "" a b p) =
        processes ++ [newProcess (labelOf processes.length) (parseOr a 0) (parseOr b 1)
          (parseOr p 1)] := by
  simp only [applyOp]
  cases h : addProcess processes "" a b p with
  | error e => exact Or.inl rfl
  | ok processes' =>
    right
    have := addProcess_ok processes "" a b p processes' h
    simpa [defaultPid_eq_labelOf] using this

theorem blank_adds_labels (ops : List RegistryOp)
    (hops : ∀ op ∈ ops, ∃ a b p, op = RegistryOp.add "" a b p) :
    ∀ processes : List Process,
      processes.map (fun p => p.pid) = (List.range processes.length).map labelOf →
      (ops.foldl applyOp processes).map (fun p => p.pid) =
        (List.range (ops.foldl applyOp processes).length).map labelOf := by
  induction ops with
  | nil => intro processes h; exact h
  | cons op ops ih =>
    intro processes h
    simp only [List.foldl_cons]
    apply ih (fun op' hop' => hops op' (by simp [hop']))
    obtain ⟨a, b, p, rfl⟩ := hops op (by simp)
    rcases applyOp_blank_add processes a b p with e | e
    · rw [e]; exact h
    · rw [e]
      simp only [List.map_append, List.length_append, List.length_singleton, List.range_succ,
        List.map_cons, List.map_nil, h]
      rfl

/-! ## The loops in exact arithmetic: invariants and termination -/

namespace Exact

theorem fcfsVisit_of_getElem? {st : FCFSState} {i : Nat} {p : Process} (h : st.heap[i]? = some p) :
    fcfsVisit st i =
      { time := max st.time p.arrival + p.burst
        schedule := st.schedule ++ [{ pid := p.pid, start := max st.time p.arrival, duration := p.burst }]
        heap := st.heap.set i { p with completion := some (max st.time p.arrival + p.burst) } } := by
  have hmax : (if st.time < p.arrival then p.arrival else st.time) = max st.time p.arrival := by
    split
    · rw [max_eq_right (by omega)]
    · rw [max_eq_left (by omega)]
  simp only [fcfsVisit, h, hmax]

theorem fcfs_fold (l : List Nat) : ∀ st : FCFSState, l.Nodup → (∀ i ∈ l, i < st.heap.length) →
    (l.foldl fcfsVisit st).schedule =
        st.schedule ++ fcfsRule st.time (l.map (fun i => st.heap.getD i default)) ∧
      (l.foldl fcfsVisit st).heap.length = st.heap.length ∧
      (∀ j, j ∉ l → (l.foldl fcfsVisit st).heap[j]? = st.heap[j]?) ∧
      l.map (fun i => (l.foldl fcfsVisit st).heap.getD i default) =
        List.zipWith (fun (p : Process) (seg : Segment) =>
            { p with completion := some (seg.start + seg.duration) })
          (l.map (fun i => st.heap.getD i default))
          (fcfsRule st.time (l.map (fun i => st.heap.getD i default))) := by
  induction l with
  | nil => intro st _ _; simp [fcfsRule]
  | cons i l ih =>
    intro st hnd hlt
    rw [List.nodup_cons] at hnd
    have hi : i < st.heap.length := hlt i (by simp)
    obtain ⟨p, hget⟩ : ∃ p, st.heap[i]? = some p := ⟨st.heap[i], List.getElem?_eq_getElem hi⟩
    have hpD : st.heap.getD i default = p := by
      rw [List.getD_eq_getElem?_getD, hget]; rfl
    have hv := fcfsVisit_of_getElem? hget
    simp only [List.foldl_cons, List.map_cons, hpD]
    generalize fcfsVisit st i = st1 at hv ⊢
    have hlen1 : st1.heap.length = st.heap.length := by rw [hv]; simp
    have hsame : ∀ j, j ≠ i → st1.heap[j]? = st.heap[j]? := by
      intro j hj
      rw [hv]
      simp [List.getElem?_set_ne (Ne.symm hj)]
    have hsameD : ∀ j, j ≠ i → st1.heap.getD j default = st.heap.getD j default := by
      intro j hj
      rw [List.getD_eq_getElem?_getD, List.getD_eq_getElem?_getD, hsame j hj]
    have hmap : l.map (fun j => st1.heap.getD j default) = l.map (fun j => st.heap.getD j default) := by
      apply List.map_congr_left
      intro j hj
      exact hsameD j (fun e => hnd.1 (e ▸ hj))
    obtain ⟨h1, h2, h3, h4⟩ := ih st1 hnd.2 (fun j hj => by rw [hlen1]; exact hlt j (by simp [hj]))
    have htime : st1.time = max st.time p.arrival + p.burst := by rw [hv]
    have hsched : st1.schedule =
        st.schedule ++ [{ pid := p.pid, start := max st.time p.arrival, duration := p.burst }] := by
      rw [hv]
    refine ⟨?_, ?_, ?_, ?_⟩
    · rw [h1, hmap, htime, hsched, fcfsRule, List.append_assoc]
      rfl
    · rw [h2, hlen1]
    · intro j hj
      simp only [List.mem_cons, not_or] at hj
      rw [h3 j hj.2, hsame j hj.1]
    · rw [fcfsRule, List.zipWith_cons_cons, h4, hmap, htime]
      congr 1
      have : (List.foldl fcfsVisit st1 l).heap[i]? = st1.heap[i]? := h3 i hnd.1
      rw [List.getD_eq_getElem?_getD, this, hv]
      simp [List.getElem?_set_self, hi]

theorem npBody_idle (key : Job → Int) (s : NPState)
    (h : sortRefs (fun i => key (deref s.remaining i))
      (admitReady s.time s.remaining s.ready) = []) :
    npBody key s = { s with time := s.time + 1, ready := [] } := by
  simp only [npBody, h]

theorem npBody_run (key : Job → Int) (s : NPState) (c : Nat) (rest : List Nat)
    (h : sortRefs (fun i => key (deref s.remaining i))
      (admitReady s.time s.remaining s.ready) = c :: rest) :
    npBody key s =
      { time := s.time + (deref s.remaining c).remaining
        ready := rest
        done := s.done ++ [c]
        schedule := s.schedule ++
          [{ pid := (deref s.remaining c).pid, start := s.time,
             duration := (deref s.remaining c).remaining }]
        remaining := mutate s.remaining c (fun j =>
          { j with completion := some (s.time + (deref s.remaining c).remaining), remaining := 0 }) } := by
  simp only [npBody, h]

theorem npBody_step (P : List Process) (key : Job → Int) (skey : Process → Int)
    (hkey : ∀ p, key (Job.ofProcess p) = skey p) (hP : DistinctPids P)
    (hb : ∀ i, i < P.length → 0 < (deref P i).burst)
    (M : Int) (hM : ∀ i, i < P.length → (deref P i).arrival ≤ M)
    (s : NPState) (hinv : NPInv P skey s) (hc : npCond P.length s = true) :
    NPInv P skey (npBody key s) ∧
      (P.length - (npBody key s).done.length) + (M - (npBody key s).time).toNat <
        (P.length - s.done.length) + (M - s.time).toNat := by
  have hlen := hinv.len
  have hdone : s.done.length < P.length := by simpa [npCond] using hc
  obtain ⟨a1, a2, a3, a4⟩ := admitReady_spec s.time s.remaining
    (fun i => i ∉ s.done ∧ (deref P i).arrival ≤ s.time) s.ready
    (by
      intro i j hi hj hpid
      rw [hlen] at hi hj
      rw [(hinv.fields i hi).1, (hinv.fields j hj).1] at hpid
      exact hP i j hi hj hpid)
    (by
      intro i hi harr hrem
      rw [hlen] at hi
      obtain ⟨_, f2, _, f4⟩ := hinv.fields i hi
      refine ⟨fun hd => ?_, f2 ▸ harr⟩
      rw [f4 hd] at hrem
      omega)
    hinv.ready_nodup
    (fun i hi => ⟨hlen ▸ (hinv.ready_ok i hi).1, (hinv.ready_ok i hi).2⟩)
  cases hsort : sortRefs (fun i => key (deref s.remaining i))
      (admitReady s.time s.remaining s.ready) with
  | nil =>
    rw [npBody_idle key s hsort]
    have hnil := sortRefs_eq_nil _ _ hsort
    obtain ⟨j, hj, hjd⟩ := exists_not_mem_of_length_lt s.done P.length hdone
    have hjarr : s.time < (deref P j).arrival := by
      by_contra hcon
      have hmem := a4 j (hlen ▸ hj)
        (by rw [(hinv.fields j hj).2.1]; omega)
        (by rw [(hinv.fields j hj).2.2.1 hjd]; exact hb j hj)
      rw [hnil] at hmem
      simp at hmem
    have hMj := hM j hj
    refine ⟨?_, ?_⟩
    · exact
        { len := hinv.len
          ready_nodup := List.nodup_nil
          ready_ok := by simp
          done_nodup := hinv.done_nodup
          done_lt := hinv.done_lt
          pending := hinv.pending
          finished := by
            intro i hi
            obtain ⟨c, h1, h2, h3⟩ := hinv.finished i hi
            exact ⟨c, h1, h2, by simp only; omega⟩
          sched := hinv.sched
          minimal := hinv.minimal }
    · simp only
      omega
  | cons c rest =>
    rw [npBody_run key s c rest hsort]
    have hperm := sortRefs_perm (fun i => key (deref s.remaining i))
      (admitReady s.time s.remaining s.ready)
    rw [hsort] at hperm
    have hcmem : c ∈ admitReady s.time s.remaining s.ready := hperm.subset (by simp)
    have hnd : (c :: rest).Nodup := hperm.nodup_iff.mpr a1
    rw [List.nodup_cons] at hnd
    obtain ⟨hcR, hcd, hcarr⟩ := a2 c hcmem
    have hcP : c < P.length := hlen ▸ hcR
    have hcurr : deref s.remaining c = Job.ofProcess (deref P c) := hinv.pending c hcP hcd
    have hmin := sortRefs_head_le _ _ c rest hsort
    have hbc := hb c hcP
    have hrem : (deref s.remaining c).remaining = (deref P c).burst := by rw [hcurr]; rfl
    have hpidc : (deref s.remaining c).pid = (deref P c).pid := by rw [hcurr]; rfl
    rw [hrem, hpidc]
    have hne : ∀ i ∈ s.done, c ≠ i := fun i hi e => hcd (e ▸ hi)
    refine ⟨?_, ?_⟩
    · exact
        { len := by simp only [length_mutate]; exact hlen
          ready_nodup := hnd.2
          ready_ok := by
            intro i hi
            obtain ⟨h1, h2, h3⟩ := a2 i (hperm.subset (List.mem_cons_of_mem _ hi))
            refine ⟨hlen ▸ h1, ?_, by simp only; omega⟩
            simp only [List.mem_append, List.mem_singleton, not_or]
            exact ⟨h2, fun e => hnd.1 (e ▸ hi)⟩
          done_nodup := by
            simp only
            exact List.nodup_append.mpr ⟨hinv.done_nodup, List.nodup_singleton c, by
              intro x hx hx'
              rw [List.mem_singleton] at hx'
              exact hcd (hx' ▸ hx)⟩
          done_lt := by
            intro i hi
            rcases List.mem_append.mp hi with hi | hi
            · exact hinv.done_lt i hi
            · rw [List.mem_singleton] at hi
              exact hi ▸ hcP
          pending := by
            intro i hi hid
            simp only [List.mem_append, List.mem_singleton, not_or] at hid
            simp only
            rw [deref_mutate_ne _ _ _ _ (Ne.symm hid.2)]
            exact hinv.pending i hi hid.1
          finished := by
            intro i hi
            simp only
            rcases List.mem_append.mp hi with hi | hi
            · obtain ⟨ci, h1, h2, h3⟩ := hinv.finished i hi
              rw [deref_mutate_ne _ _ _ _ (hne i hi)]
              exact ⟨ci, h1, h2, by omega⟩
            · rw [List.mem_singleton] at hi
              subst hi
              rw [deref_mutate_self _ _ _ hcR, hcurr]
              exact ⟨s.time + (deref P i).burst, rfl, by omega, le_refl _⟩
          sched := by
            simp only [List.map_append, List.map_cons, List.map_nil]
            rw [deref_mutate_self _ _ _ hcR, hinv.sched]
            congr 1
            · apply List.map_congr_left
              intro i hi
              rw [deref_mutate_ne _ _ _ _ (hne i hi)]
            · simp
          minimal := by
            intro i hi j hj ci hci harr hlater
            simp only at hi hci hlater
            rcases List.mem_append.mp hi with hi | hi
            · rw [deref_mutate_ne _ _ _ _ (hne i hi)] at hci
              apply hinv.minimal i hi j hj ci hci harr
              intro hjd cj hcj
              apply hlater (List.mem_append_left _ hjd) cj
              rw [deref_mutate_ne _ _ _ _ (hne j hjd)]
              exact hcj
            · rw [List.mem_singleton] at hi
              subst hi
              rw [deref_mutate_self _ _ _ hcR] at hci
              simp only [Option.some.injEq] at hci
              subst hci
              have harr' : (deref P j).arrival ≤ s.time := by omega
              by_cases hji : j = i
              · subst hji; exact le_refl _
              by_cases hjd : j ∈ s.done
              · exfalso
                obtain ⟨cj, h1, h2, h3⟩ := hinv.finished j hjd
                have := hlater (List.mem_append_left _ hjd) cj (by
                  rw [deref_mutate_ne _ _ _ _ (hne j hjd), h1]; rfl)
                omega
              · have hjmem := a4 j (hlen ▸ hj)
                  (by rw [(hinv.fields j hj).2.1]; exact harr')
                  (by rw [(hinv.fields j hj).2.2.1 hjd]; exact hb j hj)
                have := hmin j hjmem
                simp only at this
                rw [hcurr, hinv.pending j hj hjd, hkey, hkey] at this
                exact this }
    · simp only [List.length_append, List.length_singleton]
      omega

/-- In exact arithmetic the loop of `runSJF` / `runPriority` ends, with every process done. -/
theorem np_loop (P : List Process) (key : Job → Int) (skey : Process → Int)
    (hkey : ∀ p, key (Job.ofProcess p) = skey p) (hP : DistinctPids P)
    (hb : ∀ i, i < P.length → 0 < (deref P i).burst) :
    ∃ s, (∀ fuel, npFuel P ≤ fuel →
        whileLoop (npCond P.length) (npBody key) fuel (npInit P) = some s) ∧
      NPInv P skey s ∧ s.done.Perm (List.range P.length) := by
  obtain ⟨s, h1, h2, h3⟩ := whileLoop_terminates (npCond P.length) (npBody key) (NPInv P skey)
    (fun s => (P.length - s.done.length) + ((arrivalBound P : Int) - s.time).toNat)
    (fun s hinv hc => npBody_step P key skey hkey hP hb (arrivalBound P)
      (arrival_le_arrivalBound P) s hinv hc)
    (npFuel P) (npInit P) (npInit_inv P skey) (by simp [npInit, npFuel])
  refine ⟨s, fun fuel hf => whileLoop_mono _ _ _ _ _ h1 fuel hf, h2, ?_⟩
  have hge : ¬ s.done.length < P.length := by simpa [npCond] using h3
  have hle := length_le_of_nodup_lt s.done P.length h2.done_nodup h2.done_lt
  have hsub : s.done ⊆ List.range P.length := fun j hj => List.mem_range.mpr (h2.done_lt j hj)
  exact (List.subperm_of_subset h2.done_nodup hsub).perm_of_length_le
    (by rw [List.length_range]; omega)

theorem srtfBody_idle (s : SRTFState) (h : srtfCandidates s = []) :
    srtfBody s = { s with time := s.time + 1 } := by
  simp only [srtfBody, h]

theorem srtfBody_run (s : SRTFState) (c : Nat) (rest : List Nat)
    (h : srtfCandidates s = c :: rest) :
    srtfBody s =
      if (deref s.remaining c).remaining - 1 = 0 then
        { time := s.time + 1
          schedule := (if s.lastPid ≠ some (deref s.remaining c).pid then
            ((if s.lastPid ≠ none then setLastDuration s.schedule s.time else s.schedule) ++
                [{ pid := (deref s.remaining c).pid, start := s.time, duration := 0 }],
              some (deref s.remaining c).pid)
            else (s.schedule, s.lastPid)).1
          remaining := mutate s.remaining c (fun j =>
            { j with remaining := (deref s.remaining c).remaining - 1,
                     completion := some (s.time + 1) })
          completed := s.completed + 1
          lastPid := none }
      else
        { time := s.time + 1
          schedule := (if s.lastPid ≠ some (deref s.remaining c).pid then
            ((if s.lastPid ≠ none then setLastDuration s.schedule s.time else s.schedule) ++
                [{ pid := (deref s.remaining c).pid, start := s.time, duration := 0 }],
              some (deref s.remaining c).pid)
            else (s.schedule, s.lastPid)).1
          remaining := mutate s.remaining c (fun j =>
            { j with remaining := (deref s.remaining c).remaining - 1 })
          completed := s.completed
          lastPid := (if s.lastPid ≠ some (deref s.remaining c).pid then
            ((if s.lastPid ≠ none then setLastDuration s.schedule s.time else s.schedule) ++
                [{ pid := (deref s.remaining c).pid, start := s.time, duration := 0 }],
              some (deref s.remaining c).pid)
            else (s.schedule, s.lastPid)).2 } := by
  simp only [srtfBody, h]

theorem srtfBody_time (s : SRTFState) : (srtfBody s).time = s.time + 1 := by
  cases h : srtfCandidates s with
  | nil => rw [srtfBody_idle s h]
  | cons c rest =>
    rw [srtfBody_run s c rest h]
    split <;> rfl

theorem srtfBody_length (s : SRTFState) : (srtfBody s).remaining.length = s.remaining.length := by
  cases h : srtfCandidates s with
  | nil => rw [srtfBody_idle s h]
  | cons c rest =>
    rw [srtfBody_run s c rest h]
    split <;> simp [length_mutate]

theorem srtf_iterate_time (P : List Process) (t : Nat) :
    (srtfBody^[t] (srtfInit P)).time = t := by
  induction t with
  | zero => rfl
  | succ k ih =>
    rw [Function.iterate_succ_apply', srtfBody_time, ih]
    push_cast
    rfl

theorem rrBody_idle (q : Int) (s : RRState)
    (h : (rrAdmit s.time s.remaining s.queue s.arrived).1 = []) :
    rrBody q s = { s with time := s.time + 1, queue := [],
                          arrived := (rrAdmit s.time s.remaining s.queue s.arrived).2 } := by
  simp only [rrBody, h]

theorem rrBody_run (q : Int) (s : RRState) (c : Nat) (rest : List Nat)
    (h : (rrAdmit s.time s.remaining s.queue s.arrived).1 = c :: rest) :
    rrBody q s =
      if 0 < (deref s.remaining c).remaining - min q (deref s.remaining c).remaining then
        { time := s.time + min q (deref s.remaining c).remaining
          queue := rest ++ [c]
          schedule := s.schedule ++
            [{ pid := (deref s.remaining c).pid, start := s.time, duration := min q (deref s.remaining c).remaining }]
          remaining := mutate s.remaining c (fun j =>
            { j with remaining := (deref s.remaining c).remaining - min q (deref s.remaining c).remaining })
          arrived := (rrAdmit s.time s.remaining s.queue s.arrived).2 }
      else
        { time := s.time + min q (deref s.remaining c).remaining
          queue := rest
          schedule := s.schedule ++
            [{ pid := (deref s.remaining c).pid, start := s.time, duration := min q (deref s.remaining c).remaining }]
          remaining := mutate s.remaining c (fun j =>
            { j with
              remaining := (deref s.remaining c).remaining - min q (deref s.remaining c).remaining
              completion := some (s.time + min q (deref s.remaining c).remaining) })
          arrived := (rrAdmit s.time s.remaining s.queue s.arrived).2 } := by
  simp only [rrBody, h]

theorem rrBody_step (P : List Process) (q : Int) (hq : 0 < q) (hP : DistinctPids P)
    (M : Int) (hM : ∀ i, i < P.length → (deref P i).arrival ≤ M)
    (s : RRState) (hinv : RRInv P q s) (hc : rrCond s = true) :
    RRInv P q (rrBody q s) ∧
      ((rrBody q s).remaining.map (fun j => j.remaining.toNat)).sum + (rrBody q s).queue.length +
          unadmitted P (rrBody q s).arrived + (M - (rrBody q s).time).toNat <
        (s.remaining.map (fun j => j.remaining.toNat)).sum + s.queue.length +
          unadmitted P s.arrived + (M - s.time).toNat := by
  obtain ⟨hA, hAq, hAadm, hAlen, hAsub⟩ := rr_admit_inv P q hP s hinv
  have hlen := hinv.len
  cases hqa : (rrAdmit s.time s.remaining s.queue s.arrived).1 with
  | nil =>
    rw [rrBody_idle q s hqa]
    rw [hqa] at hA hAlen hAsub
    have hqnil : s.queue = [] := by
      cases hq' : s.queue with
      | nil => rfl
      | cons a l => have := hAsub a (by rw [hq']; simp); simp at this
    -- some process still has work, and it has not arrived
    have hsome : ∃ i, i < P.length ∧ 0 < (deref s.remaining i).remaining := by
      simp only [rrCond, hqnil, List.isEmpty_nil, Bool.not_true, Bool.false_or, List.any_eq_true,
        decide_eq_true_eq] at hc
      obtain ⟨j, hj, hrem⟩ := hc
      obtain ⟨i, hi, rfl⟩ := exists_deref_of_mem s.remaining j hj
      exact ⟨i, hlen ▸ hi, hrem⟩
    obtain ⟨i, hi, hrem⟩ := hsome
    have hnotarr : (deref P i).pid ∉ (rrAdmit s.time s.remaining s.queue s.arrived).2 := by
      intro hmem
      have := hA.queued i hi hmem hrem
      simp at this
    have hlate : s.time < (deref P i).arrival := by
      by_contra hcon
      exact hnotarr (hAadm i hi (by omega) hrem)
    have hMi := hM i hi
    refine ⟨?_, ?_⟩
    · exact
        { len := hA.len
          form := hA.form
          rem_nonneg := hA.rem_nonneg
          inq := by simp
          queued := hA.queued
          fresh := hA.fresh
          timely := by
            intro j hj hor
            have := hA.timely j hj hor
            simp only at this ⊢
            omega
          completed := hA.completed
          served_eq := hA.served_eq
          slices := hA.slices }
    · simp only [List.length_nil] at hAlen ⊢
      omega
  | cons c rest =>
    rw [hqa] at hA hAlen hAsub hAq
    have hcP : c < P.length := (hA.inq c (by simp)).1
    have hcR : c < s.remaining.length := hlen ▸ hcP
    have hrem0 : 0 ≤ (deref s.remaining c).remaining := hinv.rem_nonneg c hcP
    have hpidc : (deref s.remaining c).pid = (deref P c).pid := hinv.pid c hcP
    have hform := hinv.form c hcP
    have htim := hA.timely c hcP (Or.inl (by simp))
    have hcarr : (deref P c).pid ∈ (rrAdmit s.time s.remaining s.queue s.arrived).2 :=
      hAq c (by simp)
    simp only at htim
    have hserved := hinv.served_eq c hcP
    have hnewslice : ∃ i, i < P.length ∧ (deref P i).pid = (deref P c).pid ∧
        min q (deref s.remaining c).remaining =
          min q ((deref P i).burst - served s.schedule (deref P c).pid) :=
      ⟨c, hcP, rfl, by rw [hserved]; congr 1; omega⟩
    have hexec : 0 ≤ min q (deref s.remaining c).remaining := le_min (le_of_lt hq) hrem0
    have hexec_le : min q (deref s.remaining c).remaining ≤ (deref s.remaining c).remaining :=
      min_le_right _ _
    have hexec_pos : 0 < (deref s.remaining c).remaining →
        0 < min q (deref s.remaining c).remaining := fun h => lt_min hq h
    generalize hE : min q (deref s.remaining c).remaining = exec at *
    rw [rrBody_run q s c rest hqa, hE, hpidc]
    have hothers : ∀ (f : Job → Job) (i : Nat), i ≠ c →
        deref (mutate s.remaining c f) i = deref s.remaining i :=
      fun f i hi => deref_mutate_ne _ _ _ _ (Ne.symm hi)
    have hserved_new : ∀ i, i < P.length →
        served (s.schedule ++ [{ pid := (deref P c).pid, start := s.time, duration := exec }])
            (deref P i).pid =
          served s.schedule (deref P i).pid + (if i = c then exec else 0) := by
      intro i hi
      rw [served_append_singleton]
      by_cases hic : i = c
      · subst hic; simp
      · have : (deref P c).pid ≠ (deref P i).pid := fun e => hic (hP c i hcP hi e).symm
        simp [this, hic]
    split
    · rename_i hpos
      refine ⟨?_, ?_⟩
      · exact
          { len := by simp only [length_mutate]; exact hlen
            form := by
              intro i hi
              simp only
              by_cases hic : i = c
              · subst hic
                rw [deref_mutate_self _ _ _ hcR, hform]
                rfl
              · rw [hothers _ i hic]
                exact hinv.form i hi
            rem_nonneg := by
              intro i hi
              simp only
              by_cases hic : i = c
              · subst hic
                rw [deref_mutate_self _ _ _ hcR]
                exact le_of_lt hpos
              · rw [hothers _ i hic]
                exact hinv.rem_nonneg i hi
            inq := by
              intro i hi
              simp only at hi ⊢
              have hi' : i ∈ c :: rest := by
                rcases List.mem_append.mp hi with h | h
                · exact List.mem_cons_of_mem _ h
                · rw [List.mem_singleton] at h; simp [h]
              exact ⟨(hA.inq i hi').1, Or.inl (hAq i hi')⟩
            queued := by
              intro i hi harr hrem
              simp only at harr hrem ⊢
              by_cases hic : i = c
              · subst hic; simp
              · rw [hothers _ i hic] at hrem
                have := hA.queued i hi harr hrem
                rcases List.mem_cons.mp this with h | h
                · exact absurd h hic
                · exact List.mem_append_left _ h
            fresh := by
              intro i hi hnq hna
              simp only at hnq hna ⊢
              by_cases hic : i = c
              · subst hic; exact absurd hcarr hna
              · rw [hothers _ i hic]
                apply hA.fresh i hi _ hna
                intro hmem
                rcases List.mem_cons.mp hmem with h | h
                · exact hic h
                · exact hnq (List.mem_append_left _ h)
            timely := by
              intro i hi hor
              simp only at hor ⊢
              by_cases hic : i = c
              · subst hic
                rw [deref_mutate_self _ _ _ hcR]
                simp only
                omega
              · rw [hothers _ i hic]
                have := hA.timely i hi (by
                  rcases hor with h | h
                  · left
                    rcases List.mem_append.mp h with h | h
                    · exact List.mem_cons_of_mem _ h
                    · rw [List.mem_singleton] at h; exact absurd h hic
                  · exact Or.inr h)
                simp only at this
                omega
            completed := by
              intro i hi hz
              simp only at hz ⊢
              by_cases hic : i = c
              · subst hic
                rw [deref_mutate_self _ _ _ hcR] at hz
                simp only at hz
                omega
              · rw [hothers _ i hic] at hz ⊢
                exact hinv.completed i hi hz
            served_eq := by
              intro i hi
              simp only
              rw [hserved_new i hi, hinv.served_eq i hi]
              by_cases hic : i = c
              · subst hic
                rw [deref_mutate_self _ _ _ hcR]
                simp only [if_true]
                omega
              · rw [hothers _ i hic]
                simp [hic]
            slices := slices_append P q s.schedule _ hinv.slices hnewslice }
      · have h1 := sum_toNat_mutate
          (fun j => { j with remaining := (deref s.remaining c).remaining - exec })
          s.remaining c hcR
        simp only [length_mutate, List.length_append, List.length_singleton, List.length_cons,
          List.length_nil]
          at hAlen h1 ⊢
        have hp : 0 < (deref s.remaining c).remaining := by omega
        have := hexec_pos hp
        have e1 : (deref s.remaining c).remaining.toNat =
            ((deref s.remaining c).remaining - exec).toNat + exec.toNat := by omega
        have e2 : 0 < exec.toNat := by omega
        omega
    · rename_i hnpos
      have hdone : (deref s.remaining c).remaining - exec = 0 := by omega
      refine ⟨?_, ?_⟩
      · exact
          { len := by simp only [length_mutate]; exact hlen
            form := by
              intro i hi
              simp only
              by_cases hic : i = c
              · subst hic
                rw [deref_mutate_self _ _ _ hcR, hform]
                rfl
              · rw [hothers _ i hic]
                exact hinv.form i hi
            rem_nonneg := by
              intro i hi
              simp only
              by_cases hic : i = c
              · subst hic
                rw [deref_mutate_self _ _ _ hcR]
                simp only
                omega
              · rw [hothers _ i hic]
                exact hinv.rem_nonneg i hi
            inq := by
              intro i hi
              simp only at hi ⊢
              have hi' : i ∈ c :: rest := List.mem_cons_of_mem _ hi
              exact ⟨(hA.inq i hi').1, Or.inl (hAq i hi')⟩
            queued := by
              intro i hi harr hrem
              simp only at harr hrem ⊢
              by_cases hic : i = c
              · subst hic
                rw [deref_mutate_self _ _ _ hcR] at hrem
                simp only at hrem
                omega
              · rw [hothers _ i hic] at hrem
                have := hA.queued i hi harr hrem
                rcases List.mem_cons.mp this with h | h
                · exact absurd h hic
                · exact h
            fresh := by
              intro i hi hnq hna
              simp only at hnq hna ⊢
              by_cases hic : i = c
              · subst hic; exact absurd hcarr hna
              · rw [hothers _ i hic]
                apply hA.fresh i hi _ hna
                intro hmem
                rcases List.mem_cons.mp hmem with h | h
                · exact hic h
                · exact hnq h
            timely := by
              intro i hi hor
              simp only at hor ⊢
              by_cases hic : i = c
              · subst hic
                rw [deref_mutate_self _ _ _ hcR]
                simp only
                omega
              · rw [hothers _ i hic]
                have := hA.timely i hi (by
                  rcases hor with h | h
                  · exact Or.inl (List.mem_cons_of_mem _ h)
                  · exact Or.inr h)
                simp only at this
                omega
            completed := by
              intro i hi hz
              simp only at hz ⊢
              by_cases hic : i = c
              · subst hic
                rw [deref_mutate_self _ _ _ hcR]
                exact ⟨s.time + exec, rfl, by omega⟩
              · rw [hothers _ i hic] at hz ⊢
                exact hinv.completed i hi hz
            served_eq := by
              intro i hi
              simp only
              rw [hserved_new i hi, hinv.served_eq i hi]
              by_cases hic : i = c
              · subst hic
                rw [deref_mutate_self _ _ _ hcR]
                simp only [if_true]
                omega
              · rw [hothers _ i hic]
                simp [hic]
            slices := slices_append P q s.schedule _ hinv.slices hnewslice }
      · have h1 := sum_toNat_mutate
          (fun j => { j with
            remaining := (deref s.remaining c).remaining - exec
            completion := some (s.time + exec) })
          s.remaining c hcR
        simp only [length_mutate, List.length_append, List.length_singleton, List.length_cons,
          List.length_nil]
          at hAlen h1 ⊢
        have e1 : ((deref s.remaining c).remaining - exec).toNat ≤
            (deref s.remaining c).remaining.toNat := by omega
        omega

/-- In exact arithmetic the loop of `runRR` ends, with no work remaining. -/
theorem rr_loop (P : List Process) (q : Int) (hq : 0 < q) (hP : DistinctPids P)
    (hb : ∀ i, i < P.length → 0 < (deref P i).burst) :
    ∃ s, (∀ fuel, rrFuel P ≤ fuel → whileLoop rrCond (rrBody q) fuel (rrInit P) = some s) ∧
      RRInv P q s ∧ s.queue = [] ∧ ∀ i, i < P.length → (deref s.remaining i).remaining = 0 := by
  obtain ⟨s, h1, h2, h3⟩ := whileLoop_terminates rrCond (rrBody q) (RRInv P q)
    (fun s => (s.remaining.map (fun j => j.remaining.toNat)).sum + s.queue.length +
      unadmitted P s.arrived + ((arrivalBound P : Int) - s.time).toNat)
    (fun s hinv hc => rrBody_step P q hq hP (arrivalBound P) (arrival_le_arrivalBound P) s hinv hc)
    (rrFuel P) (rrInit P) (rrInit_inv P q hb)
    (by
      have e1 : ((rrInit P).remaining.map (fun j => j.remaining.toNat)).sum = burstTotal P := by
        simp only [rrInit, burstTotal, List.map_map]
        rfl
      have e2 : (rrInit P).queue.length ≤ P.length := by
        simp only [rrInit]
        refine le_trans (List.length_filter_le _ _) ?_
        simp
      have e3 : unadmitted P (rrInit P).arrived ≤ P.length := by
        unfold unadmitted
        refine le_trans (List.length_filter_le _ _) ?_
        simp
      have e4 : (rrInit P).time = 0 := rfl
      simp only [e1, e4, rrFuel]
      omega)
  refine ⟨s, fun fuel hf => whileLoop_mono _ _ _ _ _ h1 fuel hf, h2, ?_, ?_⟩
  · simp only [rrCond, Bool.or_eq_false_iff, Bool.not_eq_false', List.isEmpty_iff] at h3
    exact h3.1
  · intro i hi
    simp only [rrCond, Bool.or_eq_false_iff] at h3
    have hall := h3.2
    have hmem := deref_mem s.remaining i (h2.len ▸ hi)
    have hnot : ¬ 0 < (deref s.remaining i).remaining := by
      intro hpos
      have : s.remaining.any (fun p => decide (0 < p.remaining)) = true :=
        List.any_eq_true.mpr ⟨_, hmem, by simpa using hpos⟩
      rw [hall] at this
      exact Bool.false_ne_true this
    have := h2.rem_nonneg i hi
    omega

theorem srtfBody_step (P : List Process) (M : Int)
    (hM : ∀ i, i < P.length → (deref P i).arrival ≤ M)
    (s : SRTFState) (hinv : SRTFInv P s) (hc : srtfCond P.length s = true) :
    SRTFInv P (srtfBody s) ∧
      ((srtfBody s).remaining.map (fun j => j.remaining.toNat)).sum +
          (M - (srtfBody s).time).toNat <
        (s.remaining.map (fun j => j.remaining.toNat)).sum + (M - s.time).toNat := by
  have hlen := hinv.len
  have harrival : ∀ i, i < P.length → (deref s.remaining i).arrival = (deref P i).arrival := by
    intro i hi
    rw [hinv.form i hi]; rfl
  cases h : srtfCandidates s with
  | nil =>
    rw [srtfBody_idle s h]
    have hlt : s.completed < P.length := by simpa [srtfCond] using hc
    rw [hinv.count, ← hlen] at hlt
    obtain ⟨j, hj, hjr⟩ := exists_not_of_countP_lt _ _ hlt
    obtain ⟨i, hi, rfl⟩ := exists_deref_of_mem _ j hj
    have hiP : i < P.length := hlen ▸ hi
    have hne : (deref s.remaining i).remaining ≠ 0 := by simpa using hjr
    have hpos : 0 < (deref s.remaining i).remaining := by
      have := hinv.rem_nonneg i hiP
      omega
    have hlate : s.time < (deref P i).arrival := by
      by_contra hcon
      have : i ∈ srtfCandidates s :=
        (srtfCandidates_mem s i).mpr ⟨hi, by rw [harrival i hiP]; omega, hpos⟩
      rw [h] at this
      simp at this
    have := hM i hiP
    refine ⟨?_, ?_⟩
    · exact
        { len := hinv.len
          form := hinv.form
          rem_nonneg := hinv.rem_nonneg
          rem_le := hinv.rem_le
          count := hinv.count
          timely := by
            intro j hj hlt
            have := hinv.timely j hj hlt
            simp only
            omega
          completed := hinv.completed }
    · simp only
      omega
  | cons c rest =>
    have hcm : c ∈ srtfCandidates s := by rw [h]; simp
    obtain ⟨hcR, hcarr, hcrem⟩ := (srtfCandidates_mem s c).mp hcm
    have hcP : c < P.length := hlen ▸ hcR
    rw [harrival c hcP] at hcarr
    have hform := hinv.form c hcP
    have hle := hinv.rem_le c hcP
    have htim := hinv.timely c hcP
    have hothers : ∀ (f : Job → Job) (i : Nat), i ≠ c →
        deref (mutate s.remaining c f) i = deref s.remaining i :=
      fun f i hi => deref_mutate_ne _ _ _ _ (Ne.symm hi)
    rw [srtfBody_run s c rest h]
    split
    · rename_i hz
      refine ⟨?_, ?_⟩
      · exact
          { len := by simp only [length_mutate]; exact hlen
            form := by
              intro i hi
              simp only
              by_cases hic : i = c
              · subst hic
                rw [deref_mutate_self _ _ _ hcR, hform]
                rfl
              · rw [hothers _ i hic]
                exact hinv.form i hi
            rem_nonneg := by
              intro i hi
              simp only
              by_cases hic : i = c
              · subst hic
                rw [deref_mutate_self _ _ _ hcR]
                simp only
                omega
              · rw [hothers _ i hic]
                exact hinv.rem_nonneg i hi
            rem_le := by
              intro i hi
              simp only
              by_cases hic : i = c
              · subst hic
                rw [deref_mutate_self _ _ _ hcR]
                simp only
                omega
              · rw [hothers _ i hic]
                exact hinv.rem_le i hi
            count := by
              have := countP_toNat_mutate (fun j =>
                { j with remaining := (deref s.remaining c).remaining - 1
                         completion := some (s.time + 1) }) s.remaining c hcR
              have hne : ¬ (deref s.remaining c).remaining = 0 := by omega
              simp only [if_neg hne, if_pos hz] at this
              simp only
              rw [hinv.count]
              omega
            timely := by
              intro i hi hlt
              simp only at hlt ⊢
              by_cases hic : i = c
              · subst hic
                rw [deref_mutate_self _ _ _ hcR]
                simp only
                by_cases hfull : (deref s.remaining i).remaining < (deref P i).burst
                · have := htim hfull
                  omega
                · omega
              · rw [hothers _ i hic] at hlt ⊢
                have := hinv.timely i hi hlt
                omega
            completed := by
              intro i hi hzero
              simp only at hzero ⊢
              by_cases hic : i = c
              · subst hic
                rw [deref_mutate_self _ _ _ hcR]
                refine ⟨s.time + 1, rfl, ?_⟩
                by_cases hfull : (deref s.remaining i).remaining < (deref P i).burst
                · have := htim hfull
                  omega
                · omega
              · rw [hothers _ i hic] at hzero ⊢
                exact hinv.completed i hi hzero }
      · have h1 := sum_toNat_mutate (fun j =>
          { j with remaining := (deref s.remaining c).remaining - 1
                   completion := some (s.time + 1) }) s.remaining c hcR
        simp only at h1 ⊢
        omega
    · rename_i hnz
      refine ⟨?_, ?_⟩
      · exact
          { len := by simp only [length_mutate]; exact hlen
            form := by
              intro i hi
              simp only
              by_cases hic : i = c
              · subst hic
                rw [deref_mutate_self _ _ _ hcR, hform]
                rfl
              · rw [hothers _ i hic]
                exact hinv.form i hi
            rem_nonneg := by
              intro i hi
              simp only
              by_cases hic : i = c
              · subst hic
                rw [deref_mutate_self _ _ _ hcR]
                simp only
                omega
              · rw [hothers _ i hic]
                exact hinv.rem_nonneg i hi
            rem_le := by
              intro i hi
              simp only
              by_cases hic : i = c
              · subst hic
                rw [deref_mutate_self _ _ _ hcR]
                simp only
                omega
              · rw [hothers _ i hic]
                exact hinv.rem_le i hi
            count := by
              have := countP_toNat_mutate (fun j =>
                { j with remaining := (deref s.remaining c).remaining - 1 }) s.remaining c hcR
              have hne : ¬ (deref s.remaining c).remaining = 0 := by omega
              simp only [if_neg hne, if_neg hnz] at this
              simp only
              rw [hinv.count]
              omega
            timely := by
              intro i hi hlt
              simp only at hlt ⊢
              by_cases hic : i = c
              · subst hic
                rw [deref_mutate_self _ _ _ hcR]
                simp only
                by_cases hfull : (deref s.remaining i).remaining < (deref P i).burst
                · have := htim hfull
                  omega
                · omega
              · rw [hothers _ i hic] at hlt ⊢
                have := hinv.timely i hi hlt
                omega
            completed := by
              intro i hi hzero
              simp only at hzero ⊢
              by_cases hic : i = c
              · subst hic
                rw [deref_mutate_self _ _ _ hcR] at hzero
                exact absurd hzero hnz
              · rw [hothers _ i hic] at hzero ⊢
                exact hinv.completed i hi hzero }
      · have h1 := sum_toNat_mutate (fun j =>
          { j with remaining := (deref s.remaining c).remaining - 1 }) s.remaining c hcR
        simp only at h1 ⊢
        omega

/-- In exact arithmetic the loop of `runSRTF` ends, with no work remaining. -/
theorem srtf_loop (P : List Process) (hb : ∀ i, i < P.length → 0 < (deref P i).burst) :
    ∃ s, (∀ fuel, srtfFuel P ≤ fuel →
        whileLoop (srtfCond P.length) srtfBody fuel (srtfInit P) = some s) ∧
      SRTFInv P s ∧ ∀ i, i < P.length → (deref s.remaining i).remaining = 0 := by
  obtain ⟨s, h1, h2, h3⟩ := whileLoop_terminates (srtfCond P.length) srtfBody (SRTFInv P)
    (fun s => (s.remaining.map (fun j => j.remaining.toNat)).sum +
      ((arrivalBound P : Int) - s.time).toNat)
    (fun s hinv hc => srtfBody_step P (arrivalBound P) (arrival_le_arrivalBound P) s hinv hc)
    (srtfFuel P) (srtfInit P) (srtfInit_inv P hb)
    (by
      have e1 : ((srtfInit P).remaining.map (fun j => j.remaining.toNat)).sum = burstTotal P := by
        simp only [srtfInit, burstTotal, List.map_map]
        rfl
      have e4 : (srtfInit P).time = 0 := rfl
      simp only [e1, e4, srtfFuel]
      omega)
  refine ⟨s, fun fuel hf => whileLoop_mono _ _ _ _ _ h1 fuel hf, h2, ?_⟩
  have hge : ¬ s.completed < P.length := by simpa [srtfCond] using h3
  rw [h2.count, ← h2.len] at hge
  have hall : s.remaining.countP (fun j => decide (j.remaining = 0)) = s.remaining.length :=
    le_antisymm (List.countP_le_length _) (by omega)
  rw [List.countP_eq_length] at hall
  intro i hi
  have := hall _ (deref_mem s.remaining i (h2.len ▸ hi))
  simpa using this

theorem rrBody_gap_step (P : List Process) (q : Int) (hP : DistinctPids P)
    (s : RRState) (hinv : RRInv P q s) (hgap : RRGap P s) : RRGap P (rrBody q s) := by
  obtain ⟨hA, _, hAadm, _, _⟩ := rr_admit_inv P q hP s hinv
  cases hqa : (rrAdmit s.time s.remaining s.queue s.arrived).1 with
  | nil =>
    rw [rrBody_idle q s hqa]
    rw [hqa] at hA
    refine ⟨?_, hgap.gaps⟩
    intro pre a hsched
    obtain ⟨h1, h2⟩ := hgap.tail pre a hsched
    refine ⟨by simp only; omega, ?_⟩
    intro _ i hi harr
    by_cases hlt : a.start + a.duration < s.time
    · exact h2 hlt i hi harr
    · have hnot : ¬ 0 < (deref s.remaining i).remaining := by
        intro hpos
        have hadm := hAadm i hi (by omega) hpos
        have := hA.queued i hi hadm hpos
        simp at this
      have := hinv.rem_nonneg i hi
      simp only
      omega
  | cons c rest =>
    rw [hqa] at hA
    have hcP : c < P.length := (hA.inq c (by simp)).1
    have hnew : IdleOnlyWhenNothingReady P (s.schedule ++
        [{ pid := (deref s.remaining c).pid, start := s.time,
           duration := min q (deref s.remaining c).remaining }]) := by
      apply idleOnly_append P s.schedule _ hgap.gaps
      intro pre a hsched
      obtain ⟨h1, h2⟩ := hgap.tail pre a hsched
      refine ⟨h1, ?_⟩
      intro hlt
      apply forall_mem_of_forall_deref
      intro i hi harr
      rw [hinv.served_eq i hi, h2 hlt i hi harr]
      omega
    rw [rrBody_run q s c rest hqa]
    split
    · refine ⟨?_, hnew⟩
      intro pre a heq
      obtain ⟨_, e2⟩ := List.append_inj' heq (by simp)
      simp only [List.cons.injEq, and_true] at e2
      subst e2
      exact ⟨le_refl _, fun h => absurd h (lt_irrefl _)⟩
    · refine ⟨?_, hnew⟩
      intro pre a heq
      obtain ⟨_, e2⟩ := List.append_inj' heq (by simp)
      simp only [List.cons.injEq, and_true] at e2
      subst e2
      exact ⟨le_refl _, fun h => absurd h (lt_irrefl _)⟩

theorem npBody_gap_step (P : List Process) (key : Job → Int) (skey : Process → Int)
    (hP : DistinctPids P) (hb : ∀ i, i < P.length → 0 < (deref P i).burst)
    (s : NPState) (hinv : NPInv P skey s) (hgap : NPGap P s) : NPGap P (npBody key s) := by
  have hlen := hinv.len
  obtain ⟨_, a2, _, a4⟩ := admitReady_spec s.time s.remaining
    (fun i => i ∉ s.done ∧ (deref P i).arrival ≤ s.time) s.ready
    (by
      intro i j hi hj hpid
      rw [hlen] at hi hj
      rw [(hinv.fields i hi).1, (hinv.fields j hj).1] at hpid
      exact hP i j hi hj hpid)
    (by
      intro i hi harr hrem
      rw [hlen] at hi
      obtain ⟨_, f2, _, f4⟩ := hinv.fields i hi
      refine ⟨fun hd => ?_, f2 ▸ harr⟩
      rw [f4 hd] at hrem
      omega)
    hinv.ready_nodup
    (fun i hi => ⟨hlen ▸ (hinv.ready_ok i hi).1, (hinv.ready_ok i hi).2⟩)
  cases hsort : sortRefs (fun i => key (deref s.remaining i))
      (admitReady s.time s.remaining s.ready) with
  | nil =>
    rw [npBody_idle key s hsort]
    have hnil := sortRefs_eq_nil _ _ hsort
    refine ⟨?_, hgap.served_eq, hgap.gaps⟩
    intro pre a hsched
    obtain ⟨h1, h2⟩ := hgap.tail pre a hsched
    refine ⟨by simp only; omega, ?_⟩
    intro _ i hi harr
    by_cases hlt : a.start + a.duration < s.time
    · exact h2 hlt i hi harr
    · by_contra hnd
      have hmem := a4 i (hlen ▸ hi)
        (by rw [(hinv.fields i hi).2.1]; omega)
        (by rw [(hinv.fields i hi).2.2.1 hnd]; exact hb i hi)
      rw [hnil] at hmem
      simp at hmem
  | cons c rest =>
    have hperm := sortRefs_perm (fun i => key (deref s.remaining i))
      (admitReady s.time s.remaining s.ready)
    rw [hsort] at hperm
    have hcmem : c ∈ admitReady s.time s.remaining s.ready := hperm.subset (by simp)
    obtain ⟨hcR, hcd, _⟩ := a2 c hcmem
    have hcP : c < P.length := hlen ▸ hcR
    have hcurr : deref s.remaining c = Job.ofProcess (deref P c) := hinv.pending c hcP hcd
    have hrem : (deref s.remaining c).remaining = (deref P c).burst := by rw [hcurr]; rfl
    have hpidc : (deref s.remaining c).pid = (deref P c).pid := by rw [hcurr]; rfl
    rw [npBody_run key s c rest hsort, hrem, hpidc]
    refine ⟨?_, ?_, ?_⟩
    · intro pre a heq
      obtain ⟨_, e2⟩ := List.append_inj' heq (by simp)
      simp only [List.cons.injEq, and_true] at e2
      subst e2
      exact ⟨le_refl _, fun h => absurd h (lt_irrefl _)⟩
    · intro i hi
      simp only
      rw [served_append_singleton, hgap.served_eq i hi]
      by_cases hic : i = c
      · subst hic
        simp [hcd]
      · have hne : (deref P c).pid ≠ (deref P i).pid := fun e => hic (hP c i hcP hi e).symm
        by_cases hid : i ∈ s.done
        · simp [hid, hne]
        · simp [hid, hne, hic]
    · apply idleOnly_append P s.schedule _ hgap.gaps
      intro pre a hsched
      obtain ⟨h1, h2⟩ := hgap.tail pre a hsched
      refine ⟨h1, ?_⟩
      intro hlt
      apply forall_mem_of_forall_deref
      intro i hi harr
      rw [hgap.served_eq i hi, if_pos (h2 hlt i hi harr)]

end Exact

/-! ## Number arithmetic: exact on the safe integers -/

theorem dropBits_of_lt (fuel n : Nat) (h : n < 9007199254740992) : dropBits fuel n = 0 := by
  cases fuel with
  | zero => rfl
  | succ k => simp [dropBits, h]

/-- What `dropBits` computes: the significand `n / 2 ^ e` fits into 53 bits, and has exactly 53
bits when bits are dropped. -/
theorem dropBits_spec (fuel : Nat) : ∀ n : Nat, n < 9007199254740992 * 2 ^ fuel →
    n / 2 ^ dropBits fuel n < 9007199254740992 ∧
      (0 < dropBits fuel n → 4503599627370496 ≤ n / 2 ^ dropBits fuel n) := by
  induction fuel with
  | zero =>
    intro n h
    simp only [dropBits, pow_zero, Nat.div_one, Nat.lt_irrefl, false_implies, and_true]
    omega
  | succ k ih =>
    intro n h
    by_cases hn : n < 9007199254740992
    · simp only [dropBits, hn, if_true, pow_zero, Nat.div_one, Nat.lt_irrefl, false_implies,
        and_true]
    · simp only [dropBits, hn, if_false]
      have h2 : n / 2 < 9007199254740992 * 2 ^ k := by
        rw [pow_succ] at h
        omega
      obtain ⟨i1, i2⟩ := ih (n / 2) h2
      have e : n / 2 ^ (dropBits k (n / 2) + 1) = n / 2 / 2 ^ dropBits k (n / 2) := by
        rw [pow_succ, Nat.mul_comm, Nat.div_div_eq_div_mul]
      rw [e]
      refine ⟨i1, fun _ => ?_⟩
      by_cases h0 : 0 < dropBits k (n / 2)
      · exact i2 h0
      · have hz : dropBits k (n / 2) = 0 := by omega
        rw [hz, pow_zero, Nat.div_one]
        omega

theorem lt_fuel (n : Nat) : n < 9007199254740992 * 2 ^ n := by
  have h1 : n < 2 ^ n := Nat.lt_two_pow n
  have h2 : 2 ^ n ≤ 9007199254740992 * 2 ^ n := Nat.le_mul_of_pos_left _ (by decide)
  omega

theorem roundNat_of_le (n : Nat) (h : n ≤ maxSafe) : roundNat n = n := by
  rcases Nat.lt_or_ge n 9007199254740992 with hlt | hge
  · simp [roundNat, dropBits_of_lt n n hlt, Nat.mod_one]
  · have : n = 9007199254740992 := by
      unfold maxSafe at h
      omega
    subst this
    decide

/-- On the safe integers Number arithmetic is exact. -/
theorem num_of_safe (x : Int) (h1 : -(maxSafe : Int) ≤ x) (h2 : x ≤ (maxSafe : Int)) :
    num x = x := by
  unfold num
  split
  · rw [roundNat_of_le _ (by omega)]
    omega
  · rw [roundNat_of_le _ (by omega)]
    omega

theorem num_of_nonneg_le (x : Int) (h1 : 0 ≤ x) (h2 : x ≤ (maxSafe : Int)) : num x = x :=
  num_of_safe x (by omega) h2

theorem roundNat_pos (n : Nat) (h : 0 < n) : 0 < roundNat n := by
  obtain ⟨_, s2⟩ := dropBits_spec n n (lt_fuel n)
  have hp : 0 < 2 ^ dropBits n n := Nat.pos_pow_of_pos _ (by decide)
  have hq : 0 < n / 2 ^ dropBits n n := by
    by_cases h0 : 0 < dropBits n n
    · have := s2 h0
      omega
    · have hz : dropBits n n = 0 := by omega
      rw [hz, pow_zero, Nat.div_one]
      exact h
  unfold roundNat
  simp only
  split
  · exact Nat.mul_pos hq hp
  · exact Nat.mul_pos (Nat.succ_pos _) hp

/-- The rounding of a positive integer is positive. -/
theorem num_pos (x : Int) (h : 0 < x) : 0 < num x := by
  unfold num
  rw [if_pos (by omega)]
  have := roundNat_pos x.toNat (by omega)
  omega

theorem num_zero : num 0 = 0 := by decide

theorem num_pos_iff (x : Int) : 0 < num x ↔ 0 < x := by
  constructor
  · intro h
    by_contra hx
    unfold num at h
    by_cases h0 : 0 ≤ x
    · have : x = 0 := by omega
      subst this
      simp [roundNat, dropBits] at h
    · rw [if_neg h0] at h
      omega
  · exact num_pos x


/-! ### Rounding is monotone and idempotent -/

theorem roundNat_ge (n : Nat) : n / 2 ^ dropBits n n * 2 ^ dropBits n n ≤ roundNat n := by
  unfold roundNat
  simp only
  split
  · exact le_refl _
  · exact Nat.mul_le_mul_right _ (Nat.le_succ _)

theorem roundNat_le (n : Nat) : roundNat n ≤ (n / 2 ^ dropBits n n + 1) * 2 ^ dropBits n n := by
  unfold roundNat
  simp only
  split
  · exact Nat.mul_le_mul_right _ (Nat.le_succ _)
  · exact le_refl _

theorem lt_succ_div_mul (n d : Nat) (hd : 0 < d) : n < (n / d + 1) * d := by
  have := Nat.div_add_mod n d
  have := Nat.mod_lt n hd
  rw [Nat.add_mul, Nat.one_mul, Nat.mul_comm]
  omega

theorem div_mul_le (n d : Nat) : n / d * d ≤ n := Nat.div_mul_le_self n d

/-- The number of dropped bits grows with the number. -/
theorem dropBits_mono (m n : Nat) (h : m ≤ n) : dropBits m m ≤ dropBits n n := by
  by_contra hcon
  have hlt : dropBits n n + 1 ≤ dropBits m m := by omega
  obtain ⟨_, m2⟩ := dropBits_spec m m (lt_fuel m)
  obtain ⟨n1, _⟩ := dropBits_spec n n (lt_fuel n)
  have hm := m2 (by omega)
  have h1 : 4503599627370496 * 2 ^ dropBits m m ≤ m :=
    le_trans (Nat.mul_le_mul_right _ hm) (div_mul_le m _)
  have h2 : n < (n / 2 ^ dropBits n n + 1) * 2 ^ dropBits n n :=
    lt_succ_div_mul n _ (Nat.pos_pow_of_pos _ (by decide))
  have h3 : (n / 2 ^ dropBits n n + 1) * 2 ^ dropBits n n ≤
      9007199254740992 * 2 ^ dropBits n n := Nat.mul_le_mul_right _ (by omega)
  have h4 : 9007199254740992 * 2 ^ dropBits n n = 4503599627370496 * 2 ^ (dropBits n n + 1) := by
    rw [pow_succ]
    omega
  have h5 : 2 ^ (dropBits n n + 1) ≤ 2 ^ dropBits m m := Nat.pow_le_pow_right (by decide) hlt
  have h6 : 4503599627370496 * 2 ^ (dropBits n n + 1) ≤ 4503599627370496 * 2 ^ dropBits m m :=
    Nat.mul_le_mul_left _ h5
  omega

theorem roundNat_mono (m n : Nat) (h : m ≤ n) : roundNat m ≤ roundNat n := by
  have he := dropBits_mono m n h
  obtain ⟨m1, _⟩ := dropBits_spec m m (lt_fuel m)
  obtain ⟨_, n2⟩ := dropBits_spec n n (lt_fuel n)
  rcases Nat.lt_or_ge (dropBits m m) (dropBits n n) with hlt | hge
  · -- fewer bits dropped from `m`: a power of two lies between the two roundings
    have hn := n2 (by omega)
    have h1 := roundNat_le m
    have h2 : (m / 2 ^ dropBits m m + 1) * 2 ^ dropBits m m ≤
        9007199254740992 * 2 ^ dropBits m m := Nat.mul_le_mul_right _ (by omega)
    have h3 : 9007199254740992 * 2 ^ dropBits m m =
        4503599627370496 * 2 ^ (dropBits m m + 1) := by
      rw [pow_succ]
      omega
    have h4 : 2 ^ (dropBits m m + 1) ≤ 2 ^ dropBits n n := Nat.pow_le_pow_right (by decide) hlt
    have h5 : 4503599627370496 * 2 ^ (dropBits m m + 1) ≤
        4503599627370496 * 2 ^ dropBits n n := Nat.mul_le_mul_left _ h4
    have h6 : 4503599627370496 * 2 ^ dropBits n n ≤
        n / 2 ^ dropBits n n * 2 ^ dropBits n n := Nat.mul_le_mul_right _ hn
    have h7 := roundNat_ge n
    omega
  · have heq : dropBits m m = dropBits n n := by omega
    have hq : m / 2 ^ dropBits n n ≤ n / 2 ^ dropBits n n := Nat.div_le_div_right h
    rcases Nat.lt_or_ge (m / 2 ^ dropBits n n) (n / 2 ^ dropBits n n) with hql | hqg
    · have h1 := roundNat_le m
      rw [heq] at h1
      have h2 : (m / 2 ^ dropBits n n + 1) * 2 ^ dropBits n n ≤
          n / 2 ^ dropBits n n * 2 ^ dropBits n n := Nat.mul_le_mul_right _ hql
      have h3 := roundNat_ge n
      omega
    · have hqe : m / 2 ^ dropBits n n = n / 2 ^ dropBits n n := by omega
      have hp : 0 < 2 ^ dropBits n n := Nat.pos_pow_of_pos _ (by decide)
      have hr : m % 2 ^ dropBits n n ≤ n % 2 ^ dropBits n n := by
        have e1 := Nat.div_add_mod m (2 ^ dropBits n n)
        have e2 := Nat.div_add_mod n (2 ^ dropBits n n)
        rw [hqe] at e1
        omega
      unfold roundNat
      simp only
      rw [heq, hqe]
      by_cases hc : 2 * (n % 2 ^ dropBits n n) < 2 ^ dropBits n n ∨
          (2 * (n % 2 ^ dropBits n n) = 2 ^ dropBits n n ∧ n / 2 ^ dropBits n n % 2 = 0)
      · rw [if_pos hc]
        have hc' : 2 * (m % 2 ^ dropBits n n) < 2 ^ dropBits n n ∨
            (2 * (m % 2 ^ dropBits n n) = 2 ^ dropBits n n ∧ n / 2 ^ dropBits n n % 2 = 0) := by
          rcases hc with hc | ⟨hc1, hc2⟩
          · exact Or.inl (by omega)
          · rcases Nat.lt_or_ge (2 * (m % 2 ^ dropBits n n)) (2 ^ dropBits n n) with h' | h'
            · exact Or.inl h'
            · exact Or.inr ⟨by omega, hc2⟩
        rw [if_pos hc']
      · rw [if_neg hc]
        split
        · exact Nat.mul_le_mul_right _ (Nat.le_succ _)
        · exact le_refl _

/-- The number of dropped bits of a number between `2 ^ (52 + e)` and `2 ^ (53 + e)`. -/
theorem dropBits_unique (e : Nat) : ∀ (fuel N : Nat), e ≤ fuel →
    (e = 0 → N < 9007199254740992) → (0 < e → 4503599627370496 * 2 ^ e ≤ N) →
    N < 9007199254740992 * 2 ^ e → dropBits fuel N = e := by
  induction e with
  | zero =>
    intro fuel N _ h0 _ _
    exact dropBits_of_lt fuel N (h0 rfl)
  | succ k ih =>
    intro fuel N hf _ hlo hhi
    obtain ⟨f, rfl⟩ : ∃ f, fuel = f + 1 := ⟨fuel - 1, by omega⟩
    have hlo' := hlo (Nat.succ_pos _)
    rw [pow_succ] at hlo' hhi
    have hp : 0 < 2 ^ k := Nat.pos_pow_of_pos _ (by decide)
    have hN : ¬ N < 9007199254740992 := by
      have : 4503599627370496 * (2 ^ k * 2) = 9007199254740992 * 2 ^ k := by omega
      have : 9007199254740992 * 1 ≤ 9007199254740992 * 2 ^ k := Nat.mul_le_mul_left _ hp
      omega
    simp only [dropBits, hN, if_false]
    rw [ih f (N / 2) (by omega) (fun hk => by subst hk; simp only [pow_zero] at hhi; omega)
      (fun _ => by omega) (by omega)]

theorem roundNat_of_multiple (e q : Nat) (he : 0 < e) (h1 : 4503599627370496 ≤ q)
    (h2 : q < 9007199254740992) : roundNat (q * 2 ^ e) = q * 2 ^ e := by
  have hp : 0 < 2 ^ e := Nat.pos_pow_of_pos _ (by decide)
  have hlo : 4503599627370496 * 2 ^ e ≤ q * 2 ^ e := Nat.mul_le_mul_right _ h1
  have hhi : q * 2 ^ e < 9007199254740992 * 2 ^ e := Nat.mul_lt_mul_of_pos_right h2 hp
  have hfuel : e ≤ q * 2 ^ e := by
    have : e < 2 ^ e := Nat.lt_two_pow e
    have : 1 * 2 ^ e ≤ q * 2 ^ e := Nat.mul_le_mul_right _ (by omega)
    omega
  have hE := dropBits_unique e (q * 2 ^ e) (q * 2 ^ e) hfuel (fun h => by omega) (fun _ => hlo) hhi
  unfold roundNat
  simp only [hE, Nat.mul_div_cancel _ hp, Nat.mul_mod_left, Nat.mul_zero]
  rw [if_pos (Or.inl hp)]

theorem roundNat_idem (n : Nat) : roundNat (roundNat n) = roundNat n := by
  obtain ⟨s1, s2⟩ := dropBits_spec n n (lt_fuel n)
  by_cases he : 0 < dropBits n n
  · have hq := s2 he
    have hcases : roundNat n = n / 2 ^ dropBits n n * 2 ^ dropBits n n ∨
        roundNat n = (n / 2 ^ dropBits n n + 1) * 2 ^ dropBits n n := by
      unfold roundNat
      simp only
      split
      · exact Or.inl rfl
      · exact Or.inr rfl
    rcases hcases with h | h
    · rw [h]
      exact roundNat_of_multiple _ _ he hq s1
    · rw [h]
      by_cases hcarry : n / 2 ^ dropBits n n + 1 < 9007199254740992
      · exact roundNat_of_multiple _ _ he (by omega) hcarry
      · have hB : n / 2 ^ dropBits n n + 1 = 4503599627370496 * 2 := by omega
        rw [hB, Nat.mul_assoc, ← pow_succ']
        exact roundNat_of_multiple _ _ (Nat.succ_pos _) (le_refl _) (by decide)
  · have hz : dropBits n n = 0 := by omega
    have hn : roundNat n = n := by
      unfold roundNat
      simp [hz, Nat.mod_one]
    rw [hn, hn]

/-- Rounding to a Number is monotone. -/
theorem num_mono (x y : Int) (h : x ≤ y) : num x ≤ num y := by
  unfold num
  by_cases hx : 0 ≤ x
  · rw [if_pos hx, if_pos (by omega)]
    have := roundNat_mono x.toNat y.toNat (by omega)
    omega
  · rw [if_neg hx]
    by_cases hy : 0 ≤ y
    · rw [if_pos hy]
      omega
    · rw [if_neg hy]
      have := roundNat_mono (-y).toNat (-x).toNat (by omega)
      omega

/-- A Number is its own rounding. -/
theorem num_idem (x : Int) : num (num x) = num x := by
  unfold num
  by_cases hx : 0 ≤ x
  · rw [if_pos hx, if_pos (by omega)]
    have e : ((roundNat x.toNat : Nat) : Int).toNat = roundNat x.toNat := by omega
    rw [e, roundNat_idem]
  · rw [if_neg hx]
    have hpos := roundNat_pos (-x).toNat (by omega)
    rw [if_neg (by omega)]
    have e : (- -((roundNat (-x).toNat : Nat) : Int)).toNat = roundNat (-x).toNat := by omega
    rw [e, roundNat_idem]

/-! ## One iteration of each loop of the program -/

/-- An invariant of the body holds in the state in which a loop ends. -/
theorem whileLoop_invariant {σ : Type} (cond : σ → Bool) (body : σ → σ) (Inv : σ → Prop)
    (hstep : ∀ s, Inv s → cond s = true → Inv (body s)) :
    ∀ (fuel : Nat) (s s' : σ), Inv s → whileLoop cond body fuel s = some s' → Inv s' := by
  intro fuel
  induction fuel with
  | zero => intro s s' _ h; simp [whileLoop] at h
  | succ k ih =>
    intro s s' hinv h
    simp only [whileLoop] at h
    by_cases hc : cond s = true
    · rw [if_pos hc] at h
      exact ih _ _ (hstep s hinv hc) h
    · rw [if_neg hc] at h
      simp only [Option.some.injEq] at h
      exact h ▸ hinv

/-- Two bodies that agree on the states of an invariant of one of them give the same loop. -/
theorem whileLoop_congr {σ : Type} (cond : σ → Bool) (body body' : σ → σ) (Inv : σ → Prop)
    (hstep : ∀ s, Inv s → cond s = true → body s = body' s ∧ Inv (body' s)) :
    ∀ (fuel : Nat) (s : σ), Inv s →
      whileLoop cond body fuel s = whileLoop cond body' fuel s := by
  intro fuel
  induction fuel with
  | zero => intro s _; rfl
  | succ k ih =>
    intro s hinv
    simp only [whileLoop]
    by_cases hc : cond s = true
    · rw [if_pos hc, if_pos hc, (hstep s hinv hc).1]
      exact ih _ (hstep s hinv hc).2
    · rw [if_neg hc, if_neg hc]

/-- A loop whose body leaves a state as it is, and whose test holds there, does not end. -/
theorem whileLoop_stuck {σ : Type} (cond : σ → Bool) (body : σ → σ) (s : σ)
    (hc : cond s = true) (hfix : body s = s) : ∀ fuel, whileLoop cond body fuel s = none := by
  intro fuel
  induction fuel with
  | zero => rfl
  | succ k ih => simp only [whileLoop, hc, if_true, hfix, ih]

theorem whileLoop_succ_of_cond {σ : Type} (cond : σ → Bool) (body : σ → σ) (s : σ) (fuel : Nat)
    (hc : cond s = true) : whileLoop cond body (fuel + 1) s = whileLoop cond body fuel (body s) := by
  simp only [whileLoop, hc, if_true]

theorem npBody_of_nil (key : Job → Int) (s : NPState)
    (h : sortRefs (fun i => key (deref s.remaining i))
      (admitReady s.time s.remaining s.ready) = []) :
    npBody key s = { s with time := num (s.time + 1), ready := [] } := by
  simp only [npBody, h]

theorem npBody_of_cons (key : Job → Int) (s : NPState) (c : Nat) (rest : List Nat)
    (h : sortRefs (fun i => key (deref s.remaining i))
      (admitReady s.time s.remaining s.ready) = c :: rest) :
    npBody key s =
      { time := num (s.time + (deref s.remaining c).remaining)
        ready := rest
        done := s.done ++ [c]
        schedule := s.schedule ++
          [{ pid := (deref s.remaining c).pid, start := s.time,
             duration := (deref s.remaining c).remaining }]
        remaining := mutate s.remaining c (fun j =>
          { j with completion := some (num (s.time + (deref s.remaining c).remaining)),
                   remaining := 0 }) } := by
  simp only [npBody, h]

theorem srtfBody_of_nil (s : SRTFState) (h : srtfCandidates s = []) :
    srtfBody s = { s with time := num (s.time + 1) } := by
  simp only [srtfBody, h]

theorem srtfBody_of_cons (s : SRTFState) (c : Nat) (rest : List Nat)
    (h : srtfCandidates s = c :: rest) :
    srtfBody s =
      if num ((deref s.remaining c).remaining - 1) = 0 then
        { time := num (s.time + 1)
          schedule := (if s.lastPid ≠ some (deref s.remaining c).pid then
            ((if s.lastPid ≠ none then setLastDuration s.schedule s.time else s.schedule) ++
                [{ pid := (deref s.remaining c).pid, start := s.time, duration := 0 }],
              some (deref s.remaining c).pid)
            else (s.schedule, s.lastPid)).1
          remaining := mutate s.remaining c (fun j =>
            { j with remaining := num ((deref s.remaining c).remaining - 1),
                     completion := some (num (s.time + 1)) })
          completed := s.completed + 1
          lastPid := none }
      else
        { time := num (s.time + 1)
          schedule := (if s.lastPid ≠ some (deref s.remaining c).pid then
            ((if s.lastPid ≠ none then setLastDuration s.schedule s.time else s.schedule) ++
                [{ pid := (deref s.remaining c).pid, start := s.time, duration := 0 }],
              some (deref s.remaining c).pid)
            else (s.schedule, s.lastPid)).1
          remaining := mutate s.remaining c (fun j =>
            { j with remaining := num ((deref s.remaining c).remaining - 1) })
          completed := s.completed
          lastPid := (if s.lastPid ≠ some (deref s.remaining c).pid then
            ((if s.lastPid ≠ none then setLastDuration s.schedule s.time else s.schedule) ++
                [{ pid := (deref s.remaining c).pid, start := s.time, duration := 0 }],
              some (deref s.remaining c).pid)
            else (s.schedule, s.lastPid)).2 } := by
  simp only [srtfBody, h]

theorem rrBody_of_nil (q : Int) (s : RRState)
    (h : (rrAdmit s.time s.remaining s.queue s.arrived).1 = []) :
    rrBody q s = { s with time := num (s.time + 1), queue := [],
                          arrived := (rrAdmit s.time s.remaining s.queue s.arrived).2 } := by
  simp only [rrBody, h]

theorem rrBody_of_cons (q : Int) (s : RRState) (c : Nat) (rest : List Nat)
    (h : (rrAdmit s.time s.remaining s.queue s.arrived).1 = c :: rest) :
    rrBody q s =
      if 0 < num ((deref s.remaining c).remaining - min q (deref s.remaining c).remaining) then
        { time := num (s.time + min q (deref s.remaining c).remaining)
          queue := rest ++ [c]
          schedule := s.schedule ++
            [{ pid := (deref s.remaining c).pid, start := s.time, duration := min q (deref s.remaining c).remaining }]
          remaining := mutate s.remaining c (fun j =>
            { j with remaining := num ((deref s.remaining c).remaining - min q (deref s.remaining c).remaining) })
          arrived := (rrAdmit s.time s.remaining s.queue s.arrived).2 }
      else
        { time := num (s.time + min q (deref s.remaining c).remaining)
          queue := rest
          schedule := s.schedule ++
            [{ pid := (deref s.remaining c).pid, start := s.time, duration := min q (deref s.remaining c).remaining }]
          remaining := mutate s.remaining c (fun j =>
            { j with
              remaining := num ((deref s.remaining c).remaining - min q (deref s.remaining c).remaining)
              completion := some (num (s.time + min q (deref s.remaining c).remaining)) })
          arrived := (rrAdmit s.time s.remaining s.queue s.arrived).2 } := by
  simp only [rrBody, h]

/-! ## The loops of the program on the safe integers

As long as the times of a run are safe integers (`SafeTimes`), every sum and difference that
a loop body computes is exact, so the loops of the program are the loops in exact
arithmetic. -/

theorem le_foldr_max (l : List Nat) (a : Nat) (h : a ∈ l) : a ≤ l.foldr max 0 := by
  induction l with
  | nil => simp at h
  | cons b l ih =>
    simp only [List.foldr_cons]
    rcases List.mem_cons.mp h with rfl | h'
    · exact le_max_left _ _
    · exact le_trans (ih h') (le_max_right _ _)

theorem arrival_le_latest (P : List Process) (i : Nat) (hi : i < P.length) :
    (deref P i).arrival ≤ (latestArrival P : Int) := by
  have h1 : (deref P i).arrival.toNat ≤ latestArrival P :=
    le_foldr_max _ _ (List.mem_map_of_mem (fun p => p.arrival.toNat) (deref_mem P i hi))
  omega

theorem neg_arrival_le_earliest (P : List Process) (i : Nat) (hi : i < P.length) :
    -(deref P i).arrival ≤ (earliestArrival P : Int) := by
  have h1 : (-(deref P i).arrival).toNat ≤ earliestArrival P :=
    le_foldr_max _ _ (List.mem_map_of_mem (fun p => (-p.arrival).toNat) (deref_mem P i hi))
  omega

theorem toNat_remaining_le_sum (R : List Job) (i : Nat) (hi : i < R.length) :
    (deref R i).remaining.toNat ≤ (R.map (fun j => j.remaining.toNat)).sum :=
  List.single_le_sum (by simp) _ (List.mem_map_of_mem (fun j => j.remaining.toNat) (deref_mem R i hi))

theorem runSafe_init (P : List Process) : RunSafe P 0 (P.map Job.ofProcess) := by
  have e : ((P.map Job.ofProcess).map (fun j => j.remaining.toNat)).sum = burstTotal P := by
    simp only [burstTotal, List.map_map]
    rfl
  exact ⟨le_refl _, by rw [e], by rw [e]; omega⟩

/-- On the safe integers an iteration of the loop of `runSJF` / `runPriority` is the iteration
in exact arithmetic, and it keeps the times safe. -/
theorem np_safe_step (P : List Process) (key : Job → Int) (skey : Process → Int)
    (hkey : ∀ p, key (Job.ofProcess p) = skey p) (hP : DistinctPids P)
    (hb : ∀ i, i < P.length → 0 < (deref P i).burst) (hs : SafeTimes P)
    (s : NPState) (hinv : NPInv P skey s) (hsafe : RunSafe P s.time s.remaining)
    (hc : npCond P.length s = true) :
    npBody key s = Exact.npBody key s ∧
      RunSafe P (Exact.npBody key s).time (Exact.npBody key s).remaining := by
  obtain ⟨hinv', hμ⟩ := Exact.npBody_step P key skey hkey hP hb (latestArrival P)
    (arrival_le_latest P) s hinv hc
  obtain ⟨t0, w, tl⟩ := hsafe
  unfold SafeTimes at hs
  cases hsort : sortRefs (fun i => key (deref s.remaining i))
      (admitReady s.time s.remaining s.ready) with
  | nil =>
    rw [Exact.npBody_idle key s hsort] at hμ ⊢
    rw [npBody_of_nil key s hsort]
    simp only at hμ
    have hlt : s.time < (latestArrival P : Int) := by omega
    rw [num_of_nonneg_le _ (by omega) (by omega)]
    exact ⟨rfl, ⟨by simp only; omega, w, by simp only; omega⟩⟩
  | cons c rest =>
    rw [Exact.npBody_run key s c rest hsort] at hinv' ⊢
    rw [npBody_of_cons key s c rest hsort]
    have hnd := hinv'.done_nodup
    simp only at hnd
    have hcd : c ∉ s.done := by
      intro hmem
      have := (List.nodup_append.mp hnd).2.2
      exact this hmem (List.mem_singleton_self c)
    have hcP : c < P.length := hinv'.done_lt c (by simp)
    have hcR : c < s.remaining.length := hinv.len ▸ hcP
    have hrem : (deref s.remaining c).remaining = (deref P c).burst := by
      rw [hinv.pending c hcP hcd]; rfl
    have hbc := hb c hcP
    have hle := toNat_remaining_le_sum s.remaining c hcR
    have hm := sum_toNat_mutate (fun j =>
      { j with completion := some (s.time + (deref s.remaining c).remaining), remaining := 0 })
      s.remaining c hcR
    simp only [Int.toNat_zero, add_zero] at hm
    rw [num_of_nonneg_le _ (by omega) (by omega)]
    exact ⟨rfl, ⟨by simp only; omega, by simp only; omega, by simp only; omega⟩⟩

/-- On the safe integers the loop of `runSJF` / `runPriority` is the loop in exact
arithmetic. -/
theorem np_sim (P : List Process) (key : Job → Int) (skey : Process → Int)
    (hkey : ∀ p, key (Job.ofProcess p) = skey p) (hP : DistinctPids P)
    (hb : ∀ i, i < P.length → 0 < (deref P i).burst) (hs : SafeTimes P) (fuel : Nat) :
    whileLoop (npCond P.length) (npBody key) fuel (npInit P) =
      whileLoop (npCond P.length) (Exact.npBody key) fuel (npInit P) :=
  whileLoop_congr (npCond P.length) (npBody key) (Exact.npBody key)
    (fun s => NPInv P skey s ∧ RunSafe P s.time s.remaining)
    (fun s hinv hc =>
      ⟨(np_safe_step P key skey hkey hP hb hs s hinv.1 hinv.2 hc).1,
        (Exact.npBody_step P key skey hkey hP hb (latestArrival P) (arrival_le_latest P) s
          hinv.1 hc).1,
        (np_safe_step P key skey hkey hP hb hs s hinv.1 hinv.2 hc).2⟩)
    fuel (npInit P) ⟨npInit_inv P skey, runSafe_init P⟩

/-! ### `runSRTF` -/

theorem setLastDuration_exact (schedule : List Segment) (time : Int)
    (hstart : StartedByNow time schedule) (ht : time ≤ (maxSafe : Int)) :
    setLastDuration schedule time = Exact.setLastDuration schedule time := by
  unfold setLastDuration Exact.setLastDuration
  cases h : schedule.getLast? with
  | none => rfl
  | some lastSeg =>
    simp only
    obtain ⟨h1, h2⟩ := hstart lastSeg (List.mem_of_getLast?_eq_some h)
    rw [num_of_nonneg_le _ (by omega) (by omega)]

theorem startedByNow_setLastDuration (schedule : List Segment) (time t : Int)
    (hstart : StartedByNow time schedule) :
    StartedByNow time (Exact.setLastDuration schedule t) := by
  unfold Exact.setLastDuration
  cases h : schedule.getLast? with
  | none => exact hstart
  | some lastSeg =>
    simp only
    intro seg hseg
    rcases List.mem_append.mp hseg with hseg | hseg
    · exact hstart seg (List.mem_of_mem_dropLast hseg)
    · rw [List.mem_singleton] at hseg
      subst hseg
      exact hstart lastSeg (List.mem_of_getLast?_eq_some h)

theorem startedByNow_mono (schedule : List Segment) (time time' : Int) (h : time ≤ time')
    (hstart : StartedByNow time schedule) : StartedByNow time' schedule :=
  fun seg hseg => ⟨(hstart seg hseg).1, le_trans (hstart seg hseg).2 h⟩

theorem startedByNow_append (schedule : List Segment) (time : Int) (seg : Segment)
    (hstart : StartedByNow time schedule) (h0 : 0 ≤ seg.start) (h1 : seg.start ≤ time) :
    StartedByNow time (schedule ++ [seg]) := by
  intro seg' hseg'
  rcases List.mem_append.mp hseg' with h | h
  · exact hstart seg' h
  · rw [List.mem_singleton] at h
    subst h
    exact ⟨h0, h1⟩

theorem srtfSafe_init (P : List Process) (hb : ∀ i, i < P.length → 0 < (deref P i).burst) :
    SRTFSafe P (srtfInit P) := by
  refine ⟨runSafe_init P, ?_, ?_⟩
  · intro seg hseg
    simp [srtfInit] at hseg
  · intro i hi hz
    simp only [srtfInit, List.length_map] at hi hz
    rw [deref_map Job.ofProcess P i hi] at hz
    have h2 : (Job.ofProcess (deref P i)).remaining = (deref P i).burst := rfl
    have := hb i hi
    omega

/-- On the safe integers an iteration of the loop of `runSRTF` is the iteration in exact
arithmetic, and it keeps the times safe. -/
theorem srtf_safe_step (P : List Process) (hs : SafeTimes P)
    (s : SRTFState) (hinv : SRTFInv P s) (hsafe : SRTFSafe P s)
    (hc : srtfCond P.length s = true) :
    srtfBody s = Exact.srtfBody s ∧ SRTFSafe P (Exact.srtfBody s) := by
  obtain ⟨_, hμ⟩ := Exact.srtfBody_step P (latestArrival P) (arrival_le_latest P) s hinv hc
  obtain ⟨⟨t0, w, tl⟩, hstart, hcompl⟩ := hsafe
  unfold SafeTimes at hs
  cases hcand : srtfCandidates s with
  | nil =>
    rw [Exact.srtfBody_idle s hcand] at hμ ⊢
    rw [srtfBody_of_nil s hcand]
    simp only at hμ
    have hlt : s.time < (latestArrival P : Int) := by omega
    rw [num_of_nonneg_le _ (by omega) (by omega)]
    refine ⟨rfl, ⟨by simp only; omega, w, by simp only; omega⟩, ?_, ?_⟩
    · exact startedByNow_mono _ _ _ (by simp only; omega) hstart
    · intro i hi hz c hc'
      have := hcompl i hi hz c hc'
      simp only
      omega
  | cons c rest =>
    have hcm : c ∈ srtfCandidates s := by rw [hcand]; simp
    obtain ⟨hcR, _, hpos⟩ := (srtfCandidates_mem s c).mp hcm
    have hle := toNat_remaining_le_sum s.remaining c hcR
    have hn1 : num ((deref s.remaining c).remaining - 1) = (deref s.remaining c).remaining - 1 :=
      num_of_nonneg_le _ (by omega) (by omega)
    have hn2 : num (s.time + 1) = s.time + 1 := num_of_nonneg_le _ (by omega) (by omega)
    have hset : setLastDuration s.schedule s.time = Exact.setLastDuration s.schedule s.time :=
      setLastDuration_exact _ _ hstart (by omega)
    refine ⟨?_, ?_⟩
    · rw [Exact.srtfBody_run s c rest hcand, srtfBody_of_cons s c rest hcand, hn1, hn2, hset]
    · rw [Exact.srtfBody_run s c rest hcand]
      have hopened : StartedByNow (s.time + 1)
          (if s.lastPid ≠ some (deref s.remaining c).pid then
            ((if s.lastPid ≠ none then Exact.setLastDuration s.schedule s.time else s.schedule) ++
                [{ pid := (deref s.remaining c).pid, start := s.time, duration := 0 }],
              some (deref s.remaining c).pid)
            else (s.schedule, s.lastPid)).1 := by
        split
        · simp only
          apply startedByNow_append
          · split
            · exact startedByNow_setLastDuration _ _ _
                (startedByNow_mono _ _ _ (by omega) hstart)
            · exact startedByNow_mono _ _ _ (by omega) hstart
          · exact t0
          · simp only; omega
        · exact startedByNow_mono _ _ _ (by omega) hstart
      split
      · rename_i hzero
        have hm := sum_toNat_mutate (fun j =>
          { j with remaining := (deref s.remaining c).remaining - 1,
                   completion := some (s.time + 1) }) s.remaining c hcR
        simp only at hm
        refine ⟨⟨by simp only; omega, by simp only; omega, by simp only; omega⟩, hopened, ?_⟩
        intro i hi hz c' hc'
        simp only [length_mutate] at hi
        simp only at hz hc' ⊢
        by_cases hic : i = c
        · subst hic
          rw [deref_mutate_self _ _ _ hi] at hc'
          simp only [Option.some.injEq] at hc'
          omega
        · rw [deref_mutate_ne _ _ _ _ (Ne.symm hic)] at hz hc'
          have := hcompl i hi hz c' hc'
          omega
      · rename_i hzero
        have hm := sum_toNat_mutate (fun j =>
          { j with remaining := (deref s.remaining c).remaining - 1 }) s.remaining c hcR
        simp only at hm
        refine ⟨⟨by simp only; omega, by simp only; omega, by simp only; omega⟩, hopened, ?_⟩
        intro i hi hz c' hc'
        simp only [length_mutate] at hi
        simp only at hz hc' ⊢
        by_cases hic : i = c
        · subst hic
          rw [deref_mutate_self _ _ _ hi] at hz
          simp only at hz
          exact absurd hz hzero
        · rw [deref_mutate_ne _ _ _ _ (Ne.symm hic)] at hz hc'
          have := hcompl i hi hz c' hc'
          omega

/-- On the safe integers the loop of `runSRTF` is the loop in exact arithmetic. -/
theorem srtf_sim (P : List Process) (hb : ∀ i, i < P.length → 0 < (deref P i).burst)
    (hs : SafeTimes P) (fuel : Nat) :
    whileLoop (srtfCond P.length) srtfBody fuel (srtfInit P) =
      whileLoop (srtfCond P.length) Exact.srtfBody fuel (srtfInit P) :=
  whileLoop_congr (srtfCond P.length) srtfBody Exact.srtfBody
    (fun s => SRTFInv P s ∧ SRTFSafe P s)
    (fun s hinv hc =>
      ⟨(srtf_safe_step P hs s hinv.1 hinv.2 hc).1,
        (Exact.srtfBody_step P (latestArrival P) (arrival_le_latest P) s hinv.1 hc).1,
        (srtf_safe_step P hs s hinv.1 hinv.2 hc).2⟩)
    fuel (srtfInit P) ⟨srtfInit_inv P hb, srtfSafe_init P hb⟩

/-! ### `runRR` -/

theorem rrSafe_init (P : List Process) (hb : ∀ i, i < P.length → 0 < (deref P i).burst) :
    RRSafe P (rrInit P) := by
  refine ⟨runSafe_init P, ?_⟩
  intro i hi hz
  simp only [rrInit, List.length_map] at hi hz
  rw [deref_map Job.ofProcess P i hi] at hz
  have h2 : (Job.ofProcess (deref P i)).remaining = (deref P i).burst := rfl
  have := hb i hi
  omega

/-- On the safe integers an iteration of the loop of `runRR` is the iteration in exact
arithmetic, and it keeps the times safe. -/
theorem rr_safe_step (P : List Process) (q : Int) (hq : 0 < q) (hP : DistinctPids P)
    (hs : SafeTimes P) (s : RRState) (hinv : RRInv P q s) (hsafe : RRSafe P s)
    (hc : rrCond s = true) :
    rrBody q s = Exact.rrBody q s ∧ RRSafe P (Exact.rrBody q s) := by
  obtain ⟨_, hμ⟩ := Exact.rrBody_step P q hq hP (latestArrival P) (arrival_le_latest P) s hinv hc
  obtain ⟨hA, _, _, _, _⟩ := rr_admit_inv P q hP s hinv
  obtain ⟨⟨t0, w, tl⟩, hcompl⟩ := hsafe
  unfold SafeTimes at hs
  obtain ⟨new, e1, _, _, _⟩ := rrAdmit_spec s.time s.remaining s.queue s.arrived
  cases hqa : (rrAdmit s.time s.remaining s.queue s.arrived).1 with
  | nil =>
    have hnil : s.queue ++ new = [] := by
      have := congrArg Prod.fst e1
      rw [hqa] at this
      exact this.symm
    obtain ⟨hq0, hnew⟩ := List.append_eq_nil.mp hnil
    have harr : (rrAdmit s.time s.remaining s.queue s.arrived).2 = s.arrived := by
      have := congrArg Prod.snd e1
      rw [this, hnew]
      simp
    rw [Exact.rrBody_idle q s hqa] at hμ ⊢
    rw [rrBody_of_nil q s hqa]
    simp only [harr] at hμ
    simp only [hq0, List.length_nil] at hμ
    have hlt : s.time < (latestArrival P : Int) := by omega
    rw [num_of_nonneg_le _ (by omega) (by omega)]
    refine ⟨rfl, ⟨by simp only; omega, w, by simp only; omega⟩, ?_⟩
    intro i hi hz c hc'
    have := hcompl i hi hz c hc'
    simp only
    omega
  | cons c rest =>
    have hcP : c < P.length := (hA.inq c (by simp only [hqa]; simp)).1
    have hcR : c < s.remaining.length := hinv.len ▸ hcP
    have hnn := hinv.rem_nonneg c hcP
    have hle := toNat_remaining_le_sum s.remaining c hcR
    have hmin1 : 0 ≤ min q (deref s.remaining c).remaining := le_min (le_of_lt hq) hnn
    have hmin2 : min q (deref s.remaining c).remaining ≤ (deref s.remaining c).remaining :=
      min_le_right _ _
    have hn1 : num ((deref s.remaining c).remaining - min q (deref s.remaining c).remaining) =
        (deref s.remaining c).remaining - min q (deref s.remaining c).remaining :=
      num_of_nonneg_le _ (by omega) (by omega)
    have hn2 : num (s.time + min q (deref s.remaining c).remaining) =
        s.time + min q (deref s.remaining c).remaining :=
      num_of_nonneg_le _ (by omega) (by omega)
    refine ⟨?_, ?_⟩
    · rw [Exact.rrBody_run q s c rest hqa, rrBody_of_cons q s c rest hqa, hn1, hn2]
    · rw [Exact.rrBody_run q s c rest hqa]
      split
      · rename_i hpos
        have hm := sum_toNat_mutate (fun j =>
          { j with remaining :=
              (deref s.remaining c).remaining - min q (deref s.remaining c).remaining })
          s.remaining c hcR
        simp only at hm
        refine ⟨⟨by simp only; omega, by simp only; omega, by simp only; omega⟩, ?_⟩
        intro i hi hz c' hc'
        simp only [length_mutate] at hi
        simp only at hz hc' ⊢
        by_cases hic : i = c
        · subst hic
          rw [deref_mutate_self _ _ _ hi] at hz
          simp only at hz
          omega
        · rw [deref_mutate_ne _ _ _ _ (Ne.symm hic)] at hz hc'
          have := hcompl i hi hz c' hc'
          omega
      · rename_i hpos
        have hm := sum_toNat_mutate (fun j =>
          { j with
            remaining := (deref s.remaining c).remaining - min q (deref s.remaining c).remaining
            completion := some (s.time + min q (deref s.remaining c).remaining) })
          s.remaining c hcR
        simp only at hm
        refine ⟨⟨by simp only; omega, by simp only; omega, by simp only; omega⟩, ?_⟩
        intro i hi hz c' hc'
        simp only [length_mutate] at hi
        simp only at hz hc' ⊢
        by_cases hic : i = c
        · subst hic
          rw [deref_mutate_self _ _ _ hi] at hc'
          simp only [Option.some.injEq] at hc'
          omega
        · rw [deref_mutate_ne _ _ _ _ (Ne.symm hic)] at hz hc'
          have := hcompl i hi hz c' hc'
          omega

/-- On the safe integers the loop of `runRR` with a positive quantum is the loop in exact
arithmetic. -/
theorem rr_sim (P : List Process) (q : Int) (hq : 0 < q) (hP : DistinctPids P)
    (hb : ∀ i, i < P.length → 0 < (deref P i).burst) (hs : SafeTimes P) (fuel : Nat) :
    whileLoop rrCond (rrBody q) fuel (rrInit P) =
      whileLoop rrCond (Exact.rrBody q) fuel (rrInit P) :=
  whileLoop_congr rrCond (rrBody q) (Exact.rrBody q)
    (fun s => RRInv P q s ∧ RRSafe P s)
    (fun s hinv hc =>
      ⟨(rr_safe_step P q hq hP hs s hinv.1 hinv.2 hc).1,
        (Exact.rrBody_step P q hq hP (latestArrival P) (arrival_le_latest P) s hinv.1 hc).1,
        (rr_safe_step P q hq hP hs s hinv.1 hinv.2 hc).2⟩)
    fuel (rrInit P) ⟨rrInit_inv P q hb, rrSafe_init P hb⟩

/-! ### `runFCFS` -/

theorem sum_burst_eq (P : List Process) (hb : ∀ p ∈ P, 0 ≤ p.burst) :
    (P.map (fun p => p.burst)).sum = (burstTotal P : Int) := by
  induction P with
  | nil => rfl
  | cons p P ih =>
    have h1 := hb p (by simp)
    have h2 := ih (fun p' hp' => hb p' (by simp [hp']))
    simp only [burstTotal, List.map_cons, List.sum_cons, Nat.cast_add] at h2 ⊢
    rw [h2]
    omega

theorem fcfsVisit_exact (st : FCFSState) (i : Nat) (p : Process) (h : st.heap[i]? = some p)
    (h0 : 0 ≤ max st.time p.arrival + p.burst)
    (h1 : max st.time p.arrival + p.burst ≤ (maxSafe : Int)) :
    fcfsVisit st i = Exact.fcfsVisit st i := by
  have hmax : (if st.time < p.arrival then p.arrival else st.time) = max st.time p.arrival := by
    split
    · rw [max_eq_right (by omega)]
    · rw [max_eq_left (by omega)]
  simp only [fcfsVisit, Exact.fcfsVisit, h, hmax, num_of_nonneg_le _ h0 h1]

/-- The rounds of `runFCFS` over the references `l` are the rounds in exact arithmetic, when
the cursor and the bursts to come stay within the safe integers. -/
theorem fcfs_fold_sim (L : Int) (l : List Nat) : ∀ st : FCFSState, l.Nodup →
    (∀ i ∈ l, i < st.heap.length) → 0 ≤ st.time →
    (∀ i ∈ l, (st.heap.getD i default).arrival ≤ L ∧ 0 ≤ (st.heap.getD i default).burst) →
    max st.time L + (l.map (fun i => (st.heap.getD i default).burst)).sum ≤ (maxSafe : Int) →
    l.foldl fcfsVisit st = l.foldl Exact.fcfsVisit st := by
  induction l with
  | nil => intro st _ _ _ _ _; rfl
  | cons i l ih =>
    intro st hnd hlt h0 hok hsum
    rw [List.nodup_cons] at hnd
    have hi : i < st.heap.length := hlt i (by simp)
    obtain ⟨p, hget⟩ : ∃ p, st.heap[i]? = some p := ⟨st.heap[i], List.getElem?_eq_getElem hi⟩
    have hpD : st.heap.getD i default = p := by
      rw [List.getD_eq_getElem?_getD, hget]; rfl
    obtain ⟨ha, hb⟩ := hok i (by simp)
    rw [hpD] at ha hb
    simp only [List.map_cons, List.sum_cons, hpD] at hsum
    have hrest : 0 ≤ (l.map (fun j => (st.heap.getD j default).burst)).sum :=
      List.sum_nonneg (by
        intro x hx
        obtain ⟨j, hj, rfl⟩ := List.mem_map.mp hx
        exact (hok j (by simp [hj])).2)
    have hm1 : max st.time p.arrival ≤ max st.time L := max_le_max (le_refl _) ha
    have hm0 : 0 ≤ max st.time p.arrival := le_trans h0 (le_max_left _ _)
    have hv := fcfsVisit_exact st i p hget (by omega) (by omega)
    have hx := Exact.fcfsVisit_of_getElem? hget
    simp only [List.foldl_cons]
    rw [hv]
    generalize Exact.fcfsVisit st i = st1 at hx
    have hlen1 : st1.heap.length = st.heap.length := by rw [hx]; simp
    have hsameD : ∀ j, j ≠ i → st1.heap.getD j default = st.heap.getD j default := by
      intro j hj
      rw [List.getD_eq_getElem?_getD, List.getD_eq_getElem?_getD, hx]
      simp [List.getElem?_set_ne (Ne.symm hj)]
    have hmap : l.map (fun j => (st1.heap.getD j default).burst) =
        l.map (fun j => (st.heap.getD j default).burst) := by
      apply List.map_congr_left
      intro j hj
      rw [hsameD j (fun e => hnd.1 (e ▸ hj))]
    have htime : st1.time = max st.time p.arrival + p.burst := by rw [hx]
    apply ih st1 hnd.2
    · intro j hj
      rw [hlen1]
      exact hlt j (by simp [hj])
    · rw [htime]; omega
    · intro j hj
      rw [hsameD j (fun e => hnd.1 (e ▸ hj))]
      exact hok j (by simp [hj])
    · rw [hmap, htime]
      have : max (max st.time p.arrival + p.burst) L ≤ max st.time L + p.burst := by
        apply max_le
        · omega
        · have := le_max_right st.time L
          omega
      omega

/-- On the safe integers the rounds of `runFCFS` are the rounds in exact arithmetic. -/
theorem fcfs_sim (P : List Process) (hb : ∀ p ∈ P, 0 ≤ p.burst) (hs : SafeTimes P) :
    (fcfsSorted P).foldl fcfsVisit { time := 0, schedule := [], heap := P } =
      (fcfsSorted P).foldl Exact.fcfsVisit { time := 0, schedule := [], heap := P } := by
  apply fcfs_fold_sim (latestArrival P) _ _ (fcfsSorted_nodup P) (fcfsSorted_lt P) (le_refl _)
  · intro i hi
    have hlt := fcfsSorted_lt P i hi
    exact ⟨arrival_le_latest P i hlt, hb _ (deref_mem P i hlt)⟩
  · have hperm := (fcfsSorted_perm P).map (fun i => (P.getD i default).burst)
    have e : (List.range P.length).map (fun i => (P.getD i default).burst) =
        P.map (fun p => p.burst) := by
      conv_rhs => rw [← map_deref_range P]
      rw [List.map_map]
      rfl
    simp only
    rw [hperm.sum_eq, e, sum_burst_eq P hb]
    unfold SafeTimes at hs
    have : max (0 : Int) (latestArrival P) = latestArrival P := max_eq_right (by omega)
    omega

/-! ## The routines on the safe integers -/

/-- The turnaround and waiting times that `calculateMetrics` computes are exact when they are
safe integers. -/
theorem calculateMetricsOne_safe (p : Process) (c : Int)
    (h1 : -(maxSafe : Int) ≤ c - p.arrival) (h2 : c - p.arrival ≤ (maxSafe : Int))
    (h3 : -(maxSafe : Int) ≤ c - p.arrival - p.originalBurst)
    (h4 : c - p.arrival - p.originalBurst ≤ (maxSafe : Int)) :
    (calculateMetricsOne { p with completion := some c }).turnaround = some (c - p.arrival) ∧
      (calculateMetricsOne { p with completion := some c }).waiting =
        some (c - p.arrival - p.originalBurst) := by
  simp only [calculateMetricsOne, Option.map_some', num_of_safe _ h1 h2, num_of_safe _ h3 h4,
    and_self]

theorem metricsSound_one (p : Process) (c : Int) (horig : p.originalBurst = p.burst)
    (hb : 0 ≤ p.burst) (hle : p.arrival + p.burst ≤ c) (hc : c - p.arrival ≤ (maxSafe : Int)) :
    MetricsSound (calculateMetricsOne { p with completion := some c }) := by
  obtain ⟨e1, e2⟩ := calculateMetricsOne_safe p c (by omega) hc (by omega) (by omega)
  refine ⟨c, c - p.arrival, c - p.arrival - p.originalBurst, rfl, e1, e2, hle, ?_, ?_⟩
  · omega
  · show c - p.arrival = c - p.arrival - p.originalBurst + p.burst
    omega

theorem metricsSound_job (p : Process) (c r : Int) (horig : p.originalBurst = p.burst)
    (hb : 0 ≤ p.burst) (hle : p.arrival + p.burst ≤ c) (hc : c - p.arrival ≤ (maxSafe : Int)) :
    MetricsSound (Job.calculateMetrics (Job.withRun p (some c) r)).toProcess :=
  metricsSound_one p c horig hb hle hc

/-- With safe times, the difference between a time of the run and an arrival is a safe
integer. -/
theorem sub_arrival_le_maxSafe (P : List Process) (hs : SafeTimes P) (i : Nat)
    (hi : i < P.length) (c : Int) (hc : c ≤ (latestArrival P : Int) + (burstTotal P : Nat)) :
    c - (deref P i).arrival ≤ (maxSafe : Int) := by
  have := neg_arrival_le_earliest P i hi
  unfold SafeTimes at hs
  omega

theorem runSafe_time_le (P : List Process) (time : Int) (remaining : List Job)
    (h : RunSafe P time remaining) : time ≤ (latestArrival P : Int) + (burstTotal P : Nat) := by
  have := h.time_le
  omega

/-- With safe times the loop of `runSJF` / `runPriority` ends (for any fuel from `npFuel` on),
in a state that has the invariants of the loop. -/
theorem np_loop_safe (P : List Process) (key : Job → Int) (skey : Process → Int)
    (hkey : ∀ p, key (Job.ofProcess p) = skey p) (hP : DistinctPids P)
    (hb : ∀ i, i < P.length → 0 < (deref P i).burst) (hs : SafeTimes P) :
    ∃ s, (∀ fuel, npFuel P ≤ fuel →
        whileLoop (npCond P.length) (npBody key) fuel (npInit P) = some s) ∧
      NPInv P skey s ∧ NPGap P s ∧ RunSafe P s.time s.remaining ∧
      s.done.Perm (List.range P.length) := by
  obtain ⟨s, hloop, hinv, hperm⟩ := Exact.np_loop P key skey hkey hP hb
  have hall := whileLoop_invariant (npCond P.length) (Exact.npBody key)
    (fun s => NPInv P skey s ∧ NPGap P s ∧ RunSafe P s.time s.remaining)
    (fun s h hc =>
      ⟨(Exact.npBody_step P key skey hkey hP hb (latestArrival P) (arrival_le_latest P) s
          h.1 hc).1,
        Exact.npBody_gap_step P key skey hP hb s h.1 h.2.1,
        (np_safe_step P key skey hkey hP hb hs s h.1 h.2.2 hc).2⟩)
    (npFuel P) (npInit P) s ⟨npInit_inv P skey, npInit_gap P, runSafe_init P⟩
    (hloop _ (le_refl _))
  refine ⟨s, ?_, hinv, hall.2.1, hall.2.2, hperm⟩
  intro fuel hf
  rw [np_sim P key skey hkey hP hb hs fuel]
  exact hloop fuel hf

/-- With safe times the loop of `runSRTF` ends (for any fuel from `srtfFuel` on), with no work
remaining, in a state that has the invariants of the loop. -/
theorem srtf_loop_safe (P : List Process) (hb : ∀ i, i < P.length → 0 < (deref P i).burst)
    (hs : SafeTimes P) :
    ∃ s, (∀ fuel, srtfFuel P ≤ fuel →
        whileLoop (srtfCond P.length) srtfBody fuel (srtfInit P) = some s) ∧
      SRTFInv P s ∧ SRTFSafe P s ∧ ∀ i, i < P.length → (deref s.remaining i).remaining = 0 := by
  obtain ⟨s, hloop, hinv, hzero⟩ := Exact.srtf_loop P hb
  have hall := whileLoop_invariant (srtfCond P.length) Exact.srtfBody
    (fun s => SRTFInv P s ∧ SRTFSafe P s)
    (fun s h hc =>
      ⟨(Exact.srtfBody_step P (latestArrival P) (arrival_le_latest P) s h.1 hc).1,
        (srtf_safe_step P hs s h.1 h.2 hc).2⟩)
    (srtfFuel P) (srtfInit P) s ⟨srtfInit_inv P hb, srtfSafe_init P hb⟩ (hloop _ (le_refl _))
  refine ⟨s, ?_, hinv, hall.2, hzero⟩
  intro fuel hf
  rw [srtf_sim P hb hs fuel]
  exact hloop fuel hf

/-- With safe times the loop of `runRR` with a positive quantum ends (for any fuel from
`rrFuel` on), with no work remaining, in a state that has the invariants of the loop. -/
theorem rr_loop_safe (P : List Process) (q : Int) (hq : 0 < q) (hP : DistinctPids P)
    (hb : ∀ i, i < P.length → 0 < (deref P i).burst) (hs : SafeTimes P) :
    ∃ s, (∀ fuel, rrFuel P ≤ fuel → whileLoop rrCond (rrBody q) fuel (rrInit P) = some s) ∧
      RRInv P q s ∧ RRGap P s ∧ RRSafe P s ∧ s.queue = [] ∧
      ∀ i, i < P.length → (deref s.remaining i).remaining = 0 := by
  obtain ⟨s, hloop, hinv, hq0, hzero⟩ := Exact.rr_loop P q hq hP hb
  have hall := whileLoop_invariant rrCond (Exact.rrBody q)
    (fun s => RRInv P q s ∧ RRGap P s ∧ RRSafe P s)
    (fun s h hc =>
      ⟨(Exact.rrBody_step P q hq hP (latestArrival P) (arrival_le_latest P) s h.1 hc).1,
        Exact.rrBody_gap_step P q hP s h.1 h.2.1,
        (rr_safe_step P q hq hP hs s h.1 h.2.2 hc).2⟩)
    (rrFuel P) (rrInit P) s ⟨rrInit_inv P q hb, rrInit_gap P, rrSafe_init P hb⟩
    (hloop _ (le_refl _))
  refine ⟨s, ?_, hinv, hall.2.1, hall.2.2, hq0, hzero⟩
  intro fuel hf
  rw [rr_sim P q hq hP hb hs fuel]
  exact hloop fuel hf
theorem npFinish_schedule (P : List Process) (s : NPState) :
    (npFinish P s).schedule = s.schedule := rfl

theorem npFinish_procs (P : List Process) (skey : Process → Int) (s : NPState)
    (hinv : NPInv P skey s) :
    (npFinish P s).procs = s.done.map (fun i => Job.calculateMetrics (deref s.remaining i)) := by
  obtain ⟨_, _, m3⟩ := mutate_fold Job.calculateMetrics default s.done s.remaining hinv.done_nodup
    (fun i hi => by rw [hinv.len]; exact hinv.done_lt i hi)
  simp only [npFinish]
  apply List.map_congr_left
  intro i hi
  exact m3 i hi

/-- What the loop of `runSJF` / `runPriority` delivers with safe times: it ends; the records passed to
`calculateMetrics` are the processes of the registry, each once; the segments and the records
correspond one to one, a segment covering the whole burst of its process from a start that is
not before its arrival; and at the start of a segment its process has the least key among
the processes that have arrived and are not completed by then. -/
theorem np_contract (P : List Process) (key : Job → Int) (skey : Process → Int)
    (hkey : ∀ p, key (Job.ofProcess p) = skey p)
    (hskey : ∀ p q : Process, p.burst = q.burst → p.priority = q.priority → skey p = skey q)
    (hpid : (P.map (fun p => p.pid)).Nodup) (hb : ∀ p ∈ P, 0 < p.burst) (hs : SafeTimes P) :
    ∃ r, (∀ fuel, npFuel P ≤ fuel →
        (whileLoop (npCond P.length) (npBody key) fuel (npInit P)).map (npFinish P) = some r) ∧
      (r.procs.map (fun j => j.toProcess.entered)).Perm (P.map Process.entered) ∧
      (∀ j ∈ r.procs, ∃ p ∈ P, ∃ c, j = Job.calculateMetrics (Job.withRun p (some c) 0) ∧
        p.arrival + p.burst ≤ c ∧ c - p.arrival ≤ (maxSafe : Int)) ∧
      List.Forall₂ (fun (seg : Segment) (p : Job) =>
          seg.pid = p.pid ∧ seg.duration = p.burst ∧ p.arrival ≤ seg.start ∧
          p.completion = some (seg.start + seg.duration) ∧
          ∀ q ∈ r.procs, q.arrival ≤ seg.start →
            (∀ cq, q.completion = some cq → seg.start < cq) →
            skey p.toProcess ≤ skey q.toProcess)
        r.schedule r.procs := by
  obtain ⟨s, hloop, hinv, _, hsafe, hperm⟩ := np_loop_safe P key skey hkey
    (distinctPids_of_nodup P hpid) (burst_pos_of_forall P hb) hs
  have hprocs := npFinish_procs P skey s hinv
  refine ⟨npFinish P s, fun fuel hf => by rw [hloop fuel hf]; rfl, ?_, ?_, ?_⟩
  · rw [hprocs, List.map_map]
    have : P.map Process.entered = (List.range P.length).map (fun i => (deref P i).entered) := by
      conv_lhs => rw [← map_deref_range P]
      rw [List.map_map]
      rfl
    rw [this]
    refine List.Perm.trans (List.Perm.of_eq ?_) (hperm.map _)
    apply List.map_congr_left
    intro i hi
    obtain ⟨c, hc, _⟩ := hinv.finished i hi
    simp only [Function.comp, hc]
    rfl
  · rw [hprocs]
    intro j hj
    obtain ⟨i, hi, rfl⟩ := List.mem_map.mp hj
    obtain ⟨c, hc, h1, h2⟩ := hinv.finished i hi
    have hlt := hinv.done_lt i hi
    exact ⟨deref P i, deref_mem P i hlt, c, by rw [hc], h1,
      sub_arrival_le_maxSafe P hs i hlt c (le_trans h2 (runSafe_time_le P _ _ hsafe))⟩
  · rw [hprocs, npFinish_schedule, hinv.sched]
    apply forall₂_map_map
    intro i hi
    obtain ⟨c, hc, h1, _⟩ := hinv.finished i hi
    have hcompl : (deref s.remaining i).completion = some c := by rw [hc]; rfl
    simp only [hcompl, Option.getD_some]
    rw [hc]
    refine ⟨rfl, rfl, ?_, ?_, ?_⟩
    · show (deref P i).arrival ≤ c - (deref P i).burst
      omega
    · show some c = some (c - (deref P i).burst + (deref P i).burst)
      simp
    · intro q hq harr hlater
      obtain ⟨j, hj, rfl⟩ := List.mem_map.mp hq
      obtain ⟨cj, hcj, _, _⟩ := hinv.finished j hj
      have hcomplj : (deref s.remaining j).completion = some cj := by rw [hcj]; rfl
      rw [hcj] at harr hlater ⊢
      have := hinv.minimal i hi j (hinv.done_lt j hj) c hcompl harr
        (fun _ cj' hcj' => by
          rw [hcomplj] at hcj'
          simp only [Option.some.injEq] at hcj'
          subst hcj'
          exact hlater cj rfl)
      rw [hskey (Job.withRun (deref P i) (some c) 0).calculateMetrics.toProcess (deref P i) rfl rfl,
        hskey (Job.withRun (deref P j) (some cj) 0).calculateMetrics.toProcess (deref P j) rfl rfl]
      exact this

/-- What `runSRTF` delivers with safe times: it returns, and the records it passes to `calculateMetrics` are
the working copies of the processes of the registry, in registry order, each with no work
remaining and a completion time not before arrival plus burst. -/
theorem srtf_records (P : List Process) (hb : ∀ p ∈ P, 0 < p.burst) (hs : SafeTimes P) :
    ∃ r, (∀ fuel, srtfFuel P ≤ fuel → runSRTF fuel P = some r) ∧
      r.procs.length = P.length ∧
      (∀ i, i < P.length → ∃ c, deref r.procs i =
          Job.calculateMetrics (Job.withRun (deref P i) (some c) 0) ∧
        (deref P i).arrival + (deref P i).burst ≤ c ∧
        c - (deref P i).arrival ≤ (maxSafe : Int)) := by
  obtain ⟨s, hloop, hinv, hsafe, hzero⟩ := srtf_loop_safe P (burst_pos_of_forall P hb) hs
  refine ⟨srtfFinish P s, ?_, ?_, ?_⟩
  · intro fuel hf
    simp only [runSRTF, hloop fuel hf]
    rfl
  · simp [srtfFinish, hinv.len]
  · intro i hi
    obtain ⟨c, hc, hle⟩ := hinv.completed i hi (hzero i hi)
    have hct := hsafe.completed i (hinv.len ▸ hi) (hzero i hi) c hc
    refine ⟨c, ?_, hle,
      sub_arrival_le_maxSafe P hs i hi c (le_trans hct (runSafe_time_le P _ _ hsafe.run))⟩
    simp only [srtfFinish]
    rw [deref_map _ _ _ (hinv.len ▸ hi), hinv.form i hi, hc, hzero i hi]

/-- What `runRR` delivers with a positive quantum and safe times: it returns, and the records it passes to
`calculateMetrics` are the working copies of the processes of the registry, in registry
order, each with no work remaining and a completion time not before arrival plus burst. -/
theorem rr_records (P : List Process) (q : Int) (hq : 0 < q)
    (hpid : (P.map (fun p => p.pid)).Nodup) (hb : ∀ p ∈ P, 0 < p.burst) (hs : SafeTimes P) :
    ∃ r, (∀ fuel, rrFuel P ≤ fuel → runRR fuel (some q) P = some r) ∧
      r.procs.length = P.length ∧
      (∀ i, i < P.length → ∃ c, deref r.procs i =
          Job.calculateMetrics (Job.withRun (deref P i) (some c) 0) ∧
        (deref P i).arrival + (deref P i).burst ≤ c ∧
        c - (deref P i).arrival ≤ (maxSafe : Int)) ∧
      (∀ pre seg post, r.schedule = pre ++ seg :: post →
        ∃ p ∈ P, p.pid = seg.pid ∧ seg.duration = min q (p.burst - served pre seg.pid)) ∧
      (∀ p ∈ P, served r.schedule p.pid = p.burst) := by
  obtain ⟨s, hloop, hinv, _, hsafe, _, hzero⟩ := rr_loop_safe P q hq
    (distinctPids_of_nodup P hpid) (burst_pos_of_forall P hb) hs
  refine ⟨rrFinish P s, ?_, ?_, ?_, ?_, ?_⟩
  · intro fuel hf
    simp only [runRR, rrQuantum_pos q hq, hloop fuel hf]
    rfl
  · simp [rrFinish, hinv.len]
  · intro i hi
    obtain ⟨c, hc, hle⟩ := hinv.completed i hi (hzero i hi)
    have hct := hsafe.completed i (hinv.len ▸ hi) (hzero i hi) c hc
    refine ⟨c, ?_, hle,
      sub_arrival_le_maxSafe P hs i hi c (le_trans hct (runSafe_time_le P _ _ hsafe.run))⟩
    simp only [rrFinish]
    rw [deref_map _ _ _ (hinv.len ▸ hi), hinv.form i hi, hc, hzero i hi]
  · intro pre seg post h
    obtain ⟨i, hi, h1, h2⟩ := hinv.slices pre seg post h
    exact ⟨deref P i, deref_mem P i hi, h1, h2⟩
  · intro p hp
    obtain ⟨i, hi, rfl⟩ := exists_deref_of_mem P p hp
    have := hinv.served_eq i hi
    rw [hzero i hi] at this
    simp only [rrFinish]
    omega

/-- After `calculateMetrics`, a working copy whose process had no `response` has its waiting
time as response: no scheduling routine assigns `response`. -/
theorem response_eq_waiting_of_none (p : Process) (c : Option Int) (r : Int)
    (h : p.response = none) :
    (Job.calculateMetrics (Job.withRun p c r)).response =
      (Job.calculateMetrics (Job.withRun p c r)).waiting := by
  simp only [Job.calculateMetrics, Job.withRun, calculateMetricsOne, h]

theorem completion_of_record (p : Process) (c r : Int) :
    (Job.calculateMetrics (Job.withRun p (some c) r)).completion = some c := rfl

/-- With safe times the timeline of `runRR` with a positive quantum has no overlap, and no idle time while a
process is ready. -/
theorem rr_idle_only (P : List Process) (q : Int) (hq : 0 < q)
    (hpid : (P.map (fun p => p.pid)).Nodup) (hb : ∀ p ∈ P, 0 < p.burst) (hs : SafeTimes P) :
    ∃ r, (∀ fuel, rrFuel P ≤ fuel → runRR fuel (some q) P = some r) ∧
      IdleOnlyWhenNothingReady P r.schedule := by
  obtain ⟨s, hloop, _, hgap, _⟩ := rr_loop_safe P q hq (distinctPids_of_nodup P hpid)
    (burst_pos_of_forall P hb) hs
  refine ⟨rrFinish P s, ?_, hgap.gaps⟩
  intro fuel hf
  simp only [runRR, rrQuantum_pos q hq, hloop fuel hf]
  rfl

/-- With safe times the timeline of `runSJF` / `runPriority` has no overlap, and no idle time while a process
is ready. -/
theorem np_idle_only (P : List Process) (key : Job → Int) (skey : Process → Int)
    (hkey : ∀ p, key (Job.ofProcess p) = skey p)
    (hpid : (P.map (fun p => p.pid)).Nodup) (hb : ∀ p ∈ P, 0 < p.burst) (hs : SafeTimes P) :
    ∃ r, (∀ fuel, npFuel P ≤ fuel →
        (whileLoop (npCond P.length) (npBody key) fuel (npInit P)).map (npFinish P) = some r) ∧
      IdleOnlyWhenNothingReady P r.schedule := by
  obtain ⟨s, hloop, _, hgap, _⟩ := np_loop_safe P key skey hkey (distinctPids_of_nodup P hpid)
    (burst_pos_of_forall P hb) hs
  refine ⟨npFinish P s, ?_, hgap.gaps⟩
  intro fuel hf
  rw [hloop fuel hf]
  rfl

/-- The records of a run of `runSJF` / `runPriority` with safe times on a registry whose
`response` fields are cleared: waiting and response are both the start of the segment less
the arrival. -/
theorem np_response (P : List Process) (key : Job → Int) (skey : Process → Int)
    (hkey : ∀ p, key (Job.ofProcess p) = skey p)
    (hskey : ∀ p q : Process, p.burst = q.burst → p.priority = q.priority → skey p = skey q)
    (hpid : (P.map (fun p => p.pid)).Nodup)
    (hok : ∀ p ∈ P, 0 < p.burst ∧ p.originalBurst = p.burst ∧ p.response = none)
    (hs : SafeTimes P) :
    ∃ r, (∀ fuel, npFuel P ≤ fuel →
        (whileLoop (npCond P.length) (npBody key) fuel (npInit P)).map (npFinish P) = some r) ∧
      (r.procs.map (fun j => j.toProcess.entered)).Perm (P.map Process.entered) ∧
      (∀ p ∈ P, (r.schedule.map (fun seg => seg.pid)).count p.pid = 1) ∧
      List.Forall₂ (fun (seg : Segment) (p : Job) =>
          seg.pid = p.pid ∧ seg.duration = p.burst ∧
          p.waiting = some (seg.start - p.arrival) ∧ p.response = some (seg.start - p.arrival))
        r.schedule r.procs := by
  obtain ⟨r, h1, h2, h3, h4⟩ := np_contract P key skey hkey hskey hpid
    (fun p hp => (hok p hp).1) hs
  refine ⟨r, h1, h2, ?_, (forall₂_with_mem _ _ _ h4).imp ?_⟩
  · have hpids : r.schedule.map (fun seg => seg.pid) = r.procs.map (fun j => j.pid) :=
      map_eq_of_forall₂ _ _ _ _ (h4.imp (fun seg p h => h.1))
    rw [hpids]
    exact count_pid_eq_one _ P (pid_perm_of_entered_perm (fun j : Job => j.toProcess) _ P h2) hpid
  · rintro seg j ⟨⟨e1, e2, _, e4, _⟩, _, hj⟩
    obtain ⟨p, hp, c, rfl, hle, hcs⟩ := h3 j hj
    obtain ⟨hb, ho, hr⟩ := hok p hp
    have hc : c = seg.start + seg.duration := by
      have : some c = some (seg.start + seg.duration) := e4
      simpa using this
    have hd : seg.duration = p.burst := e2
    have hw : (Job.calculateMetrics (Job.withRun p (some c) 0)).waiting =
        some (seg.start - p.arrival) := by
      have := (calculateMetricsOne_safe p c (by omega) hcs (by omega) (by omega)).2
      refine Eq.trans this ?_
      congr 1
      omega
    refine ⟨e1, e2, hw, ?_⟩
    rw [response_eq_waiting_of_none p (some c) 0 hr]
    exact hw

/-! ### `runFCFS` on the safe integers -/

/-- The array `sorted` after `calculateMetrics`, as values. -/
theorem runFCFS_procs (processes : List Process) (hb : ∀ p ∈ processes, 0 ≤ p.burst)
    (hs : SafeTimes processes) :
    (runFCFS processes).procs =
      (List.zipWith (fun (p : Process) (seg : Segment) =>
          { p with completion := some (seg.start + seg.duration) })
        ((fcfsSorted processes).map (fun i => processes.getD i default))
        (fcfsRule 0 ((fcfsSorted processes).map (fun i => processes.getD i default)))).map
        calculateMetricsOne := by
  have hnd := fcfsSorted_nodup processes
  have hlt := fcfsSorted_lt processes
  obtain ⟨_, h2, _, h4⟩ := Exact.fcfs_fold (fcfsSorted processes)
    { time := 0, schedule := [], heap := processes } hnd hlt
  obtain ⟨_, _, m3⟩ := mutate_fold calculateMetricsOne default (fcfsSorted processes)
    ((fcfsSorted processes).foldl Exact.fcfsVisit
      { time := 0, schedule := [], heap := processes }).heap
    hnd (fun i hi => by rw [h2]; exact hlt i hi)
  simp only [runFCFS]
  rw [fcfs_sim processes hb hs, ← h4, List.map_map]
  apply List.map_congr_left
  intro i hi
  simp only [Function.comp]
  exact m3 i hi

theorem runFCFS_schedule (processes : List Process) (hb : ∀ p ∈ processes, 0 ≤ p.burst)
    (hs : SafeTimes processes) :
    (runFCFS processes).schedule =
      fcfsRule 0 ((fcfsSorted processes).map (fun i => processes.getD i default)) := by
  obtain ⟨h1, _, _, _⟩ := Exact.fcfs_fold (fcfsSorted processes)
    { time := 0, schedule := [], heap := processes } (fcfsSorted_nodup processes)
    (fcfsSorted_lt processes)
  simp only [runFCFS]
  rw [fcfs_sim processes hb hs, h1]
  simp

theorem fcfsRule_records_pid (ps : List Process) : ∀ c : Int,
    ((List.zipWith (fun (p : Process) (seg : Segment) =>
        { p with completion := some (seg.start + seg.duration) }) ps (fcfsRule c ps)).map
      calculateMetricsOne).map (fun p => p.pid) = ps.map (fun p => p.pid) := by
  induction ps with
  | nil => intro c; simp [fcfsRule]
  | cons p ps ih =>
    intro c
    simp only [fcfsRule, List.zipWith_cons_cons, List.map_cons, ih]
    rfl

theorem fcfsRule_records_completion (ps : List Process) : ∀ c : Int,
    ((List.zipWith (fun (p : Process) (seg : Segment) =>
        { p with completion := some (seg.start + seg.duration) }) ps (fcfsRule c ps)).map
      calculateMetricsOne).map (fun p => p.completion) =
      (fcfsRule c ps).map (fun seg => some (seg.start + seg.duration)) := by
  induction ps with
  | nil => intro c; simp [fcfsRule]
  | cons p ps ih =>
    intro c
    simp only [fcfsRule, List.zipWith_cons_cons, List.map_cons, ih]
    rfl

theorem fcfsRule_records_entered (ps : List Process) : ∀ c : Int,
    ((List.zipWith (fun (p : Process) (seg : Segment) =>
        { p with completion := some (seg.start + seg.duration) }) ps (fcfsRule c ps)).map
      calculateMetricsOne).map Process.entered = ps.map Process.entered := by
  induction ps with
  | nil => intro c; simp [fcfsRule]
  | cons p ps ih =>
    intro c
    simp only [fcfsRule, List.zipWith_cons_cons, List.map_cons, ih]
    rfl

theorem runFCFS_procs_length (processes : List Process) :
    (runFCFS processes).procs.length = processes.length := by
  simp only [runFCFS, List.length_map]
  rw [(fcfsSorted_perm processes).length_eq, List.length_range]

theorem max_add_le (c a b L : Int) (ha : a ≤ L) (hb : 0 ≤ b) :
    max (max c a + b) L ≤ max c L + b := by
  have h1 : max c a ≤ max c L := max_le_max (le_refl _) ha
  have h2 := le_max_right c L
  exact max_le (by omega) (by omega)

theorem fcfsRule_records_sound (ps : List Process) (E L : Int)
    (hok : ∀ p ∈ ps, p.originalBurst = p.burst ∧ 0 ≤ p.burst ∧ -E ≤ p.arrival ∧ p.arrival ≤ L) :
    ∀ c : Int, max c L + (ps.map (fun p => p.burst)).sum + E ≤ (maxSafe : Int) →
    ∀ q ∈ (List.zipWith (fun (p : Process) (seg : Segment) =>
        { p with completion := some (seg.start + seg.duration) }) ps (fcfsRule c ps)).map
      calculateMetricsOne, MetricsSound q := by
  induction ps with
  | nil => intro c _ q hq; simp [fcfsRule] at hq
  | cons p ps ih =>
    intro c hsum q hq
    obtain ⟨h1, h2, h3, h4⟩ := hok p (by simp)
    have hrest : 0 ≤ (ps.map (fun p => p.burst)).sum :=
      List.sum_nonneg (by
        intro x hx
        obtain ⟨p', hp', rfl⟩ := List.mem_map.mp hx
        exact (hok p' (by simp [hp'])).2.1)
    simp only [List.map_cons, List.sum_cons] at hsum
    have hm1 : max c p.arrival ≤ max c L := max_le_max (le_refl _) h4
    have hm2 := max_add_le c p.arrival p.burst L h4 h2
    simp only [fcfsRule, List.zipWith_cons_cons, List.map_cons, List.mem_cons] at hq
    rcases hq with rfl | hq
    · apply metricsSound_one p _ h1 h2
      · have := le_max_right c p.arrival
        omega
      · omega
    · exact ih (fun p' hp' => hok p' (by simp [hp'])) _ (by omega) q hq

theorem fcfsRule_records_response (ps : List Process) (E L : Int)
    (hok : ∀ p ∈ ps, (p.originalBurst = p.burst ∧ p.response = none) ∧ 0 ≤ p.burst ∧
      -E ≤ p.arrival ∧ p.arrival ≤ L) :
    ∀ c : Int, max c L + (ps.map (fun p => p.burst)).sum + E ≤ (maxSafe : Int) →
    List.Forall₂ (fun (seg : Segment) (p : Process) =>
        seg.pid = p.pid ∧ seg.duration = p.burst ∧
        p.waiting = some (seg.start - p.arrival) ∧ p.response = some (seg.start - p.arrival))
      (fcfsRule c ps)
      ((List.zipWith (fun (p : Process) (seg : Segment) =>
        { p with completion := some (seg.start + seg.duration) }) ps (fcfsRule c ps)).map
      calculateMetricsOne) := by
  induction ps with
  | nil => intro c _; simp [fcfsRule]
  | cons p ps ih =>
    intro c hsum
    obtain ⟨⟨h1, h2⟩, hb, hE, hL⟩ := hok p (by simp)
    have hrest : 0 ≤ (ps.map (fun p => p.burst)).sum :=
      List.sum_nonneg (by
        intro x hx
        obtain ⟨p', hp', rfl⟩ := List.mem_map.mp hx
        exact (hok p' (by simp [hp'])).2.1)
    simp only [List.map_cons, List.sum_cons] at hsum
    have hm1 : max c p.arrival ≤ max c L := max_le_max (le_refl _) hL
    have hm2 := max_add_le c p.arrival p.burst L hL hb
    have hm3 := le_max_right c p.arrival
    simp only [fcfsRule, List.zipWith_cons_cons, List.map_cons]
    refine List.Forall₂.cons ?_ (ih (fun p' hp' => hok p' (by simp [hp'])) _ (by omega))
    have hw : (calculateMetricsOne
        { p with completion := some (max c p.arrival + p.burst) }).waiting =
        some (max c p.arrival - p.arrival) := by
      have := (calculateMetricsOne_safe p (max c p.arrival + p.burst) (by omega) (by omega)
        (by omega) (by omega)).2
      refine Eq.trans this ?_
      congr 1
      omega
    have hr : (calculateMetricsOne
        { p with completion := some (max c p.arrival + p.burst) }).response =
        (calculateMetricsOne { p with completion := some (max c p.arrival + p.burst) }).waiting := by
      simp only [calculateMetricsOne, h2]
    exact ⟨rfl, rfl, hw, hr.trans hw⟩

/-- The processes that `runFCFS` visits are within the bounds of the registry, and with safe
times the cursor of `runFCFS` stays a safe integer. -/
theorem fcfsSorted_bounds (P : List Process) (hb : ∀ p ∈ P, 0 ≤ p.burst) (hs : SafeTimes P) :
    (∀ p ∈ (fcfsSorted P).map (fun i => P.getD i default),
      p ∈ P ∧ 0 ≤ p.burst ∧ -(earliestArrival P : Int) ≤ p.arrival ∧
        p.arrival ≤ (latestArrival P : Int)) ∧
    max (0 : Int) (latestArrival P) +
        (((fcfsSorted P).map (fun i => P.getD i default)).map (fun p => p.burst)).sum +
        (earliestArrival P : Int) ≤ (maxSafe : Int) := by
  constructor
  · intro p hp
    obtain ⟨i, hi, rfl⟩ := List.mem_map.mp hp
    have hlt := fcfsSorted_lt P i hi
    have hmem := deref_mem P i hlt
    have h1 := arrival_le_latest P i hlt
    have h2 := neg_arrival_le_earliest P i hlt
    exact ⟨hmem, hb _ hmem, by show -(earliestArrival P : Int) ≤ (deref P i).arrival; omega, h1⟩
  · have hperm := (fcfsSorted_perm P).map (fun i => (P.getD i default).burst)
    have e : (List.range P.length).map (fun i => (P.getD i default).burst) =
        P.map (fun p => p.burst) := by
      conv_rhs => rw [← map_deref_range P]
      rw [List.map_map]
      rfl
    rw [List.map_map]
    have e2 : ((fun p : Process => p.burst) ∘ fun i => P.getD i default) =
        fun i => (P.getD i default).burst := rfl
    rw [e2, hperm.sum_eq, e, sum_burst_eq P hb]
    unfold SafeTimes at hs
    have : max (0 : Int) (latestArrival P) = latestArrival P := max_eq_right (by omega)
    omega

theorem fcfs_entered_perm (P : List Process) (hb : ∀ p ∈ P, 0 ≤ p.burst) (hs : SafeTimes P) :
    ((runFCFS P).procs.map Process.entered).Perm (P.map Process.entered) := by
  rw [runFCFS_procs P hb hs, fcfsRule_records_entered, List.map_map]
  have h := (fcfsSorted_perm P).map (fun i => (P.getD i default).entered)
  refine h.trans (List.Perm.of_eq ?_)
  conv_rhs => rw [← map_deref_range P]
  rw [List.map_map]
  rfl

/-- With safe times the timeline of `runFCFS` has no overlap, and no idle time while a process
is ready. -/
theorem fcfs_idle_only (P : List Process) (hpid : (P.map (fun p => p.pid)).Nodup)
    (hb : ∀ p ∈ P, 0 ≤ p.burst) (hs : SafeTimes P) :
    IdleOnlyWhenNothingReady P (runFCFS P).schedule := by
  rw [runFCFS_schedule P hb hs]
  have hperm : ((fcfsSorted P).map (fun i => P.getD i default)).Perm P := by
    have h := (fcfsSorted_perm P).map (fun i => P.getD i default)
    refine h.trans (List.Perm.of_eq ?_)
    exact map_deref_range P
  have hsorted : ((fcfsSorted P).map (fun i => P.getD i default)).Pairwise
      (fun x y => x.arrival ≤ y.arrival) := by
    rw [List.pairwise_map]
    exact sortRefs_sorted (fun i => (P.getD i default).arrival) (List.range P.length)
  have hnd : (((fcfsSorted P).map (fun i => P.getD i default)).map (fun p => p.pid)).Nodup :=
    (hperm.map _).nodup_iff.mpr hpid
  obtain ⟨_, _, _, hg⟩ := fcfsRule_gaps 0 _ hsorted hnd
  intro pre a b post heq
  obtain ⟨g1, g2⟩ := hg pre a b post heq
  refine ⟨g1, fun hlt p hp harr => (g2 hlt).1 p (hperm.mem_iff.mpr hp) harr⟩

/-! ## `runRR`: the order of re-enqueueing and admission -/

theorem rrBody_run_pid (q : Int) (s : RRState) (c : Nat) (rest : List Nat)
    (h : (rrAdmit s.time s.remaining s.queue s.arrived).1 = c :: rest) :
    (rrBody q s).remaining.map (fun j => j.pid) = s.remaining.map (fun j => j.pid) := by
  rw [rrBody_of_cons q s c rest h]
  split
  · simp only
    apply map_mutate_of_fixed
    intro a
    rfl
  · simp only
    apply map_mutate_of_fixed
    intro a
    rfl

/-- C6, counterexample: on `P1(1,5)`, `P2(2,3)` with quantum 2 the first slice of `P1` ends
at time 3 with 3 units of work left (state after two iterations: time 3, queue `[P1]`,
admitted pids `[P1]`); `P2` has arrived by then (2 ≤ 3) and is not admitted yet, but the next
admission puts it behind `P1` (queue `[P1, P2]`), and `P1` runs its next slice `P1@3x2`
before `P2@5x2`. On `P1(0,5)`, `P2(1,3)` the timeline begins `[P1@0x2, P1@2x2, P1@4x1]`, not
`[P1@0x2, P2@2x2, ...]`. -/
theorem runRR_new_arrivals_not_ahead :
    (runRR 16 (some 2) [newProcess "P1" 1 5 1, newProcess "P2" 2 3 1]).map (fun r => r.schedule) =
      some [{ pid := "P1", start := 1, duration := 2 }, { pid := "P1", start := 3, duration := 2 },
        { pid := "P2", start := 5, duration := 2 }, { pid := "P1", start := 7, duration := 1 },
        { pid := "P2", start := 8, duration := 1 }] ∧
    ((rrBody 2)^[2] (rrInit [newProcess "P1" 1 5 1, newProcess "P2" 2 3 1])).time = 3 ∧
    ((rrBody 2)^[2] (rrInit [newProcess "P1" 1 5 1, newProcess "P2" 2 3 1])).queue = [0] ∧
    ((rrBody 2)^[2] (rrInit [newProcess "P1" 1 5 1, newProcess "P2" 2 3 1])).arrived = ["P1"] ∧
    (rrAdmit 3 ((rrBody 2)^[2] (rrInit [newProcess "P1" 1 5 1, newProcess "P2" 2 3 1])).remaining
      [0] ["P1"]).1 = [0, 1] ∧
    (runRR 14 (some 2) [newProcess "P1" 0 5 1, newProcess "P2" 1 3 1]).map
        (fun r => r.schedule.take 3) =
      some [{ pid := "P1", start := 0, duration := 2 }, { pid := "P1", start := 2, duration := 2 },
        { pid := "P1", start := 4, duration := 1 }] := by
  refine ⟨by decide, by decide, by decide, by decide, by decide, by decide⟩

/-- C6, amended: in `runRR`, a process `c` that finishes a slice with work remaining is put
back at the end of the ready queue at once; the processes that have arrived by the end of the
slice and were not admitted before are admitted by the next admission pass, in registry
order, behind `c` (and, the pids being distinct, all of them are). On `P1(1,5)`, `P2(2,3)`
with quantum 2 the timeline is `[P1@1x2, P1@3x2, P2@5x2, P1@7x1, P2@8x1]`. -/
theorem runRR_requeue_then_admit :
    (∀ (q : Int) (s : RRState) (c : Nat) (rest : List Nat),
      (s.remaining.map (fun j => j.pid)).Nodup →
      (rrAdmit s.time s.remaining s.queue s.arrived).1 = c :: rest →
      0 < (deref s.remaining c).remaining - min q (deref s.remaining c).remaining →
      (rrBody q s).queue = rest ++ [c] ∧
      ∃ new : List Nat,
        (rrAdmit (rrBody q s).time (rrBody q s).remaining (rrBody q s).queue
          (rrBody q s).arrived).1 = rest ++ [c] ++ new ∧
        new.Sublist (List.range (rrBody q s).remaining.length) ∧
        (∀ i, i ∈ new ↔ (i < (rrBody q s).remaining.length ∧
          (deref (rrBody q s).remaining i).arrival ≤ (rrBody q s).time ∧
          0 < (deref (rrBody q s).remaining i).remaining ∧
          (deref (rrBody q s).remaining i).pid ∉ (rrBody q s).arrived))) ∧
    (∀ fuel, 16 ≤ fuel →
      (runRR fuel (some 2) [newProcess "P1" 1 5 1, newProcess "P2" 2 3 1]).map
        (fun r => r.schedule) =
      some [{ pid := "P1", start := 1, duration := 2 }, { pid := "P1", start := 3, duration := 2 },
        { pid := "P2", start := 5, duration := 2 }, { pid := "P1", start := 7, duration := 1 },
        { pid := "P2", start := 8, duration := 1 }]) := by
  constructor
  · intro q s c rest hnd hhead hleft
    have hq : (rrBody q s).queue = rest ++ [c] := by
      rw [rrBody_of_cons q s c rest hhead, if_pos ((num_pos_iff _).mpr hleft)]
    have hpids := rrBody_run_pid q s c rest hhead
    generalize rrBody q s = s' at hq hpids
    refine ⟨hq, ?_⟩
    obtain ⟨new, h1, h2, h3, h4⟩ := rrAdmit_spec s'.time s'.remaining s'.queue s'.arrived
    have hnd' : (s'.remaining.map (fun j => j.pid)).Nodup := hpids ▸ hnd
    refine ⟨new, by rw [h1, hq], h2, ?_⟩
    intro i
    constructor
    · intro hi
      exact ⟨List.mem_range.mp (h2.subset hi), h3 i hi⟩
    · rintro ⟨hi, harr, hrem, hpid⟩
      have hmem := h4 i hi harr hrem
      rw [h1] at hmem
      rcases List.mem_append.mp hmem with hmem | hmem
      · exact absurd hmem hpid
      · obtain ⟨j, hj, hjp⟩ := List.mem_map.mp hmem
        have hjlt : j < s'.remaining.length := List.mem_range.mp (h2.subset hj)
        have hji : j = i := by
          have hj' : j < (s'.remaining.map (fun j => j.pid)).length := by simpa using hjlt
          have hi' : i < (s'.remaining.map (fun j => j.pid)).length := by simpa using hi
          have e : (s'.remaining.map (fun j => j.pid))[j] = (s'.remaining.map (fun j => j.pid))[i] := by
            simp only [deref, List.getD_eq_getElem?_getD, List.getElem?_eq_getElem hi,
              List.getElem?_eq_getElem hjlt, Option.getD_some] at hjp
            simpa using hjp
          exact (List.Nodup.getElem_inj_iff hnd').mp e
        exact hji ▸ hj
  · intro fuel hf
    simp only [runRR]
    rw [whileLoop_eq_of_le _ _ 16 fuel _ (by decide) hf]
    decide

/-- Witness for the amended C6: the state of the run on `P1(1,5)`, `P2(2,3)` with quantum 2
after the idle first iteration, where `P1` is admitted and runs its first slice. -/
theorem runRR_requeue_then_admit_witness :
    (rrBody 2 (rrBody 2 (rrInit [newProcess "P1" 1 5 1, newProcess "P2" 2 3 1]))).queue =
        [] ++ [0] ∧
      ∃ new : List Nat,
        (rrAdmit (rrBody 2 (rrBody 2 (rrInit [newProcess "P1" 1 5 1, newProcess "P2" 2 3 1]))).time
          (rrBody 2 (rrBody 2 (rrInit [newProcess "P1" 1 5 1, newProcess "P2" 2 3 1]))).remaining
          (rrBody 2 (rrBody 2 (rrInit [newProcess "P1" 1 5 1, newProcess "P2" 2 3 1]))).queue
          (rrBody 2 (rrBody 2 (rrInit [newProcess "P1" 1 5 1, newProcess "P2" 2 3 1]))).arrived).1 =
            [] ++ [0] ++ new ∧
        new.Sublist (List.range
          (rrBody 2 (rrBody 2 (rrInit [newProcess "P1" 1 5 1, newProcess "P2" 2 3 1]))).remaining.length) ∧
        (∀ i, i ∈ new ↔
          (i < (rrBody 2 (rrBody 2 (rrInit [newProcess "P1" 1 5 1, newProcess "P2" 2 3 1]))).remaining.length ∧
          (deref (rrBody 2 (rrBody 2 (rrInit [newProcess "P1" 1 5 1, newProcess "P2" 2 3 1]))).remaining
            i).arrival ≤
            (rrBody 2 (rrBody 2 (rrInit [newProcess "P1" 1 5 1, newProcess "P2" 2 3 1]))).time ∧
          0 < (deref (rrBody 2 (rrBody 2 (rrInit [newProcess "P1" 1 5 1,
            newProcess "P2" 2 3 1]))).remaining i).remaining ∧
          (deref (rrBody 2 (rrBody 2 (rrInit [newProcess "P1" 1 5 1,
            newProcess "P2" 2 3 1]))).remaining i).pid ∉
            (rrBody 2 (rrBody 2 (rrInit [newProcess "P1" 1 5 1, newProcess "P2" 2 3 1]))).arrived)) :=
  runRR_requeue_then_admit.1 2 (rrBody 2 (rrInit [newProcess "P1" 1 5 1, newProcess "P2" 2 3 1]))
    0 [] (by decide) (by decide) (by decide)

/-! ## Evaluations at failing inputs -/

/-- C7, the code at a failing input: on `P1(0,2)`, `P2(0,3)` `runSRTF` runs `P1` during
`[0,2)` and `P2` during `[2,5)`, but the timeline it returns is `[P1@0x0, P2@2x3]`: the
segment of `P1`, which ends by completion, is never closed (`lastPid` is reset to `null`, so
the next iteration skips the assignment of `lastSeg.duration`), and the durations of the
segments of `P1` add up to 0, not to its burst 2. -/
theorem runSRTF_completed_segment_not_closed :
    (runSRTF 6 [newProcess "P1" 0 2 1, newProcess "P2" 0 3 1]).map
        (fun r => (r.schedule, served r.schedule "P1", r.procs.map (fun j => j.completion))) =
      some ([{ pid := "P1", start := 0, duration := 0 }, { pid := "P2", start := 2, duration := 3 }],
        0, [some 2, some 5]) := by
  decide

/-- C9, the code at a failing input: on `P1(0,5)`, `P2(1,3)` with quantum 2, `P1` is queued
twice (by the initial enqueue and again by the first admission pass, since the initial
enqueue does not add it to `arrived`); its remaining work reaches 0 in the segment `P1@4x1`,
which ends at 5, but the stale queue entry later yields the empty slice `P1@7x0`, which
records the completion a second time, as 7. -/
theorem runRR_completion_recorded_twice :
    (runRR 14 (some 2) [newProcess "P1" 0 5 1, newProcess "P2" 1 3 1]).map
        (fun r => (r.schedule, r.procs.map (fun j => j.completion))) =
      some ([{ pid := "P1", start := 0, duration := 2 }, { pid := "P1", start := 2, duration := 2 },
          { pid := "P1", start := 4, duration := 1 }, { pid := "P2", start := 5, duration := 2 },
          { pid := "P1", start := 7, duration := 0 }, { pid := "P2", start := 7, duration := 1 }],
        [some 7, some 8]) ∧
    (rrInit [newProcess "P1" 0 5 1, newProcess "P2" 1 3 1]).queue = [0] ∧
    (rrAdmit 0 (rrInit [newProcess "P1" 0 5 1, newProcess "P2" 1 3 1]).remaining [0] []).1 =
      [0, 0] := by
  refine ⟨by decide, by decide, by decide⟩

/-- C10, the code at failing inputs: neither `runSRTF` nor `runRR` assigns `response`, so
`calculateMetrics` sets it to the waiting time. On `P1(0,5)`, `P2(1,1)` under `runSRTF` the
first segment of `P1` starts at 0, its arrival, yet its response is 1; on `P1(1,5)`, `P2(2,3)`
under `runRR` with quantum 2 the first segment of `P1` starts at 1, its arrival, yet its
response is 2. -/
theorem response_is_waiting_when_preempted :
    ((runSRTF 7 [newProcess "P1" 0 5 1, newProcess "P2" 1 1 1]).map
        (fun r => r.schedule.map (fun seg => seg.start)) = some [0, 1, 2] ∧
      (runSRTF 7 [newProcess "P1" 0 5 1, newProcess "P2" 1 1 1]).map
        (fun r => r.schedule.map (fun seg => seg.pid)) = some ["P1", "P2", "P1"] ∧
      (runSRTF 7 [newProcess "P1" 0 5 1, newProcess "P2" 1 1 1]).map
        (fun r => r.procs.map (fun j => j.arrival)) = some [0, 1] ∧
      (runSRTF 7 [newProcess "P1" 0 5 1, newProcess "P2" 1 1 1]).map
        (fun r => r.procs.map (fun j => j.waiting)) = some [some 1, some 0] ∧
      (runSRTF 7 [newProcess "P1" 0 5 1, newProcess "P2" 1 1 1]).map
        (fun r => r.procs.map (fun j => j.response)) = some [some 1, some 0]) ∧
    ((runRR 16 (some 2) [newProcess "P1" 1 5 1, newProcess "P2" 2 3 1]).map
        (fun r => r.schedule.map (fun seg => seg.start)) = some [1, 3, 5, 7, 8] ∧
      (runRR 16 (some 2) [newProcess "P1" 1 5 1, newProcess "P2" 2 3 1]).map
        (fun r => r.schedule.map (fun seg => seg.pid)) = some ["P1", "P1", "P2", "P1", "P2"] ∧
      (runRR 16 (some 2) [newProcess "P1" 1 5 1, newProcess "P2" 2 3 1]).map
        (fun r => r.procs.map (fun j => j.arrival)) = some [1, 2] ∧
      (runRR 16 (some 2) [newProcess "P1" 1 5 1, newProcess "P2" 2 3 1]).map
        (fun r => r.procs.map (fun j => j.waiting)) = some [some 2, some 4] ∧
      (runRR 16 (some 2) [newProcess "P1" 1 5 1, newProcess "P2" 2 3 1]).map
        (fun r => r.procs.map (fun j => j.response)) = some [some 2, some 4]) := by
  refine ⟨⟨by decide, by decide, by decide, by decide, by decide⟩,
    ⟨by decide, by decide, by decide, by decide, by decide⟩⟩

/-! ## The results table -/

/-- C12, the code at a failing input: a click on `sjf`, `srtf`, `priority` or `rr` with
the registry `P1(0,5)` computes completion 5, turnaround 5, waiting 0 and response 0 on the
working copy `{...p, remaining: p.burst}`, but the object of the global array, from which
`showResult` builds the results table, keeps the four fields undefined (they were deleted by
the handler and the copy is never written back). A click on `fcfs`, which works on the
objects of the global array, populates them. -/
theorem results_table_reads_unpopulated_registry :
    ((clickAlgo 2 Algo.sjf none [newProcess "P1" 0 5 1]).result.map computedRows =
        some [TableRow.mk "P1" (some 5) (some 5) (some 0) (some 0)] ∧
      (clickAlgo 2 Algo.sjf none [newProcess "P1" 0 5 1]).result.map resultRows =
        some [TableRow.mk "P1" none none none none]) ∧
    ((clickAlgo 6 Algo.srtf none [newProcess "P1" 0 5 1]).result.map computedRows =
        some [TableRow.mk "P1" (some 5) (some 5) (some 0) (some 0)] ∧
      (clickAlgo 6 Algo.srtf none [newProcess "P1" 0 5 1]).result.map resultRows =
        some [TableRow.mk "P1" none none none none]) ∧
    ((clickAlgo 2 Algo.priority none [newProcess "P1" 0 5 1]).result.map computedRows =
        some [TableRow.mk "P1" (some 5) (some 5) (some 0) (some 0)] ∧
      (clickAlgo 2 Algo.priority none [newProcess "P1" 0 5 1]).result.map resultRows =
        some [TableRow.mk "P1" none none none none]) ∧
    ((clickAlgo 8 Algo.rr (some 5) [newProcess "P1" 0 5 1]).result.map computedRows =
        some [TableRow.mk "P1" (some 5) (some 5) (some 0) (some 0)] ∧
      (clickAlgo 8 Algo.rr (some 5) [newProcess "P1" 0 5 1]).result.map resultRows =
        some [TableRow.mk "P1" none none none none]) ∧
    ((clickAlgo 0 Algo.fcfs none [newProcess "P1" 0 5 1]).result.map computedRows =
        some [TableRow.mk "P1" (some 5) (some 5) (some 0) (some 0)] ∧
      (clickAlgo 0 Algo.fcfs none [newProcess "P1" 0 5 1]).result.map resultRows =
        some [TableRow.mk "P1" (some 5) (some 5) (some 0) (some 0)]) := by
  refine ⟨⟨by decide, by decide⟩, ⟨by decide, by decide⟩, ⟨by decide, by decide⟩,
    ⟨by decide, by decide⟩, ⟨by decide, by decide⟩⟩

/-! ## Segments of duration 0 -/

/-- C13, the code at failing inputs: on `P1(0,2)`, `P2(0,3)` the timeline of `runSRTF` has
the durations `[0, 3]` (the segment of `P1`, which ends by completion, is never closed); on
`P1(0,5)`, `P2(1,3)` with quantum 2 the timeline of `runRR` has the durations
`[2, 2, 1, 2, 0, 1]` (the stale second queue entry of `P1` runs an empty slice). -/
theorem timeline_has_zero_duration_segment :
    (runSRTF 6 [newProcess "P1" 0 2 1, newProcess "P2" 0 3 1]).map
        (fun r => r.schedule.map (fun seg => seg.duration)) = some [0, 3] ∧
    (runRR 14 (some 2) [newProcess "P1" 0 5 1, newProcess "P2" 1 3 1]).map
        (fun r => r.schedule.map (fun seg => seg.duration)) = some [2, 2, 1, 2, 0, 1] := by
  refine ⟨by decide, by decide⟩

/-! ## Adding a process -/

/-- C17, the code at a failing input: a click on `addProcess` with `0` in the burst field
does not fail; `parseInt("0") || 1` is `1`, so the guard `burst <= 0` is passed and a process
of burst 1 is appended to the registry. (A negative burst is refused with the alert and a
positive one is kept, with the default label when the pid field is blank.) -/
theorem addProcess_zero_burst_accepted :
    (∀ (processes : List Process) (pidField : String) (arrivalField priorityField : Option Int),
      addProcess processes pidField arrivalField (some 0) priorityField =
        Except.ok (processes ++ [newProcess (if pidField = "" then defaultPid processes else pidField)
          (parseOr arrivalField 0) 1 (parseOr priorityField 1)])) ∧
    ((addProcess [] "" (some 0) (some 0) (some 1)).toOption.map
        (fun reg => reg.map (fun p => (p.pid, p.burst))) = some [("P1", 1)]) ∧
    ((addProcess [] "" (some 0) (some (-3)) (some 1)).toOption.map
        (fun reg => reg.map (fun p => (p.pid, p.burst))) = none) ∧
    ((addProcess [] "" (some 0) (some 7) (some 1)).toOption.map
        (fun reg => reg.map (fun p => (p.pid, p.burst))) = some [("P1", 7)]) := by
  refine ⟨?_, by decide, by decide, by decide⟩
  intro processes pidField a p
  simp [addProcess, parseOr]

/-! ## The ids of the registry -/

/-- C20, counterexample: two adds with the explicit id `A` leave the ids `[A, A]`; two adds
with a blank id, the removal of the first row and a third add with a blank id leave the ids
`[P2, P2]`. -/
theorem registry_ids_can_repeat :
    (registryAfter [RegistryOp.add "A" (some 0) (some 3) (some 1),
      RegistryOp.add "A" (some 1) (some 2) (some 1)]).map (fun p => p.pid) = ["A", "A"] ∧
    (registryAfter [RegistryOp.add "" (some 0) (some 3) (some 1),
      RegistryOp.add "" (some 1) (some 2) (some 1), RegistryOp.delete 0,
      RegistryOp.add "" (some 2) (some 4) (some 1)]).map (fun p => p.pid) = ["P2", "P2"] := by
  refine ⟨by decide, by decide⟩

/-- C20, amended: a removal keeps the ids of the registry pairwise distinct; an add keeps
them pairwise distinct when the id it uses (the explicit one, or the default label when the
field is blank) is not yet in the registry; and starting from the empty registry, after any
sequence of add operations that all leave the id blank, with no removal, the ids are the
labels `P1`, ..., `Pn` in order, which are pairwise distinct. The handlers do not compare
ids. -/
theorem registry_ids_distinct_when_fresh :
    (∀ (processes : List Process) (idx : Nat), (processes.map (fun p => p.pid)).Nodup →
      ((deleteProcess processes idx).map (fun p => p.pid)).Nodup) ∧
    (∀ (processes processes' : List Process) (pidField : String) (a b p : Option Int),
      (processes.map (fun p => p.pid)).Nodup →
      addProcess processes pidField a b p = Except.ok processes' →
      (if pidField = "" then defaultPid processes else pidField) ∉
        processes.map (fun p => p.pid) →
      (processes'.map (fun p => p.pid)).Nodup) ∧
    (∀ ops : List RegistryOp, (∀ op ∈ ops, ∃ a b p, op = RegistryOp.add "" a b p) →
      (registryAfter ops).map (fun p => p.pid) =
          (List.range (registryAfter ops).length).map labelOf ∧
        ((registryAfter ops).map (fun p => p.pid)).Nodup) := by
  refine ⟨?_, ?_, ?_⟩
  · intro processes idx h
    exact h.sublist ((List.eraseIdx_sublist processes idx).map _)
  · intro processes processes' pidField a b p hnd hadd hfresh
    rw [addProcess_ok processes pidField a b p processes' hadd]
    simp only [List.map_append, List.map_cons, List.map_nil]
    refine List.nodup_append.mpr ⟨hnd, List.nodup_singleton _, ?_⟩
    intro x hx hx'
    rw [List.mem_singleton] at hx'
    subst hx'
    exact hfresh hx
  · intro ops hops
    have h := blank_adds_labels ops hops [] (by simp)
    refine ⟨h, ?_⟩
    have h' : (registryAfter ops).map (fun p => p.pid) =
        (List.range (registryAfter ops).length).map labelOf := h
    rw [h']
    exact (List.nodup_range _).map (fun a b e => labelOf_injective a b e)

/-- Witness for the amended C20: three adds with a blank id, the second refused for its
negative burst. -/
theorem registry_ids_distinct_when_fresh_witness :
    (registryAfter [RegistryOp.add "" (some 0) (some 3) (some 1),
        RegistryOp.add "" (some 1) (some (-2)) (some 1),
        RegistryOp.add "" (some 2) (some 4) (some 1)]).map (fun p => p.pid) =
      (List.range (registryAfter [RegistryOp.add "" (some 0) (some 3) (some 1),
        RegistryOp.add "" (some 1) (some (-2)) (some 1),
        RegistryOp.add "" (some 2) (some 4) (some 1)]).length).map labelOf ∧
    ((registryAfter [RegistryOp.add "" (some 0) (some 3) (some 1),
        RegistryOp.add "" (some 1) (some (-2)) (some 1),
        RegistryOp.add "" (some 2) (some 4) (some 1)]).map (fun p => p.pid)).Nodup :=
  registry_ids_distinct_when_fresh.2.2
    [RegistryOp.add "" (some 0) (some 3) (some 1), RegistryOp.add "" (some 1) (some (-2)) (some 1),
      RegistryOp.add "" (some 2) (some 4) (some 1)]
    (by
      intro op hop
      simp only [List.mem_cons, List.mem_singleton, List.not_mem_nil, or_false] at hop
      rcases hop with rfl | rfl | rfl
      · exact ⟨_, _, _, rfl⟩
      · exact ⟨_, _, _, rfl⟩
      · exact ⟨_, _, _, rfl⟩)

/-! ## `runSRTF`: one iteration -/

theorem srtfBody_time_num (s : SRTFState) : (srtfBody s).time = num (s.time + 1) := by
  cases h : srtfCandidates s with
  | nil => rw [srtfBody_of_nil s h]
  | cons c rest =>
    rw [srtfBody_of_cons s c rest h]
    split <;> rfl

theorem srtfBody_remaining_length (s : SRTFState) :
    (srtfBody s).remaining.length = s.remaining.length := by
  cases h : srtfCandidates s with
  | nil => rw [srtfBody_of_nil s h]
  | cons c rest =>
    rw [srtfBody_of_cons s c rest h]
    split <;> simp [length_mutate]

/-- Up to `2 ^ 53` iterations, the clock of `runSRTF` counts the iterations. -/
theorem srtf_time_of_le (P : List Process) (t : Nat) (ht : t ≤ maxSafe) :
    (srtfBody^[t] (srtfInit P)).time = t := by
  induction t with
  | zero => rfl
  | succ k ih =>
    rw [Function.iterate_succ_apply', srtfBody_time_num, ih (by omega),
      num_of_nonneg_le _ (by omega) (by omega)]
    push_cast
    rfl

theorem srtfBody_decrement (s : SRTFState) (c : Nat) (rest : List Nat)
    (h : srtfCandidates s = c :: rest) :
    (deref (srtfBody s).remaining c).remaining = num ((deref s.remaining c).remaining - 1) ∧
      ∀ j, j ≠ c → deref (srtfBody s).remaining j = deref s.remaining j := by
  have hc : c ∈ srtfCandidates s := by rw [h]; simp
  obtain ⟨hc1, _, _⟩ := (srtfCandidates_mem s c).mp hc
  rw [srtfBody_of_cons s c rest h]
  constructor
  · split <;> simp only [deref_mutate_self _ _ _ hc1]
  · intro j hj
    split <;> simp only [deref_mutate_ne _ _ _ _ (Ne.symm hj)]

theorem num_sub_one_of_pos_le (x : Int) (h0 : 0 < x) (h1 : x ≤ (maxSafe : Int)) :
    num (x - 1) = x - 1 :=
  num_of_nonneg_le _ (by omega) (by omega)

/-! ## Ties in `runSRTF` -/

/-- C18, counterexample: with the registry `P1(arrival 1, burst 1)`, `P2(arrival 0, burst 2)`,
`P2` runs during `[0,1)`; at time 1 both processes have 1 unit remaining, and `runSRTF`
executes `P1` (the sorted candidates are `[P1, P2]`), which arrived later than the running
`P2`: the starts of the timeline are `P2@0, P1@1, P2@2`. -/
theorem runSRTF_tie_preempts_earlier_arrival :
    (srtfBody (srtfInit [newProcess "P1" 1 1 1, newProcess "P2" 0 2 1])).time = 1 ∧
    (srtfBody (srtfInit [newProcess "P1" 1 1 1, newProcess "P2" 0 2 1])).remaining.map
      (fun j => (j.pid, j.arrival, j.remaining)) = [("P1", 1, 1), ("P2", 0, 1)] ∧
    (srtfBody (srtfInit [newProcess "P1" 1 1 1, newProcess "P2" 0 2 1])).lastPid = some "P2" ∧
    srtfCandidates (srtfBody (srtfInit [newProcess "P1" 1 1 1, newProcess "P2" 0 2 1])) = [0, 1] ∧
    (runSRTF 5 [newProcess "P1" 1 1 1, newProcess "P2" 0 2 1]).map
      (fun r => r.schedule.map (fun seg => (seg.pid, seg.start))) =
      some [("P2", 0), ("P1", 1), ("P2", 2)] := by
  refine ⟨by decide, by decide, by decide, by decide, by decide⟩

/-- C18, amended: in `runSRTF`, at every iteration `t` of a run in which a process is
executed, the process that is executed is the first of the sorted candidates: its remaining
time is decremented (by exactly one as long as it is a safe integer), and among the arrived
unfinished processes that share the minimum remaining time it is the one registered first
(lowest position in the registry), whatever the arrival times; a running process can
therefore be preempted by a process registered before it whose remaining time equals its own.
The current time is the number `t` of the iteration as long as `t` is at most `2 ^ 53`. -/
theorem runSRTF_tie_registry_order (P : List Process) (t c : Nat) (rest : List Nat)
    (h : srtfCandidates (srtfBody^[t] (srtfInit P)) = c :: rest) :
    (deref (srtfBody^[t + 1] (srtfInit P)).remaining c).remaining =
        num ((deref (srtfBody^[t] (srtfInit P)).remaining c).remaining - 1) ∧
      ((deref (srtfBody^[t] (srtfInit P)).remaining c).remaining ≤ (maxSafe : Int) →
        (deref (srtfBody^[t + 1] (srtfInit P)).remaining c).remaining =
          (deref (srtfBody^[t] (srtfInit P)).remaining c).remaining - 1) ∧
      (t ≤ maxSafe → (srtfBody^[t] (srtfInit P)).time = t) ∧
      ∀ j, j < (srtfBody^[t] (srtfInit P)).remaining.length →
        (deref (srtfBody^[t] (srtfInit P)).remaining j).arrival ≤
          (srtfBody^[t] (srtfInit P)).time →
        0 < (deref (srtfBody^[t] (srtfInit P)).remaining j).remaining →
        ((deref (srtfBody^[t] (srtfInit P)).remaining c).remaining ≤
            (deref (srtfBody^[t] (srtfInit P)).remaining j).remaining ∧
          ((deref (srtfBody^[t] (srtfInit P)).remaining j).remaining =
              (deref (srtfBody^[t] (srtfInit P)).remaining c).remaining → c ≤ j)) := by
  have htime := srtf_time_of_le P t
  rw [Function.iterate_succ_apply']
  generalize srtfBody^[t] (srtfInit P) = s at htime h ⊢
  have hc : c ∈ srtfCandidates s := by rw [h]; simp
  obtain ⟨hc1, _, hc3⟩ := (srtfCandidates_mem s c).mp hc
  have hord := srtfCandidates_ordered s
  rw [h, List.pairwise_cons] at hord
  have hdec := (srtfBody_decrement s c rest h).1
  refine ⟨hdec, ?_, htime, ?_⟩
  · intro hle
    rw [hdec, num_sub_one_of_pos_le _ hc3 hle]
  · intro j hj harr hrem
    have hjm : j ∈ srtfCandidates s := (srtfCandidates_mem s j).mpr ⟨hj, harr, hrem⟩
    rw [h] at hjm
    rcases List.mem_cons.mp hjm with rfl | hjr
    · exact ⟨le_refl _, fun _ => le_refl _⟩
    · rcases hord.1 j hjr with hlt | ⟨heq, hlt⟩
      · exact ⟨le_of_lt hlt, fun e => by omega⟩
      · exact ⟨le_of_eq heq, fun _ => le_of_lt hlt⟩

/-- Witness for the amended C18: the registry `P1(1,1)`, `P2(0,2)` at iteration 1. -/
theorem runSRTF_tie_registry_order_witness :
    (deref (srtfBody^[1 + 1] (srtfInit [newProcess "P1" 1 1 1, newProcess "P2" 0 2 1])).remaining
          0).remaining =
        num ((deref (srtfBody^[1] (srtfInit [newProcess "P1" 1 1 1,
          newProcess "P2" 0 2 1])).remaining 0).remaining - 1) ∧
      ((deref (srtfBody^[1] (srtfInit [newProcess "P1" 1 1 1, newProcess "P2" 0 2 1])).remaining
            0).remaining ≤ (maxSafe : Int) →
        (deref (srtfBody^[1 + 1] (srtfInit [newProcess "P1" 1 1 1,
            newProcess "P2" 0 2 1])).remaining 0).remaining =
          (deref (srtfBody^[1] (srtfInit [newProcess "P1" 1 1 1,
            newProcess "P2" 0 2 1])).remaining 0).remaining - 1) ∧
      (1 ≤ maxSafe →
        (srtfBody^[1] (srtfInit [newProcess "P1" 1 1 1, newProcess "P2" 0 2 1])).time =
          (1 : Nat)) ∧
      ∀ j, j < (srtfBody^[1] (srtfInit [newProcess "P1" 1 1 1,
          newProcess "P2" 0 2 1])).remaining.length →
        (deref (srtfBody^[1] (srtfInit [newProcess "P1" 1 1 1, newProcess "P2" 0 2 1])).remaining
          j).arrival ≤
          (srtfBody^[1] (srtfInit [newProcess "P1" 1 1 1, newProcess "P2" 0 2 1])).time →
        0 < (deref (srtfBody^[1] (srtfInit [newProcess "P1" 1 1 1,
          newProcess "P2" 0 2 1])).remaining j).remaining →
        ((deref (srtfBody^[1] (srtfInit [newProcess "P1" 1 1 1, newProcess "P2" 0 2 1])).remaining
            0).remaining ≤
            (deref (srtfBody^[1] (srtfInit [newProcess "P1" 1 1 1,
              newProcess "P2" 0 2 1])).remaining j).remaining ∧
          ((deref (srtfBody^[1] (srtfInit [newProcess "P1" 1 1 1,
              newProcess "P2" 0 2 1])).remaining j).remaining =
              (deref (srtfBody^[1] (srtfInit [newProcess "P1" 1 1 1,
                newProcess "P2" 0 2 1])).remaining 0).remaining → 0 ≤ j)) :=
  runSRTF_tie_registry_order [newProcess "P1" 1 1 1, newProcess "P2" 0 2 1] 1 0 [1] (by decide)

/-! ## `runFCFS`: the contract -/

/-- C1, counterexample: on `P1(arrival 2^53, burst 1)`, `P2(2^53, 1)` the segment of `P1`
starts at `2^53` and has duration 1, but the completion that `runFCFS` records for `P1` is
`2^53` (in Number arithmetic `2^53 + 1` is `2^53`), not start + burst, the cursor stays at
`2^53`, and `P2` starts at `2^53` and completes at `2^53` as well. -/
theorem runFCFS_completion_rounded :
    (runFCFS [newProcess "P1" 9007199254740992 1 1, newProcess "P2" 9007199254740992 1 1]).schedule =
      [{ pid := "P1", start := 9007199254740992, duration := 1 },
        { pid := "P2", start := 9007199254740992, duration := 1 }] ∧
    (runFCFS [newProcess "P1" 9007199254740992 1 1,
        newProcess "P2" 9007199254740992 1 1]).procs.map (fun p => p.completion) =
      [some 9007199254740992, some 9007199254740992] ∧
    (runFCFS [newProcess "P1" 9007199254740992 1 1,
        newProcess "P2" 9007199254740992 1 1]).schedule.map
        (fun seg => some (seg.start + seg.duration)) =
      [some 9007199254740993, some 9007199254740993] := by
  refine ⟨by decide, by decide, by decide⟩

/-- C1, amended: on a registry with positive bursts whose times are safe integers
(`SafeTimes`: the latest arrival plus the total burst, plus the distance of the earliest arrival
below 0 if it is negative, is at most `2^53`), `runFCFS` emits one segment per process, in
ascending arrival order with equal arrivals in registry order (`fcfsSorted` is a permutation
of the registry positions, ordered by arrival and then by position); the timeline
follows the cursor rule from cursor 0 (start `max cursor arrival`, duration `burst`, cursor
moved to the end of the segment) and every process's completion is the end of its segment.
On `P1(0,5)`, `P2(1,3)`, `P3(2,1)` the timeline is `[P1@0x5, P2@5x3, P3@8x1]`, the
completions are 5, 8, 9 and the average waiting time is `(0+4+6)/3`. -/
theorem runFCFS_contract_safe :
    (∀ processes : List Process, (∀ p ∈ processes, 0 < p.burst) → SafeTimes processes →
      (fcfsSorted processes).Perm (List.range processes.length) ∧
      (fcfsSorted processes).Pairwise (fun i j =>
        (processes.getD i default).arrival < (processes.getD j default).arrival ∨
          ((processes.getD i default).arrival = (processes.getD j default).arrival ∧ i < j)) ∧
      (runFCFS processes).schedule.length = processes.length ∧
      (runFCFS processes).schedule =
        fcfsRule 0 ((fcfsSorted processes).map (fun i => processes.getD i default)) ∧
      (runFCFS processes).procs.map (fun p => p.pid) =
        (fcfsSorted processes).map (fun i => (processes.getD i default).pid) ∧
      (runFCFS processes).procs.map (fun p => p.completion) =
        (runFCFS processes).schedule.map (fun seg => some (seg.start + seg.duration))) ∧
    (runFCFS [newProcess "P1" 0 5 1, newProcess "P2" 1 3 1, newProcess "P3" 2 1 1]).schedule =
      [{ pid := "P1", start := 0, duration := 5 }, { pid := "P2", start := 5, duration := 3 },
        { pid := "P3", start := 8, duration := 1 }] ∧
    (runFCFS [newProcess "P1" 0 5 1, newProcess "P2" 1 3 1, newProcess "P3" 2 1 1]).procs.map
      (fun p => p.completion) = [some 5, some 8, some 9] ∧
    (runFCFS [newProcess "P1" 0 5 1, newProcess "P2" 1 3 1, newProcess "P3" 2 1 1]).procs.map
      (fun p => p.waiting) = [some 0, some 4, some 6] ∧
    (runFCFS [newProcess "P1" 0 5 1, newProcess "P2" 1 3 1, newProcess "P3" 2 1 1]).avgWT =
      some ((0 + 4 + 6) / 3) := by
  refine ⟨fun processes hb hs => ?_, by decide, by decide, by decide, ?_⟩
  · have hb' : ∀ p ∈ processes, 0 ≤ p.burst := fun p hp => le_of_lt (hb p hp)
    refine ⟨fcfsSorted_perm processes, ?_, ?_, runFCFS_schedule processes hb' hs, ?_, ?_⟩
    · exact sortRefs_pairwise _ _ (List.pairwise_lt_range _)
    · rw [runFCFS_schedule processes hb' hs]
      have hlen : ∀ (ps : List Process) (c : Int), (fcfsRule c ps).length = ps.length := by
        intro ps
        induction ps with
        | nil => intro c; rfl
        | cons p ps ih => intro c; simp [fcfsRule, ih]
      rw [hlen, List.length_map, (fcfsSorted_perm processes).length_eq, List.length_range]
    · rw [runFCFS_procs processes hb' hs, fcfsRule_records_pid, List.map_map]
      rfl
    · rw [runFCFS_procs processes hb' hs, fcfsRule_records_completion,
        runFCFS_schedule processes hb' hs]
  · have h : sumNum ((runFCFS [newProcess "P1" 0 5 1, newProcess "P2" 1 3 1,
        newProcess "P3" 2 1 1]).procs.map (fun p => p.waiting.getD 0)) = 10 := by decide
    have hl : (runFCFS [newProcess "P1" 0 5 1, newProcess "P2" 1 3 1, newProcess "P3" 2 1 1]).procs.length
        = 3 := by decide
    have : (runFCFS [newProcess "P1" 0 5 1, newProcess "P2" 1 3 1, newProcess "P3" 2 1 1]).avgWT =
        average (some (sumNum ((runFCFS [newProcess "P1" 0 5 1, newProcess "P2" 1 3 1,
          newProcess "P3" 2 1 1]).procs.map (fun p => p.waiting.getD 0))))
          (runFCFS [newProcess "P1" 0 5 1, newProcess "P2" 1 3 1, newProcess "P3" 2 1 1]).procs.length :=
      rfl
    rw [this, h, hl]
    norm_num [average]

/-- Witness for the amended C1 on `P1(0,5)`, `P2(1,3)`, `P3(2,1)`. -/
theorem runFCFS_contract_safe_witness :
    (fcfsSorted [newProcess "P1" 0 5 1, newProcess "P2" 1 3 1, newProcess "P3" 2 1 1]).Perm
        (List.range [newProcess "P1" 0 5 1, newProcess "P2" 1 3 1, newProcess "P3" 2 1 1].length) ∧
      (fcfsSorted [newProcess "P1" 0 5 1, newProcess "P2" 1 3 1, newProcess "P3" 2 1 1]).Pairwise
        (fun i j =>
          ([newProcess "P1" 0 5 1, newProcess "P2" 1 3 1, newProcess "P3" 2 1 1].getD i
              default).arrival <
            ([newProcess "P1" 0 5 1, newProcess "P2" 1 3 1, newProcess "P3" 2 1 1].getD j
              default).arrival ∨
          (([newProcess "P1" 0 5 1, newProcess "P2" 1 3 1, newProcess "P3" 2 1 1].getD i
              default).arrival =
            ([newProcess "P1" 0 5 1, newProcess "P2" 1 3 1, newProcess "P3" 2 1 1].getD j
              default).arrival ∧ i < j)) ∧
      (runFCFS [newProcess "P1" 0 5 1, newProcess "P2" 1 3 1,
        newProcess "P3" 2 1 1]).schedule.length =
        [newProcess "P1" 0 5 1, newProcess "P2" 1 3 1, newProcess "P3" 2 1 1].length ∧
      (runFCFS [newProcess "P1" 0 5 1, newProcess "P2" 1 3 1, newProcess "P3" 2 1 1]).schedule =
        fcfsRule 0
          ((fcfsSorted [newProcess "P1" 0 5 1, newProcess "P2" 1 3 1, newProcess "P3" 2 1 1]).map
            (fun i => [newProcess "P1" 0 5 1, newProcess "P2" 1 3 1,
              newProcess "P3" 2 1 1].getD i default)) ∧
      (runFCFS [newProcess "P1" 0 5 1, newProcess "P2" 1 3 1, newProcess "P3" 2 1 1]).procs.map
          (fun p => p.pid) =
        (fcfsSorted [newProcess "P1" 0 5 1, newProcess "P2" 1 3 1, newProcess "P3" 2 1 1]).map
          (fun i => ([newProcess "P1" 0 5 1, newProcess "P2" 1 3 1,
            newProcess "P3" 2 1 1].getD i default).pid) ∧
      (runFCFS [newProcess "P1" 0 5 1, newProcess "P2" 1 3 1, newProcess "P3" 2 1 1]).procs.map
          (fun p => p.completion) =
        (runFCFS [newProcess "P1" 0 5 1, newProcess "P2" 1 3 1,
          newProcess "P3" 2 1 1]).schedule.map (fun seg => some (seg.start + seg.duration)) :=
  runFCFS_contract_safe.1 [newProcess "P1" 0 5 1, newProcess "P2" 1 3 1, newProcess "P3" 2 1 1]
    (by decide) (by decide)

/-! ## Metrics -/

/-- C2, counterexample: on the single process `P1(arrival 2^53, burst 1)` `runFCFS` records
the completion `2^53` (in Number arithmetic `2^53 + 1` is `2^53`), which is less than arrival
plus burst, the turnaround 0 and the waiting time -1: the relations of the claim fail for the
record. -/
theorem runFCFS_negative_waiting :
    (runFCFS [newProcess "P1" 9007199254740992 1 1]).procs.map TableRow.ofProcess =
      [TableRow.mk "P1" (some 9007199254740992) (some 0) (some (-1)) (some (-1))] ∧
    ∃ p ∈ (runFCFS [newProcess "P1" 9007199254740992 1 1]).procs, ¬ MetricsSound p := by
  have hprocs : (runFCFS [newProcess "P1" 9007199254740992 1 1]).procs =
      [{ newProcess "P1" 9007199254740992 1 1 with
          completion := some 9007199254740992, turnaround := some 0, waiting := some (-1),
          response := some (-1) }] := by decide
  refine ⟨by decide, _, by rw [hprocs]; exact List.mem_singleton_self _, ?_⟩
  rintro ⟨c, t, w, _, _, hw, _, h0, _⟩
  have : w = -1 := by
    have e : some (-1 : Int) = some w := hw
    simpa using e.symm
  omega

/-- C2, amended: on a registry with pairwise distinct pids whose processes have a positive
burst (and `originalBurst` equal to `burst`, as line 49 sets it) and whose times are safe
integers (`SafeTimes`), each of `runFCFS`, `runSJF`, `runSRTF`, `runPriority` and `runRR` with
a positive quantum returns, passes one record per process to `calculateMetrics`, and every
such record ends with completion at least arrival plus burst, waiting time at least 0 and
turnaround equal to waiting plus burst. -/
theorem metrics_sound_safe (P : List Process) (hpid : (P.map (fun p => p.pid)).Nodup)
    (hok : ∀ p ∈ P, 0 < p.burst ∧ p.originalBurst = p.burst) (hs : SafeTimes P) :
    ((runFCFS P).procs.length = P.length ∧ ∀ p ∈ (runFCFS P).procs, MetricsSound p) ∧
    (∃ r, (∀ fuel, npFuel P ≤ fuel → runSJF fuel P = some r) ∧
      r.procs.length = P.length ∧ ∀ j ∈ r.procs, MetricsSound j.toProcess) ∧
    (∃ r, (∀ fuel, srtfFuel P ≤ fuel → runSRTF fuel P = some r) ∧
      r.procs.length = P.length ∧ ∀ j ∈ r.procs, MetricsSound j.toProcess) ∧
    (∃ r, (∀ fuel, npFuel P ≤ fuel → runPriority fuel P = some r) ∧
      r.procs.length = P.length ∧ ∀ j ∈ r.procs, MetricsSound j.toProcess) ∧
    (∀ q : Int, 0 < q → ∃ r, (∀ fuel, rrFuel P ≤ fuel → runRR fuel (some q) P = some r) ∧
      r.procs.length = P.length ∧ ∀ j ∈ r.procs, MetricsSound j.toProcess) := by
  have hb : ∀ p ∈ P, 0 < p.burst := fun p hp => (hok p hp).1
  have horig : ∀ p ∈ P, p.originalBurst = p.burst := fun p hp => (hok p hp).2
  refine ⟨⟨runFCFS_procs_length P, ?_⟩, ?_, ?_, ?_, ?_⟩
  · have hb0 : ∀ p ∈ P, 0 ≤ p.burst := fun p hp => le_of_lt (hb p hp)
    obtain ⟨hbd, hsum⟩ := fcfsSorted_bounds P hb0 hs
    rw [runFCFS_procs P hb0 hs]
    apply fcfsRule_records_sound _ (earliestArrival P) (latestArrival P) _ 0 hsum
    intro p hp
    obtain ⟨hmem, h1, h2, h3⟩ := hbd p hp
    exact ⟨horig p hmem, h1, h2, h3⟩
  · obtain ⟨r, h1, h2, h3, _⟩ := np_contract P (fun j => j.remaining) (fun p => p.burst)
      (fun _ => rfl) (fun _ _ h _ => h) hpid hb hs
    refine ⟨r, h1, ?_, ?_⟩
    · have := h2.length_eq
      simpa using this
    · intro j hj
      obtain ⟨p, hp, c, rfl, hle, hcs⟩ := h3 j hj
      exact metricsSound_job p c 0 (horig p hp) (le_of_lt (hb p hp)) hle hcs
  · obtain ⟨r, h1, h2, h3⟩ := srtf_records P hb hs
    refine ⟨r, h1, h2, ?_⟩
    intro j hj
    obtain ⟨i, hi, rfl⟩ := exists_deref_of_mem r.procs j hj
    rw [h2] at hi
    obtain ⟨c, hc, hle, hcs⟩ := h3 i hi
    rw [hc]
    exact metricsSound_job _ c 0 (horig _ (deref_mem P i hi))
      (le_of_lt (hb _ (deref_mem P i hi))) hle hcs
  · obtain ⟨r, h1, h2, h3, _⟩ := np_contract P (fun j => j.priority) (fun p => p.priority)
      (fun _ => rfl) (fun _ _ _ h => h) hpid hb hs
    refine ⟨r, h1, ?_, ?_⟩
    · have := h2.length_eq
      simpa using this
    · intro j hj
      obtain ⟨p, hp, c, rfl, hle, hcs⟩ := h3 j hj
      exact metricsSound_job p c 0 (horig p hp) (le_of_lt (hb p hp)) hle hcs
  · intro q hq
    obtain ⟨r, h1, h2, h3, _⟩ := rr_records P q hq hpid hb hs
    refine ⟨r, h1, h2, ?_⟩
    intro j hj
    obtain ⟨i, hi, rfl⟩ := exists_deref_of_mem r.procs j hj
    rw [h2] at hi
    obtain ⟨c, hc, hle, hcs⟩ := h3 i hi
    rw [hc]
    exact metricsSound_job _ c 0 (horig _ (deref_mem P i hi))
      (le_of_lt (hb _ (deref_mem P i hi))) hle hcs

/-- Witness for the amended C2 on `P1(0,5)`, `P2(1,3)`, `P3(2,1)`. -/
theorem metrics_sound_safe_witness :
    ((runFCFS [newProcess "P1" 0 5 1, newProcess "P2" 1 3 1, newProcess "P3" 2 1 1]).procs.length =
        [newProcess "P1" 0 5 1, newProcess "P2" 1 3 1, newProcess "P3" 2 1 1].length ∧
      ∀ p ∈ (runFCFS [newProcess "P1" 0 5 1, newProcess "P2" 1 3 1, newProcess "P3" 2 1 1]).procs,
        MetricsSound p) ∧
    (∃ r, (∀ fuel, npFuel [newProcess "P1" 0 5 1, newProcess "P2" 1 3 1, newProcess "P3" 2 1 1] ≤
          fuel →
        runSJF fuel [newProcess "P1" 0 5 1, newProcess "P2" 1 3 1, newProcess "P3" 2 1 1] =
          some r) ∧
      r.procs.length = [newProcess "P1" 0 5 1, newProcess "P2" 1 3 1, newProcess "P3" 2 1 1].length ∧
      ∀ j ∈ r.procs, MetricsSound j.toProcess) ∧
    (∃ r, (∀ fuel, srtfFuel [newProcess "P1" 0 5 1, newProcess "P2" 1 3 1, newProcess "P3" 2 1 1] ≤
          fuel →
        runSRTF fuel [newProcess "P1" 0 5 1, newProcess "P2" 1 3 1, newProcess "P3" 2 1 1] =
          some r) ∧
      r.procs.length = [newProcess "P1" 0 5 1, newProcess "P2" 1 3 1, newProcess "P3" 2 1 1].length ∧
      ∀ j ∈ r.procs, MetricsSound j.toProcess) ∧
    (∃ r, (∀ fuel, npFuel [newProcess "P1" 0 5 1, newProcess "P2" 1 3 1, newProcess "P3" 2 1 1] ≤
          fuel →
        runPriority fuel [newProcess "P1" 0 5 1, newProcess "P2" 1 3 1, newProcess "P3" 2 1 1] =
          some r) ∧
      r.procs.length = [newProcess "P1" 0 5 1, newProcess "P2" 1 3 1, newProcess "P3" 2 1 1].length ∧
      ∀ j ∈ r.procs, MetricsSound j.toProcess) ∧
    (∀ q : Int, 0 < q → ∃ r,
      (∀ fuel, rrFuel [newProcess "P1" 0 5 1, newProcess "P2" 1 3 1, newProcess "P3" 2 1 1] ≤
          fuel →
        runRR fuel (some q) [newProcess "P1" 0 5 1, newProcess "P2" 1 3 1, newProcess "P3" 2 1 1] =
          some r) ∧
      r.procs.length = [newProcess "P1" 0 5 1, newProcess "P2" 1 3 1, newProcess "P3" 2 1 1].length ∧
      ∀ j ∈ r.procs, MetricsSound j.toProcess) :=
  metrics_sound_safe [newProcess "P1" 0 5 1, newProcess "P2" 1 3 1, newProcess "P3" 2 1 1]
    (by decide) (by decide) (by decide)

/-! ## `runSRTF`: the time units of a run -/

/-- While the only process of the registry `P1(arrival 2^53 + 2, burst 1)` has not arrived, the
iterations of `runSRTF` are idle and the clock counts them, up to `2^53`. -/
theorem srtf_idle_until_maxSafe (k : Nat) (hk : k ≤ maxSafe) :
    srtfBody^[k] (srtfInit [newProcess "P1" 9007199254740994 1 1]) =
      { srtfInit [newProcess "P1" 9007199254740994 1 1] with time := k } := by
  induction k with
  | zero => rfl
  | succ k ih =>
    rw [Function.iterate_succ_apply', ih (by omega)]
    have hk' : (k : Int) + 1 ≤ 9007199254740992 := by
      unfold maxSafe at hk
      omega
    have hnil : srtfCandidates
        { srtfInit [newProcess "P1" 9007199254740994 1 1] with time := (k : Int) } = [] := by
      apply List.eq_nil_iff_forall_not_mem.mpr
      intro i hi
      obtain ⟨h1, h2, _⟩ := (srtfCandidates_mem _ i).mp hi
      have hi0 : i = 0 := by
        simp only [srtfInit, List.map_cons, List.map_nil, List.length_singleton] at h1
        omega
      subst hi0
      have harr : (deref ({ srtfInit [newProcess "P1" 9007199254740994 1 1] with
          time := (k : Int) } : SRTFState).remaining 0).arrival = 9007199254740994 := rfl
      rw [harr] at h2
      simp only at h2
      omega
    rw [srtfBody_of_nil _ hnil]
    simp only
    rw [num_of_nonneg_le _ (by omega) (by unfold maxSafe; omega)]
    push_cast
    rfl

/-- C4, counterexample: on the single process `P1(arrival 2^53 + 2, burst 1)`, at the time
unit `2^53` of the run (the state after `2^53` idle iterations, where the time is `2^53`) no
process has arrived, no process is executed, and the iteration leaves the time at `2^53`: in
Number arithmetic `2^53 + 1` is `2^53`, so time does not advance by one unit (and never
reaches the arrival of `P1`). -/
theorem runSRTF_clock_stops :
    (srtfBody^[9007199254740992] (srtfInit [newProcess "P1" 9007199254740994 1 1])).time =
      9007199254740992 ∧
    srtfCandidates
      (srtfBody^[9007199254740992] (srtfInit [newProcess "P1" 9007199254740994 1 1])) = [] ∧
    (srtfBody (srtfBody^[9007199254740992]
      (srtfInit [newProcess "P1" 9007199254740994 1 1]))).time = 9007199254740992 ∧
    (srtfBody (srtfBody^[9007199254740992]
      (srtfInit [newProcess "P1" 9007199254740994 1 1]))) =
      srtfBody^[9007199254740992] (srtfInit [newProcess "P1" 9007199254740994 1 1]) := by
  rw [srtf_idle_until_maxSafe 9007199254740992 (by decide)]
  refine ⟨by decide, by decide, by decide, by rfl⟩

/-- C4, amended: at every time unit `t` below `2^53` of a run of `runSRTF` (the state after
`t` iterations of the loop body has `time = t`): if some process has arrived and has work
remaining, the iteration decrements the remaining time of a process `c` that has arrived, has
work remaining and whose remaining time is least among such processes (by exactly one when
that remaining time is at most `2^53`), and of no other process, and time advances by one;
otherwise no process is touched, no segment is opened, and time advances by exactly one
unit. -/
theorem runSRTF_unit_step_safe (P : List Process) (t : Nat) (ht : t < maxSafe) :
    (srtfBody^[t] (srtfInit P)).time = t ∧
    ((∃ i, i < (srtfBody^[t] (srtfInit P)).remaining.length ∧
        (deref (srtfBody^[t] (srtfInit P)).remaining i).arrival ≤ t ∧
        0 < (deref (srtfBody^[t] (srtfInit P)).remaining i).remaining) →
      ∃ c, c < (srtfBody^[t] (srtfInit P)).remaining.length ∧
        (deref (srtfBody^[t] (srtfInit P)).remaining c).arrival ≤ t ∧
        0 < (deref (srtfBody^[t] (srtfInit P)).remaining c).remaining ∧
        (∀ j, j < (srtfBody^[t] (srtfInit P)).remaining.length →
          (deref (srtfBody^[t] (srtfInit P)).remaining j).arrival ≤ t →
          0 < (deref (srtfBody^[t] (srtfInit P)).remaining j).remaining →
          (deref (srtfBody^[t] (srtfInit P)).remaining c).remaining ≤
            (deref (srtfBody^[t] (srtfInit P)).remaining j).remaining) ∧
        (deref (srtfBody^[t + 1] (srtfInit P)).remaining c).remaining =
          num ((deref (srtfBody^[t] (srtfInit P)).remaining c).remaining - 1) ∧
        ((deref (srtfBody^[t] (srtfInit P)).remaining c).remaining ≤ (maxSafe : Int) →
          (deref (srtfBody^[t + 1] (srtfInit P)).remaining c).remaining =
            (deref (srtfBody^[t] (srtfInit P)).remaining c).remaining - 1) ∧
        (∀ j, j ≠ c → deref (srtfBody^[t + 1] (srtfInit P)).remaining j =
          deref (srtfBody^[t] (srtfInit P)).remaining j) ∧
        (srtfBody^[t + 1] (srtfInit P)).time = t + 1) ∧
    ((¬ ∃ i, i < (srtfBody^[t] (srtfInit P)).remaining.length ∧
        (deref (srtfBody^[t] (srtfInit P)).remaining i).arrival ≤ t ∧
        0 < (deref (srtfBody^[t] (srtfInit P)).remaining i).remaining) →
      (srtfBody^[t + 1] (srtfInit P)).remaining = (srtfBody^[t] (srtfInit P)).remaining ∧
        (srtfBody^[t + 1] (srtfInit P)).schedule = (srtfBody^[t] (srtfInit P)).schedule ∧
        (srtfBody^[t + 1] (srtfInit P)).completed = (srtfBody^[t] (srtfInit P)).completed ∧
        (srtfBody^[t + 1] (srtfInit P)).time = t + 1) := by
  have htime := srtf_time_of_le P t (by omega)
  have htime' : (srtfBody^[t + 1] (srtfInit P)).time = t + 1 := by
    have := srtf_time_of_le P (t + 1) (by omega)
    rw [this]
    push_cast
    rfl
  rw [Function.iterate_succ_apply'] at htime' ⊢
  generalize srtfBody^[t] (srtfInit P) = s at htime htime' ⊢
  refine ⟨htime, ?_, ?_⟩
  · rintro ⟨i, hi, harr, hrem⟩
    have himem : i ∈ srtfCandidates s := (srtfCandidates_mem s i).mpr ⟨hi, htime ▸ harr, hrem⟩
    cases h : srtfCandidates s with
    | nil => rw [h] at himem; simp at himem
    | cons c rest =>
      have hc : c ∈ srtfCandidates s := by rw [h]; simp
      obtain ⟨hc1, hc2, hc3⟩ := (srtfCandidates_mem s c).mp hc
      have hmin := sortRefs_head_le _ _ c rest h
      obtain ⟨hdec, hothers⟩ := srtfBody_decrement s c rest h
      refine ⟨c, hc1, htime ▸ hc2, hc3, ?_, hdec, ?_, hothers, htime'⟩
      · intro j hj harrj hremj
        have hjm : j ∈ srtfCandidates s := (srtfCandidates_mem s j).mpr ⟨hj, htime ▸ harrj, hremj⟩
        unfold srtfCandidates at hjm
        exact hmin j ((sortRefs_perm _ _).subset hjm)
      · intro hle
        rw [hdec, num_sub_one_of_pos_le _ hc3 hle]
  · intro hno
    have hnil : srtfCandidates s = [] := by
      cases h : srtfCandidates s with
      | nil => rfl
      | cons c rest =>
        exfalso
        have hc : c ∈ srtfCandidates s := by rw [h]; simp
        obtain ⟨hc1, hc2, hc3⟩ := (srtfCandidates_mem s c).mp hc
        exact hno ⟨c, hc1, htime ▸ hc2, hc3⟩
    refine ⟨?_, ?_, ?_, htime'⟩
    · rw [srtfBody_of_nil s hnil]
    · rw [srtfBody_of_nil s hnil]
    · rw [srtfBody_of_nil s hnil]

/-- Witness for the amended C4: the registry `P1(0,2)` at the time unit 0. -/
theorem runSRTF_unit_step_safe_witness :
    (srtfBody^[0] (srtfInit [newProcess "P1" 0 2 1])).time = (0 : Nat) ∧
    ((∃ i, i < (srtfBody^[0] (srtfInit [newProcess "P1" 0 2 1])).remaining.length ∧
        (deref (srtfBody^[0] (srtfInit [newProcess "P1" 0 2 1])).remaining i).arrival ≤
          (0 : Nat) ∧
        0 < (deref (srtfBody^[0] (srtfInit [newProcess "P1" 0 2 1])).remaining i).remaining) →
      ∃ c, c < (srtfBody^[0] (srtfInit [newProcess "P1" 0 2 1])).remaining.length ∧
        (deref (srtfBody^[0] (srtfInit [newProcess "P1" 0 2 1])).remaining c).arrival ≤
          (0 : Nat) ∧
        0 < (deref (srtfBody^[0] (srtfInit [newProcess "P1" 0 2 1])).remaining c).remaining ∧
        (∀ j, j < (srtfBody^[0] (srtfInit [newProcess "P1" 0 2 1])).remaining.length →
          (deref (srtfBody^[0] (srtfInit [newProcess "P1" 0 2 1])).remaining j).arrival ≤
            (0 : Nat) →
          0 < (deref (srtfBody^[0] (srtfInit [newProcess "P1" 0 2 1])).remaining j).remaining →
          (deref (srtfBody^[0] (srtfInit [newProcess "P1" 0 2 1])).remaining c).remaining ≤
            (deref (srtfBody^[0] (srtfInit [newProcess "P1" 0 2 1])).remaining j).remaining) ∧
        (deref (srtfBody^[0 + 1] (srtfInit [newProcess "P1" 0 2 1])).remaining c).remaining =
          num ((deref (srtfBody^[0] (srtfInit [newProcess "P1" 0 2 1])).remaining c).remaining -
            1) ∧
        ((deref (srtfBody^[0] (srtfInit [newProcess "P1" 0 2 1])).remaining c).remaining ≤
            (maxSafe : Int) →
          (deref (srtfBody^[0 + 1] (srtfInit [newProcess "P1" 0 2 1])).remaining c).remaining =
            (deref (srtfBody^[0] (srtfInit [newProcess "P1" 0 2 1])).remaining c).remaining -
              1) ∧
        (∀ j, j ≠ c →
          deref (srtfBody^[0 + 1] (srtfInit [newProcess "P1" 0 2 1])).remaining j =
            deref (srtfBody^[0] (srtfInit [newProcess "P1" 0 2 1])).remaining j) ∧
        (srtfBody^[0 + 1] (srtfInit [newProcess "P1" 0 2 1])).time = (0 : Nat) + 1) ∧
    ((¬ ∃ i, i < (srtfBody^[0] (srtfInit [newProcess "P1" 0 2 1])).remaining.length ∧
        (deref (srtfBody^[0] (srtfInit [newProcess "P1" 0 2 1])).remaining i).arrival ≤
          (0 : Nat) ∧
        0 < (deref (srtfBody^[0] (srtfInit [newProcess "P1" 0 2 1])).remaining i).remaining) →
      (srtfBody^[0 + 1] (srtfInit [newProcess "P1" 0 2 1])).remaining =
          (srtfBody^[0] (srtfInit [newProcess "P1" 0 2 1])).remaining ∧
        (srtfBody^[0 + 1] (srtfInit [newProcess "P1" 0 2 1])).schedule =
          (srtfBody^[0] (srtfInit [newProcess "P1" 0 2 1])).schedule ∧
        (srtfBody^[0 + 1] (srtfInit [newProcess "P1" 0 2 1])).completed =
          (srtfBody^[0] (srtfInit [newProcess "P1" 0 2 1])).completed ∧
        (srtfBody^[0 + 1] (srtfInit [newProcess "P1" 0 2 1])).time = (0 : Nat) + 1) :=
  runSRTF_unit_step_safe [newProcess "P1" 0 2 1] 0 (by decide)

/-! ## `runSJF` and `runPriority` -/

/-- A loop of `runSJF` / `runPriority` whose second iteration changes nothing never ends. -/
theorem np_stuck (key : Job → Int) (P : List Process)
    (hc0 : npCond P.length (npInit P) = true)
    (hc1 : npCond P.length (npBody key (npInit P)) = true)
    (hfix : npBody key (npBody key (npInit P)) = npBody key (npInit P)) :
    (∀ fuel, whileLoop (npCond P.length) (npBody key) fuel (npInit P) = none) ∧
      ∀ k, (npBody key)^[k + 1] (npInit P) = npBody key (npInit P) := by
  constructor
  · intro fuel
    cases fuel with
    | zero => rfl
    | succ k =>
      rw [whileLoop_succ_of_cond _ _ _ _ hc0]
      exact whileLoop_stuck _ _ _ hc1 hfix k
  · intro k
    induction k with
    | zero => rfl
    | succ k ih => rw [Function.iterate_succ_apply', ih, hfix]

/-- C5, counterexample: on `P1(arrival 0, burst 2^53, priority 1)`,
`P2(arrival 2^53 + 2, burst 1, priority 1)` the loop of `runPriority` never ends: `P1` runs
during `[0, 2^53)`; from then on no process is ready, the idle step `time++` leaves the time
at `2^53` (in Number arithmetic `2^53 + 1` is `2^53`), `P2` never arrives and never runs. After
any number of iterations the timeline is `[P1@0x2^53]`. -/
theorem runPriority_never_returns :
    (∀ fuel, runPriority fuel
      [newProcess "P1" 0 9007199254740992 1, newProcess "P2" 9007199254740994 1 1] = none) ∧
    (∀ k, ((npBody (fun j => j.priority))^[k + 1]
        (npInit [newProcess "P1" 0 9007199254740992 1,
          newProcess "P2" 9007199254740994 1 1])).time = 9007199254740992) ∧
    (∀ k, ((npBody (fun j => j.priority))^[k + 1]
        (npInit [newProcess "P1" 0 9007199254740992 1,
          newProcess "P2" 9007199254740994 1 1])).schedule =
      [{ pid := "P1", start := 0, duration := 9007199254740992 }]) := by
  obtain ⟨h1, h2⟩ := np_stuck (fun j => j.priority)
    [newProcess "P1" 0 9007199254740992 1, newProcess "P2" 9007199254740994 1 1]
    (by decide) (by decide) (by rfl)
  refine ⟨?_, ?_, ?_⟩
  · intro fuel
    simp only [runPriority]
    rw [h1 fuel]
    rfl
  · intro k
    rw [h2 k]
    decide
  · intro k
    rw [h2 k]
    decide

/-- C5, amended: on a registry with distinct pids and positive bursts whose times are safe
integers (`SafeTimes`), `runPriority` returns (for any fuel from `npFuel` on); the records it
passes to `calculateMetrics` are the processes of the registry; every process has exactly one
segment; segments and records correspond one to one, a segment having the burst of its
process as duration and starting at or after its arrival; and at that start its process has
the least priority value among the processes that have arrived by then and are not completed
by then. -/
theorem runPriority_single_segment_safe (P : List Process)
    (hpid : (P.map (fun p => p.pid)).Nodup) (hb : ∀ p ∈ P, 0 < p.burst) (hs : SafeTimes P) :
    ∃ r, (∀ fuel, npFuel P ≤ fuel → runPriority fuel P = some r) ∧
      (r.procs.map (fun j => j.toProcess.entered)).Perm (P.map Process.entered) ∧
      (∀ p ∈ P, (r.schedule.map (fun seg => seg.pid)).count p.pid = 1) ∧
      List.Forall₂ (fun (seg : Segment) (p : Job) =>
          seg.pid = p.pid ∧ seg.duration = p.burst ∧ p.arrival ≤ seg.start ∧
          ∀ q ∈ r.procs, q.arrival ≤ seg.start →
            (∀ cq, q.completion = some cq → seg.start < cq) → p.priority ≤ q.priority)
        r.schedule r.procs := by
  obtain ⟨r, h1, h2, _, h4⟩ := np_contract P (fun j => j.priority) (fun p => p.priority)
    (fun _ => rfl) (fun _ _ _ h => h) hpid hb hs
  refine ⟨r, h1, h2, ?_, h4.imp ?_⟩
  · have hpids : r.schedule.map (fun seg => seg.pid) = r.procs.map (fun j => j.pid) :=
      map_eq_of_forall₂ _ _ _ _ (h4.imp (fun seg p h => h.1))
    have hperm : (r.procs.map (fun j => j.pid)).Perm (P.map (fun p => p.pid)) := by
      have := h2.map (fun (x : String × Int × Int × Int) => x.1)
      simpa [List.map_map, Function.comp, Process.entered] using this
    intro p hp
    rw [hpids, hperm.count_eq]
    exact List.count_eq_one_of_mem hpid (List.mem_map_of_mem (fun p => p.pid) hp)
  · intro seg p h
    exact ⟨h.1, h.2.1, h.2.2.1, h.2.2.2.2⟩

/-- Witness for the amended C5 on a registry of three processes with priorities 3, 1, 2. -/
theorem runPriority_single_segment_safe_witness :
    ∃ r, (∀ fuel, npFuel [newProcess "P1" 0 5 3, newProcess "P2" 1 3 1, newProcess "P3" 2 1 2] ≤
          fuel →
        runPriority fuel [newProcess "P1" 0 5 3, newProcess "P2" 1 3 1, newProcess "P3" 2 1 2] =
          some r) ∧
      (r.procs.map (fun j => j.toProcess.entered)).Perm
        ([newProcess "P1" 0 5 3, newProcess "P2" 1 3 1, newProcess "P3" 2 1 2].map
          Process.entered) ∧
      (∀ p ∈ [newProcess "P1" 0 5 3, newProcess "P2" 1 3 1, newProcess "P3" 2 1 2],
        (r.schedule.map (fun seg => seg.pid)).count p.pid = 1) ∧
      List.Forall₂ (fun (seg : Segment) (p : Job) =>
          seg.pid = p.pid ∧ seg.duration = p.burst ∧ p.arrival ≤ seg.start ∧
          ∀ q ∈ r.procs, q.arrival ≤ seg.start →
            (∀ cq, q.completion = some cq → seg.start < cq) → p.priority ≤ q.priority)
        r.schedule r.procs :=
  runPriority_single_segment_safe
    [newProcess "P1" 0 5 3, newProcess "P2" 1 3 1, newProcess "P3" 2 1 2] (by decide) (by decide)
    (by decide)

/-! ## `runRR`: the slices -/

/-- A loop whose third iteration changes nothing never ends. -/
theorem whileLoop_stuck_after_two {σ : Type} (cond : σ → Bool) (body : σ → σ) (s : σ)
    (hc0 : cond s = true) (hc1 : cond (body s) = true) (hc2 : cond (body (body s)) = true)
    (hfix : body (body (body s)) = body (body s)) :
    (∀ fuel, whileLoop cond body fuel s = none) ∧ ∀ k, body^[k + 2] s = body (body s) := by
  constructor
  · intro fuel
    cases fuel with
    | zero => rfl
    | succ k =>
      rw [whileLoop_succ_of_cond _ _ _ _ hc0]
      cases k with
      | zero => rfl
      | succ k =>
        rw [whileLoop_succ_of_cond _ _ _ _ hc1]
        exact whileLoop_stuck _ _ _ hc2 hfix k
  · intro k
    induction k with
    | zero => rfl
    | succ k ih => rw [Function.iterate_succ_apply', ih, hfix]

/-- C8, counterexample: with the quantum `2^53` on `P1(arrival 1, burst 2^53)`,
`P2(arrival 2^53 + 2, burst 1)` the loop of `runRR` never ends: `P1` runs its whole burst in
one slice from time 1, after which the time is `2^53` (in Number arithmetic `1 + 2^53` is
`2^53`); from then on the queue is empty, the idle step `time++` leaves the time at `2^53`,
and `P2` never arrives. After any number of iterations the timeline is `[P1@1x2^53]`, so the
durations of the segments of `P2` add up to 0, not to its burst 1. -/
theorem runRR_never_returns :
    (∀ fuel, runRR fuel (some 9007199254740992)
      [newProcess "P1" 1 9007199254740992 1, newProcess "P2" 9007199254740994 1 1] = none) ∧
    (∀ k, ((rrBody 9007199254740992)^[k + 2]
        (rrInit [newProcess "P1" 1 9007199254740992 1,
          newProcess "P2" 9007199254740994 1 1])).time = 9007199254740992) ∧
    (∀ k, ((rrBody 9007199254740992)^[k + 2]
        (rrInit [newProcess "P1" 1 9007199254740992 1,
          newProcess "P2" 9007199254740994 1 1])).schedule =
      [{ pid := "P1", start := 1, duration := 9007199254740992 }]) ∧
    (∀ k, served ((rrBody 9007199254740992)^[k + 2]
        (rrInit [newProcess "P1" 1 9007199254740992 1,
          newProcess "P2" 9007199254740994 1 1])).schedule "P2" = 0) := by
  obtain ⟨h1, h2⟩ := whileLoop_stuck_after_two rrCond (rrBody 9007199254740992)
    (rrInit [newProcess "P1" 1 9007199254740992 1, newProcess "P2" 9007199254740994 1 1])
    (by decide) (by decide) (by decide) (by rfl)
  refine ⟨?_, ?_, ?_, ?_⟩
  · intro fuel
    have hq : rrQuantum (some 9007199254740992) = 9007199254740992 := by decide
    simp only [runRR, hq]
    rw [h1 fuel]
    rfl
  · intro k
    rw [h2 k]
    decide
  · intro k
    rw [h2 k]
    decide
  · intro k
    rw [h2 k]
    decide

/-- C8, amended: with a positive quantum, on a registry with distinct pids and positive bursts
whose times are safe integers (`SafeTimes`), `runRR` returns (for any fuel from `rrFuel` on);
every segment of the timeline has as duration the minimum of the quantum and the work its
process has left at the segment's start (its burst less the durations of its earlier
segments); and for every process the durations of its segments add up to its burst. -/
theorem runRR_slices_safe (P : List Process) (q : Int) (hq : 0 < q)
    (hpid : (P.map (fun p => p.pid)).Nodup) (hb : ∀ p ∈ P, 0 < p.burst) (hs : SafeTimes P) :
    ∃ r, (∀ fuel, rrFuel P ≤ fuel → runRR fuel (some q) P = some r) ∧
      (∀ pre seg post, r.schedule = pre ++ seg :: post →
        ∃ p ∈ P, p.pid = seg.pid ∧ seg.duration = min q (p.burst - served pre seg.pid)) ∧
      (∀ p ∈ P, served r.schedule p.pid = p.burst) := by
  obtain ⟨r, h1, _, _, h4, h5⟩ := rr_records P q hq hpid hb hs
  exact ⟨r, h1, h4, h5⟩

/-- Witness for the amended C8 on `P1(0,5)`, `P2(1,3)` with quantum 2. -/
theorem runRR_slices_safe_witness :
    ∃ r, (∀ fuel, rrFuel [newProcess "P1" 0 5 1, newProcess "P2" 1 3 1] ≤ fuel →
        runRR fuel (some 2) [newProcess "P1" 0 5 1, newProcess "P2" 1 3 1] = some r) ∧
      (∀ pre seg post, r.schedule = pre ++ seg :: post →
        ∃ p ∈ [newProcess "P1" 0 5 1, newProcess "P2" 1 3 1],
          p.pid = seg.pid ∧ seg.duration = min 2 (p.burst - served pre seg.pid)) ∧
      (∀ p ∈ [newProcess "P1" 0 5 1, newProcess "P2" 1 3 1], served r.schedule p.pid = p.burst) :=
  runRR_slices_safe [newProcess "P1" 0 5 1, newProcess "P2" 1 3 1] 2 (by decide) (by decide)
    (by decide) (by decide)

/-! ## Response time of the routines that never preempt -/

/-- C11, counterexample: on the single process `P1(arrival 2^53, burst 3)` (derived fields
cleared) the segment of `P1` in the timeline of `runFCFS` starts at `2^53`, its arrival, so
that start less arrival is 0; but the completion recorded is `2^53 + 4` (the nearest Number
to `2^53 + 3`), and the waiting time and the response time are both 1. -/
theorem runFCFS_waiting_not_start_less_arrival :
    (runFCFS [newProcess "P1" 9007199254740992 3 1]).schedule =
      [{ pid := "P1", start := 9007199254740992, duration := 3 }] ∧
    (runFCFS [newProcess "P1" 9007199254740992 3 1]).procs.map (fun p => p.arrival) =
      [9007199254740992] ∧
    (runFCFS [newProcess "P1" 9007199254740992 3 1]).procs.map TableRow.ofProcess =
      [TableRow.mk "P1" (some 9007199254740996) (some 4) (some 1) (some 1)] := by
  refine ⟨by decide, by decide, by decide⟩

/-- C11, amended: on a registry with distinct pids whose processes have a positive burst
(`originalBurst` equal to `burst`, as line 49 sets it) and a cleared `response`, and whose
times are safe integers (`SafeTimes`), each of `runFCFS`, `runSJF` and `runPriority` gives
every process exactly one segment, the records passed to `calculateMetrics` are the processes
of the registry and correspond to the segments one to one, and the response time and the
waiting time of a record are both the start of its segment less its arrival. -/
theorem nonpreemptive_response_safe (P : List Process)
    (hpid : (P.map (fun p => p.pid)).Nodup)
    (hok : ∀ p ∈ P, 0 < p.burst ∧ p.originalBurst = p.burst ∧ p.response = none)
    (hs : SafeTimes P) :
    (((runFCFS P).procs.map Process.entered).Perm (P.map Process.entered) ∧
      (∀ p ∈ P, ((runFCFS P).schedule.map (fun seg => seg.pid)).count p.pid = 1) ∧
      List.Forall₂ (fun (seg : Segment) (p : Process) =>
          seg.pid = p.pid ∧ seg.duration = p.burst ∧
          p.waiting = some (seg.start - p.arrival) ∧ p.response = some (seg.start - p.arrival))
        (runFCFS P).schedule (runFCFS P).procs) ∧
    (∃ r, (∀ fuel, npFuel P ≤ fuel → runSJF fuel P = some r) ∧
      (r.procs.map (fun j => j.toProcess.entered)).Perm (P.map Process.entered) ∧
      (∀ p ∈ P, (r.schedule.map (fun seg => seg.pid)).count p.pid = 1) ∧
      List.Forall₂ (fun (seg : Segment) (p : Job) =>
          seg.pid = p.pid ∧ seg.duration = p.burst ∧
          p.waiting = some (seg.start - p.arrival) ∧ p.response = some (seg.start - p.arrival))
        r.schedule r.procs) ∧
    (∃ r, (∀ fuel, npFuel P ≤ fuel → runPriority fuel P = some r) ∧
      (r.procs.map (fun j => j.toProcess.entered)).Perm (P.map Process.entered) ∧
      (∀ p ∈ P, (r.schedule.map (fun seg => seg.pid)).count p.pid = 1) ∧
      List.Forall₂ (fun (seg : Segment) (p : Job) =>
          seg.pid = p.pid ∧ seg.duration = p.burst ∧
          p.waiting = some (seg.start - p.arrival) ∧ p.response = some (seg.start - p.arrival))
        r.schedule r.procs) := by
  have hb0 : ∀ p ∈ P, 0 ≤ p.burst := fun p hp => le_of_lt (hok p hp).1
  obtain ⟨hbd, hsum⟩ := fcfsSorted_bounds P hb0 hs
  have hresp := fcfsRule_records_response ((fcfsSorted P).map (fun i => P.getD i default))
    (earliestArrival P) (latestArrival P)
    (fun p hp => ⟨(hok p (hbd p hp).1).2, (hbd p hp).2⟩) 0 hsum
  refine ⟨⟨fcfs_entered_perm P hb0 hs, ?_, ?_⟩, ?_, ?_⟩
  · have hF : List.Forall₂ (fun (seg : Segment) (p : Process) => seg.pid = p.pid)
        (runFCFS P).schedule (runFCFS P).procs := by
      rw [runFCFS_procs P hb0 hs, runFCFS_schedule P hb0 hs]
      exact hresp.imp (fun seg p h => h.1)
    have hpids := map_eq_of_forall₂ _ _ _ _ hF
    rw [hpids]
    exact count_pid_eq_one _ P
      (pid_perm_of_entered_perm (fun p : Process => p) _ P
        (by simpa using fcfs_entered_perm P hb0 hs)) hpid
  · rw [runFCFS_procs P hb0 hs, runFCFS_schedule P hb0 hs]
    exact hresp
  · exact np_response P (fun j => j.remaining) (fun p => p.burst) (fun _ => rfl)
      (fun _ _ h _ => h) hpid hok hs
  · exact np_response P (fun j => j.priority) (fun p => p.priority) (fun _ => rfl)
      (fun _ _ _ h => h) hpid hok hs

/-- Witness for the amended C11 on `P1(0,5)`, `P2(1,3)`, `P3(2,1)`. -/
theorem nonpreemptive_response_safe_witness :
    (((runFCFS [newProcess "P1" 0 5 1, newProcess "P2" 1 3 1, newProcess "P3" 2 1 1]).procs.map
          Process.entered).Perm
        ([newProcess "P1" 0 5 1, newProcess "P2" 1 3 1, newProcess "P3" 2 1 1].map
          Process.entered) ∧
      (∀ p ∈ [newProcess "P1" 0 5 1, newProcess "P2" 1 3 1, newProcess "P3" 2 1 1],
        ((runFCFS [newProcess "P1" 0 5 1, newProcess "P2" 1 3 1,
          newProcess "P3" 2 1 1]).schedule.map (fun seg => seg.pid)).count p.pid = 1) ∧
      List.Forall₂ (fun (seg : Segment) (p : Process) =>
          seg.pid = p.pid ∧ seg.duration = p.burst ∧
          p.waiting = some (seg.start - p.arrival) ∧ p.response = some (seg.start - p.arrival))
        (runFCFS [newProcess "P1" 0 5 1, newProcess "P2" 1 3 1, newProcess "P3" 2 1 1]).schedule
        (runFCFS [newProcess "P1" 0 5 1, newProcess "P2" 1 3 1, newProcess "P3" 2 1 1]).procs) ∧
    (∃ r, (∀ fuel, npFuel [newProcess "P1" 0 5 1, newProcess "P2" 1 3 1, newProcess "P3" 2 1 1] ≤
          fuel →
        runSJF fuel [newProcess "P1" 0 5 1, newProcess "P2" 1 3 1, newProcess "P3" 2 1 1] =
          some r) ∧
      (r.procs.map (fun j => j.toProcess.entered)).Perm
        ([newProcess "P1" 0 5 1, newProcess "P2" 1 3 1, newProcess "P3" 2 1 1].map
          Process.entered) ∧
      (∀ p ∈ [newProcess "P1" 0 5 1, newProcess "P2" 1 3 1, newProcess "P3" 2 1 1],
        (r.schedule.map (fun seg => seg.pid)).count p.pid = 1) ∧
      List.Forall₂ (fun (seg : Segment) (p : Job) =>
          seg.pid = p.pid ∧ seg.duration = p.burst ∧
          p.waiting = some (seg.start - p.arrival) ∧ p.response = some (seg.start - p.arrival))
        r.schedule r.procs) ∧
    (∃ r, (∀ fuel, npFuel [newProcess "P1" 0 5 1, newProcess "P2" 1 3 1, newProcess "P3" 2 1 1] ≤
          fuel →
        runPriority fuel [newProcess "P1" 0 5 1, newProcess "P2" 1 3 1, newProcess "P3" 2 1 1] =
          some r) ∧
      (r.procs.map (fun j => j.toProcess.entered)).Perm
        ([newProcess "P1" 0 5 1, newProcess "P2" 1 3 1, newProcess "P3" 2 1 1].map
          Process.entered) ∧
      (∀ p ∈ [newProcess "P1" 0 5 1, newProcess "P2" 1 3 1, newProcess "P3" 2 1 1],
        (r.schedule.map (fun seg => seg.pid)).count p.pid = 1) ∧
      List.Forall₂ (fun (seg : Segment) (p : Job) =>
          seg.pid = p.pid ∧ seg.duration = p.burst ∧
          p.waiting = some (seg.start - p.arrival) ∧ p.response = some (seg.start - p.arrival))
        r.schedule r.procs) :=
  nonpreemptive_response_safe
    [newProcess "P1" 0 5 1, newProcess "P2" 1 3 1, newProcess "P3" 2 1 1] (by decide) (by decide)
    (by decide)

/-! ## Idle gaps of the timelines -/

/-- C14, counterexample: on `P1(arrival 2^53, burst 1)`, `P2(2^53, 1)` the timeline of
`runFCFS` is `[P1@2^53x1, P2@2^53x1]`: the cursor after `P1` is `2^53` (in Number arithmetic
`2^53 + 1` is `2^53`), so the segment of `P2` starts at `2^53`, before the end `2^53 + 1` of
the segment of `P1`. -/
theorem runFCFS_segments_overlap :
    (runFCFS [newProcess "P1" 9007199254740992 1 1,
        newProcess "P2" 9007199254740992 1 1]).schedule.map
        (fun seg => (seg.start, seg.start + seg.duration)) =
      [(9007199254740992, 9007199254740993), (9007199254740992, 9007199254740993)] ∧
    ¬ IdleOnlyWhenNothingReady
      [newProcess "P1" 9007199254740992 1 1, newProcess "P2" 9007199254740992 1 1]
      (runFCFS [newProcess "P1" 9007199254740992 1 1,
        newProcess "P2" 9007199254740992 1 1]).schedule := by
  have hsched : (runFCFS [newProcess "P1" 9007199254740992 1 1,
      newProcess "P2" 9007199254740992 1 1]).schedule =
      [] ++ { pid := "P1", start := 9007199254740992, duration := 1 } ::
        { pid := "P2", start := 9007199254740992, duration := 1 } :: [] := by decide
  refine ⟨by decide, ?_⟩
  intro h
  have := (h _ _ _ _ hsched).1
  simp only at this
  omega

/-- C14, amended: on a registry with pairwise distinct pids and positive bursts whose times
are safe integers (`SafeTimes`), in the timelines of `runFCFS`, `runSJF`, `runPriority` and of
`runRR` with a positive quantum, a segment never starts before the end of the segment that
precedes it, and whenever it starts later, every process that has arrived by the end of the
preceding segment has no work left at that time: the segments of the timeline up to there
cover its whole burst. -/
theorem timeline_idle_only_safe (P : List Process)
    (hpid : (P.map (fun p => p.pid)).Nodup) (hb : ∀ p ∈ P, 0 < p.burst) (hs : SafeTimes P) :
    IdleOnlyWhenNothingReady P (runFCFS P).schedule ∧
    (∃ r, (∀ fuel, npFuel P ≤ fuel → runSJF fuel P = some r) ∧
      IdleOnlyWhenNothingReady P r.schedule) ∧
    (∃ r, (∀ fuel, npFuel P ≤ fuel → runPriority fuel P = some r) ∧
      IdleOnlyWhenNothingReady P r.schedule) ∧
    (∀ q : Int, 0 < q → ∃ r, (∀ fuel, rrFuel P ≤ fuel → runRR fuel (some q) P = some r) ∧
      IdleOnlyWhenNothingReady P r.schedule) :=
  ⟨fcfs_idle_only P hpid (fun p hp => le_of_lt (hb p hp)) hs,
    np_idle_only P (fun j => j.remaining) (fun p => p.burst) (fun _ => rfl) hpid hb hs,
    np_idle_only P (fun j => j.priority) (fun p => p.priority) (fun _ => rfl) hpid hb hs,
    fun q hq => rr_idle_only P q hq hpid hb hs⟩

/-- Witness for the amended C14 on `P1(0,2)`, `P2(5,3)`, `P3(6,1)`, where the CPU is idle during
`[2,5)`. -/
theorem timeline_idle_only_safe_witness :
    IdleOnlyWhenNothingReady [newProcess "P1" 0 2 1, newProcess "P2" 5 3 1, newProcess "P3" 6 1 1]
      (runFCFS [newProcess "P1" 0 2 1, newProcess "P2" 5 3 1, newProcess "P3" 6 1 1]).schedule ∧
    (∃ r, (∀ fuel, npFuel [newProcess "P1" 0 2 1, newProcess "P2" 5 3 1, newProcess "P3" 6 1 1] ≤
          fuel →
        runSJF fuel [newProcess "P1" 0 2 1, newProcess "P2" 5 3 1, newProcess "P3" 6 1 1] =
          some r) ∧
      IdleOnlyWhenNothingReady
        [newProcess "P1" 0 2 1, newProcess "P2" 5 3 1, newProcess "P3" 6 1 1] r.schedule) ∧
    (∃ r, (∀ fuel, npFuel [newProcess "P1" 0 2 1, newProcess "P2" 5 3 1, newProcess "P3" 6 1 1] ≤
          fuel →
        runPriority fuel [newProcess "P1" 0 2 1, newProcess "P2" 5 3 1, newProcess "P3" 6 1 1] =
          some r) ∧
      IdleOnlyWhenNothingReady
        [newProcess "P1" 0 2 1, newProcess "P2" 5 3 1, newProcess "P3" 6 1 1] r.schedule) ∧
    (∀ q : Int, 0 < q → ∃ r,
      (∀ fuel, rrFuel [newProcess "P1" 0 2 1, newProcess "P2" 5 3 1, newProcess "P3" 6 1 1] ≤
          fuel →
        runRR fuel (some q) [newProcess "P1" 0 2 1, newProcess "P2" 5 3 1, newProcess "P3" 6 1 1] =
          some r) ∧
      IdleOnlyWhenNothingReady
        [newProcess "P1" 0 2 1, newProcess "P2" 5 3 1, newProcess "P3" 6 1 1] r.schedule) :=
  timeline_idle_only_safe
    [newProcess "P1" 0 2 1, newProcess "P2" 5 3 1, newProcess "P3" 6 1 1] (by decide) (by decide)
    (by decide)

/-! ## Termination -/

/-- C15, counterexample: on `P1(arrival 0, burst 2^53)`, `P2(arrival 2^53 + 2, burst 1)` the
loop of `runSJF` never ends, whatever the fuel: `P1` runs during `[0, 2^53)`; from then on no
process is ready, the idle step `time++` leaves the time at `2^53` (in Number arithmetic
`2^53 + 1` is `2^53`), and `P2` never arrives: after any number of iterations its completion
time is not set. -/
theorem runSJF_never_returns :
    (∀ fuel, runSJF fuel
      [newProcess "P1" 0 9007199254740992 1, newProcess "P2" 9007199254740994 1 1] = none) ∧
    (∀ fuel, clickAlgo fuel Algo.sjf none
      [newProcess "P1" 0 9007199254740992 1, newProcess "P2" 9007199254740994 1 1] =
        ClickOutcome.outOfFuel) ∧
    (∀ k, (sjfStateAt [newProcess "P1" 0 9007199254740992 1,
        newProcess "P2" 9007199254740994 1 1] (k + 1)).time = 9007199254740992) ∧
    (∀ k, (sjfStateAt [newProcess "P1" 0 9007199254740992 1,
        newProcess "P2" 9007199254740994 1 1] (k + 1)).remaining.map (fun j => j.completion) =
      [some 9007199254740992, none]) := by
  obtain ⟨h1, h2⟩ := np_stuck (fun j => j.remaining)
    [newProcess "P1" 0 9007199254740992 1, newProcess "P2" 9007199254740994 1 1]
    (by decide) (by decide) (by rfl)
  have hrun : ∀ fuel, runSJF fuel
      [newProcess "P1" 0 9007199254740992 1, newProcess "P2" 9007199254740994 1 1] = none := by
    intro fuel
    simp only [runSJF]
    rw [h1 fuel]
    rfl
  refine ⟨hrun, ?_, ?_, ?_⟩
  · intro fuel
    have hclear : [newProcess "P1" 0 9007199254740992 1,
        newProcess "P2" 9007199254740994 1 1].map resetDerived =
        [newProcess "P1" 0 9007199254740992 1, newProcess "P2" 9007199254740994 1 1] := by
      decide
    simp only [clickAlgo, hclear, hrun fuel]
    rfl
  · intro k
    simp only [sjfStateAt]
    rw [h2 k]
    decide
  · intro k
    simp only [sjfStateAt]
    rw [h2 k]
    decide

/-- C15, amended: on a registry with pairwise distinct pids and positive bursts whose times
are safe integers (`SafeTimes`), `runFCFS` visits every process and sets its completion time,
and the loops of `runSJF`, `runSRTF`, `runPriority` and of `runRR` with a positive quantum
end (the routine returns for any fuel from the stated bound on), with one record per process
in the working set and a completion time set in every record. -/
theorem scheduling_terminates_safe (P : List Process)
    (hpid : (P.map (fun p => p.pid)).Nodup) (hb : ∀ p ∈ P, 0 < p.burst) (hs : SafeTimes P) :
    ((runFCFS P).procs.length = P.length ∧
      ∀ p ∈ (runFCFS P).procs, ∃ c, p.completion = some c) ∧
    (∃ r, (∀ fuel, npFuel P ≤ fuel → runSJF fuel P = some r) ∧
      r.procs.length = P.length ∧ ∀ j ∈ r.procs, ∃ c, j.completion = some c) ∧
    (∃ r, (∀ fuel, srtfFuel P ≤ fuel → runSRTF fuel P = some r) ∧
      r.procs.length = P.length ∧ ∀ j ∈ r.procs, ∃ c, j.completion = some c) ∧
    (∃ r, (∀ fuel, npFuel P ≤ fuel → runPriority fuel P = some r) ∧
      r.procs.length = P.length ∧ ∀ j ∈ r.procs, ∃ c, j.completion = some c) ∧
    (∀ q : Int, 0 < q → ∃ r, (∀ fuel, rrFuel P ≤ fuel → runRR fuel (some q) P = some r) ∧
      r.procs.length = P.length ∧ ∀ j ∈ r.procs, ∃ c, j.completion = some c) := by
  refine ⟨⟨runFCFS_procs_length P, ?_⟩, ?_, ?_, ?_, ?_⟩
  · intro p hp
    have hmem : p.completion ∈ (runFCFS P).procs.map (fun p => p.completion) :=
      List.mem_map_of_mem (fun p => p.completion) hp
    rw [runFCFS_procs P (fun p hp => le_of_lt (hb p hp)) hs,
      fcfsRule_records_completion] at hmem
    obtain ⟨seg, _, hseg⟩ := List.mem_map.mp hmem
    exact ⟨_, hseg.symm⟩
  · obtain ⟨r, h1, h2, h3, _⟩ := np_contract P (fun j => j.remaining) (fun p => p.burst)
      (fun _ => rfl) (fun _ _ h _ => h) hpid hb hs
    refine ⟨r, h1, by simpa using h2.length_eq, ?_⟩
    intro j hj
    obtain ⟨p, _, c, rfl, _⟩ := h3 j hj
    exact ⟨c, rfl⟩
  · obtain ⟨r, h1, h2, h3⟩ := srtf_records P hb hs
    refine ⟨r, h1, h2, ?_⟩
    intro j hj
    obtain ⟨i, hi, rfl⟩ := exists_deref_of_mem r.procs j hj
    obtain ⟨c, hc, _⟩ := h3 i (h2 ▸ hi)
    exact ⟨c, by rw [hc]; rfl⟩
  · obtain ⟨r, h1, h2, h3, _⟩ := np_contract P (fun j => j.priority) (fun p => p.priority)
      (fun _ => rfl) (fun _ _ _ h => h) hpid hb hs
    refine ⟨r, h1, by simpa using h2.length_eq, ?_⟩
    intro j hj
    obtain ⟨p, _, c, rfl, _⟩ := h3 j hj
    exact ⟨c, rfl⟩
  · intro q hq
    obtain ⟨r, h1, h2, h3, _⟩ := rr_records P q hq hpid hb hs
    refine ⟨r, h1, h2, ?_⟩
    intro j hj
    obtain ⟨i, hi, rfl⟩ := exists_deref_of_mem r.procs j hj
    obtain ⟨c, hc, _⟩ := h3 i (h2 ▸ hi)
    exact ⟨c, by rw [hc]; rfl⟩

/-- Witness for the amended C15 on `P1(0,5)`, `P2(1,3)`, `P3(2,1)`. -/
theorem scheduling_terminates_safe_witness :
    ((runFCFS [newProcess "P1" 0 5 1, newProcess "P2" 1 3 1, newProcess "P3" 2 1 1]).procs.length =
        [newProcess "P1" 0 5 1, newProcess "P2" 1 3 1, newProcess "P3" 2 1 1].length ∧
      ∀ p ∈ (runFCFS [newProcess "P1" 0 5 1, newProcess "P2" 1 3 1, newProcess "P3" 2 1 1]).procs,
        ∃ c, p.completion = some c) ∧
    (∃ r, (∀ fuel, npFuel [newProcess "P1" 0 5 1, newProcess "P2" 1 3 1, newProcess "P3" 2 1 1] ≤
          fuel →
        runSJF fuel [newProcess "P1" 0 5 1, newProcess "P2" 1 3 1, newProcess "P3" 2 1 1] =
          some r) ∧
      r.procs.length = [newProcess "P1" 0 5 1, newProcess "P2" 1 3 1, newProcess "P3" 2 1 1].length ∧
      ∀ j ∈ r.procs, ∃ c, j.completion = some c) ∧
    (∃ r, (∀ fuel, srtfFuel [newProcess "P1" 0 5 1, newProcess "P2" 1 3 1, newProcess "P3" 2 1 1] ≤
          fuel →
        runSRTF fuel [newProcess "P1" 0 5 1, newProcess "P2" 1 3 1, newProcess "P3" 2 1 1] =
          some r) ∧
      r.procs.length = [newProcess "P1" 0 5 1, newProcess "P2" 1 3 1, newProcess "P3" 2 1 1].length ∧
      ∀ j ∈ r.procs, ∃ c, j.completion = some c) ∧
    (∃ r, (∀ fuel, npFuel [newProcess "P1" 0 5 1, newProcess "P2" 1 3 1, newProcess "P3" 2 1 1] ≤
          fuel →
        runPriority fuel [newProcess "P1" 0 5 1, newProcess "P2" 1 3 1, newProcess "P3" 2 1 1] =
          some r) ∧
      r.procs.length = [newProcess "P1" 0 5 1, newProcess "P2" 1 3 1, newProcess "P3" 2 1 1].length ∧
      ∀ j ∈ r.procs, ∃ c, j.completion = some c) ∧
    (∀ q : Int, 0 < q → ∃ r,
      (∀ fuel, rrFuel [newProcess "P1" 0 5 1, newProcess "P2" 1 3 1, newProcess "P3" 2 1 1] ≤
          fuel →
        runRR fuel (some q) [newProcess "P1" 0 5 1, newProcess "P2" 1 3 1, newProcess "P3" 2 1 1] =
          some r) ∧
      r.procs.length = [newProcess "P1" 0 5 1, newProcess "P2" 1 3 1, newProcess "P3" 2 1 1].length ∧
      ∀ j ∈ r.procs, ∃ c, j.completion = some c) :=
  scheduling_terminates_safe
    [newProcess "P1" 0 5 1, newProcess "P2" 1 3 1, newProcess "P3" 2 1 1]
    (by decide) (by decide) (by decide)

/-! ## The quantum of `runRR` -/

/-- C16, counterexample: with the quantum input 0, and with a quantum input that is not a
number, `runRR` on `P1(1,5)` does not fail: it schedules `P1` with the quantum 4 and returns
the timeline `[P1@1x4, P1@5x1]`. -/
theorem runRR_quantum_zero_schedules :
    (runRR 9 (some 0) [newProcess "P1" 1 5 1]).map (fun r => r.schedule) =
      some [{ pid := "P1", start := 1, duration := 4 }, { pid := "P1", start := 5, duration := 1 }] ∧
    (runRR 9 none [newProcess "P1" 1 5 1]).map (fun r => r.schedule) =
      some [{ pid := "P1", start := 1, duration := 4 }, { pid := "P1", start := 5, duration := 1 }] ∧
    (clickAlgo 9 Algo.rr (some 0) [newProcess "P1" 1 5 1]).result.map (fun r => r.schedule) =
      some [{ pid := "P1", start := 1, duration := 4 }, { pid := "P1", start := 5, duration := 1 }] := by
  refine ⟨by decide, by decide, by decide⟩

/-- C16, amended: a Round-Robin run whose quantum input is 0 or missing (not a number) does
not fail: it is the run with the default quantum 4, whatever the registry and the fuel. On a
registry with distinct pids and positive bursts whose times are safe integers (`SafeTimes`)
it returns, with the same result as for the input 4, every segment has as duration the
minimum of 4 and the work its process has left, and the durations of the segments of a
process add up to its burst. -/
theorem runRR_default_quantum (P : List Process) (quantum : Option Int)
    (hquantum : quantum = none ∨ quantum = some 0) :
    (∀ fuel, runRR fuel quantum P = runRR fuel (some 4) P) ∧
    ((P.map (fun p => p.pid)).Nodup → (∀ p ∈ P, 0 < p.burst) → SafeTimes P →
      ∃ r, (∀ fuel, rrFuel P ≤ fuel →
          runRR fuel quantum P = some r ∧ runRR fuel (some 4) P = some r) ∧
        (∀ pre seg post, r.schedule = pre ++ seg :: post →
          ∃ p ∈ P, p.pid = seg.pid ∧ seg.duration = min 4 (p.burst - served pre seg.pid)) ∧
        (∀ p ∈ P, served r.schedule p.pid = p.burst)) := by
  have hq : rrQuantum quantum = rrQuantum (some 4) := by
    rcases hquantum with rfl | rfl <;> rfl
  have hsame : ∀ fuel, runRR fuel quantum P = runRR fuel (some 4) P := by
    intro fuel
    simp only [runRR, hq]
  refine ⟨hsame, ?_⟩
  intro hpid hb hs
  obtain ⟨r, h1, _, _, h4, h5⟩ := rr_records P 4 (by decide) hpid hb hs
  refine ⟨r, ?_, h4, h5⟩
  intro fuel hf
  exact ⟨(hsame fuel).trans (h1 fuel hf), h1 fuel hf⟩

/-- Witness for the amended C16 on `P1(1,5)` with the quantum input 0. -/
theorem runRR_default_quantum_witness :
    (∀ fuel, runRR fuel (some 0) [newProcess "P1" 1 5 1] =
      runRR fuel (some 4) [newProcess "P1" 1 5 1]) ∧
    ∃ r, (∀ fuel, rrFuel [newProcess "P1" 1 5 1] ≤ fuel →
        runRR fuel (some 0) [newProcess "P1" 1 5 1] = some r ∧
          runRR fuel (some 4) [newProcess "P1" 1 5 1] = some r) ∧
      (∀ pre seg post, r.schedule = pre ++ seg :: post →
        ∃ p ∈ [newProcess "P1" 1 5 1],
          p.pid = seg.pid ∧ seg.duration = min 4 (p.burst - served pre seg.pid)) ∧
      (∀ p ∈ [newProcess "P1" 1 5 1], served r.schedule p.pid = p.burst) :=
  ⟨(runRR_default_quantum [newProcess "P1" 1 5 1] (some 0) (Or.inr rfl)).1,
    (runRR_default_quantum [newProcess "P1" 1 5 1] (some 0) (Or.inr rfl)).2
      (by decide) (by decide) (by decide)⟩

/-! ## `runSJF` / `runPriority` whatever the size of the numbers -/

theorem npLive_init (P : List Process) (skey : Process → Int) : NPLive P skey (npInit P) where
  len := by simp [npInit]
  time_num := by simp only [npInit]; exact num_zero
  pending := by
    intro i hi _
    simp only [npInit]
    exact deref_map Job.ofProcess P i hi
  ready_nodup := by simp [npInit]
  ready_ok := by simp [npInit]
  done_nodup := by simp [npInit]
  done_lt := by simp [npInit]
  finished := by simp [npInit]
  aligned := by simp [npInit]

/-- In a state of the invariant a working copy has the pid and the arrival time of its
process. -/
theorem npLive_same (P : List Process) (skey : Process → Int) (s : NPState)
    (hinv : NPLive P skey s) (i : Nat) (hi : i < P.length) :
    (deref s.remaining i).pid = (deref P i).pid ∧
      (deref s.remaining i).arrival = (deref P i).arrival := by
  by_cases hd : i ∈ s.done
  · obtain ⟨c, hc, _⟩ := hinv.finished i hd
    rw [hc]
    exact ⟨rfl, rfl⟩
  · rw [hinv.pending i hi hd]
    exact ⟨rfl, rfl⟩

/-- What the admission pass of an iteration of `runSJF` / `runPriority` gives in a state of
the invariant: the ready list without repetition, made of arrived processes that are not
done, and holding every such process. -/
theorem npLive_admit (P : List Process) (skey : Process → Int) (hP : DistinctPids P)
    (hb : ∀ i, i < P.length → 0 < (deref P i).burst) (s : NPState) (hinv : NPLive P skey s) :
    (admitReady s.time s.remaining s.ready).Nodup ∧
      (∀ i ∈ admitReady s.time s.remaining s.ready,
        i < P.length ∧ i ∉ s.done ∧ (deref P i).arrival ≤ s.time) ∧
      (∀ i ∈ s.ready, i ∈ admitReady s.time s.remaining s.ready) ∧
      (∀ i, i < P.length → i ∉ s.done → (deref P i).arrival ≤ s.time →
        i ∈ admitReady s.time s.remaining s.ready) := by
  have hlen := hinv.len
  have hsame := npLive_same P skey s hinv
  obtain ⟨a1, a2, a3, a4⟩ := admitReady_spec s.time s.remaining
    (fun i => i ∉ s.done ∧ (deref P i).arrival ≤ s.time) s.ready
    (by
      intro i j hi hj hpid
      rw [hlen] at hi hj
      rw [(hsame i hi).1, (hsame j hj).1] at hpid
      exact hP i j hi hj hpid)
    (by
      intro i hi harr hrem
      rw [hlen] at hi
      refine ⟨fun hd => ?_, (hsame i hi).2 ▸ harr⟩
      obtain ⟨c, hc, _⟩ := hinv.finished i hd
      rw [hc] at hrem
      exact lt_irrefl (0 : Int) hrem)
    hinv.ready_nodup
    (fun i hi => ⟨hlen ▸ (hinv.ready_ok i hi).1, (hinv.ready_ok i hi).2⟩)
  refine ⟨a1, fun i hi => ⟨hlen ▸ (a2 i hi).1, (a2 i hi).2⟩, a3, ?_⟩
  intro i hi hd harr
  apply a4 i (hlen ▸ hi)
  · rw [(hsame i hi).2]; exact harr
  · rw [hinv.pending i hi hd]; exact hb i hi

/-- An iteration of `runSJF` / `runPriority` keeps the invariant, whatever the size of the
numbers. -/
theorem npLive_step (P : List Process) (key : Job → Int) (skey : Process → Int)
    (hkey : ∀ p, key (Job.ofProcess p) = skey p) (hP : DistinctPids P)
    (hb : ∀ i, i < P.length → 0 < (deref P i).burst)
    (s : NPState) (hinv : NPLive P skey s) : NPLive P skey (npBody key s) := by
  have hlen := hinv.len
  obtain ⟨a1, a2, a3, a4⟩ := npLive_admit P skey hP hb s hinv
  have hmono : ∀ d : Int, 0 ≤ d → s.time ≤ num (s.time + d) := by
    intro d hd
    have := num_mono s.time (s.time + d) (by omega)
    rw [hinv.time_num] at this
    exact this
  cases hsort : sortRefs (fun i => key (deref s.remaining i))
      (admitReady s.time s.remaining s.ready) with
  | nil =>
    rw [npBody_of_nil key s hsort]
    have htime := hmono 1 (by omega)
    exact
      { len := hinv.len
        time_num := num_idem _
        pending := hinv.pending
        ready_nodup := List.nodup_nil
        ready_ok := by simp
        done_nodup := hinv.done_nodup
        done_lt := hinv.done_lt
        finished := by
          intro i hi
          obtain ⟨c, hc, hle⟩ := hinv.finished i hi
          exact ⟨c, hc, le_trans hle htime⟩
        aligned := hinv.aligned }
  | cons c rest =>
    rw [npBody_of_cons key s c rest hsort]
    have hperm := sortRefs_perm (fun i => key (deref s.remaining i))
      (admitReady s.time s.remaining s.ready)
    rw [hsort] at hperm
    have hcmem : c ∈ admitReady s.time s.remaining s.ready := hperm.subset (by simp)
    have hnd : (c :: rest).Nodup := hperm.nodup_iff.mpr a1
    rw [List.nodup_cons] at hnd
    obtain ⟨hcP, hcd, hcarr⟩ := a2 c hcmem
    have hcR : c < s.remaining.length := hlen ▸ hcP
    have hcurr : deref s.remaining c = Job.ofProcess (deref P c) := hinv.pending c hcP hcd
    have hmin := sortRefs_head_le _ _ c rest hsort
    have hbc := hb c hcP
    have hrem : (deref s.remaining c).remaining = (deref P c).burst := by rw [hcurr]; rfl
    have hpidc : (deref s.remaining c).pid = (deref P c).pid := by rw [hcurr]; rfl
    rw [hrem, hpidc]
    have hne : ∀ i ∈ s.done, c ≠ i := fun i hi e => hcd (e ▸ hi)
    have htime := hmono (deref P c).burst (by omega)
    exact
      { len := by simp only [length_mutate]; exact hlen
        time_num := num_idem _
        pending := by
          intro i hi hid
          simp only [List.mem_append, List.mem_singleton, not_or] at hid
          simp only
          rw [deref_mutate_ne _ _ _ _ (Ne.symm hid.2)]
          exact hinv.pending i hi hid.1
        ready_nodup := hnd.2
        ready_ok := by
          intro i hi
          obtain ⟨h1, h2, h3⟩ := a2 i (hperm.subset (List.mem_cons_of_mem _ hi))
          refine ⟨h1, ?_, by simp only; omega⟩
          simp only [List.mem_append, List.mem_singleton, not_or]
          exact ⟨h2, fun e => hnd.1 (e ▸ hi)⟩
        done_nodup := by
          rw [List.nodup_append]
          refine ⟨hinv.done_nodup, List.nodup_singleton c, ?_⟩
          intro a ha hac
          rw [List.mem_singleton] at hac
          exact hcd (hac ▸ ha)
        done_lt := by
          intro i hi
          rcases List.mem_append.mp hi with hi | hi
          · exact hinv.done_lt i hi
          · rw [List.mem_singleton] at hi
            exact hi ▸ hcP
        finished := by
          intro i hi
          simp only
          rcases List.mem_append.mp hi with hi | hi
          · rw [deref_mutate_ne _ _ _ _ (hne i hi)]
            obtain ⟨ci, hci, hle⟩ := hinv.finished i hi
            exact ⟨ci, hci, le_trans hle htime⟩
          · rw [List.mem_singleton] at hi
            subst hi
            rw [deref_mutate_self _ _ _ hcR, hcurr]
            exact ⟨_, rfl, le_refl _⟩
        aligned := by
          simp only
          refine List.rel_append (hinv.aligned.imp ?_) (List.Forall₂.cons ?_ List.Forall₂.nil)
          · intro seg i ⟨h1, h2, h3, h4⟩
            refine ⟨h1, h2, h3, ?_⟩
            intro j hj harr hlater
            apply h4 j hj harr
            intro hjd cj hcj
            apply hlater (List.mem_append_left _ hjd) cj
            rw [deref_mutate_ne _ _ _ _ (hne j hjd)]
            exact hcj
          · refine ⟨rfl, rfl, hcarr, ?_⟩
            intro j hj harr hlater
            simp only at harr hlater
            by_cases hjc : j = c
            · rw [hjc]
            by_cases hjd : j ∈ s.done
            · exfalso
              obtain ⟨cj, hcj, hle⟩ := hinv.finished j hjd
              have := hlater (List.mem_append_left _ hjd) cj (by
                rw [deref_mutate_ne _ _ _ _ (Ne.symm hjc), hcj]
                rfl)
              omega
            · have hjm := a4 j hj hjd harr
              have := hmin j hjm
              simp only at this
              rw [hcurr, hinv.pending j hj hjd, hkey, hkey] at this
              exact this }

/-- The invariant holds in the state after any number of iterations. -/
theorem npLive_iterate (P : List Process) (key : Job → Int) (skey : Process → Int)
    (hkey : ∀ p, key (Job.ofProcess p) = skey p) (hP : DistinctPids P)
    (hb : ∀ i, i < P.length → 0 < (deref P i).burst) (k : Nat) :
    NPLive P skey ((npBody key)^[k] (npInit P)) := by
  induction k with
  | zero => exact npLive_init P skey
  | succ k ih =>
    rw [Function.iterate_succ_apply']
    exact npLive_step P key skey hkey hP hb _ ih

/-- The invariant holds in the state in which the loop ends, if it ends. -/
theorem npLive_result (P : List Process) (key : Job → Int) (skey : Process → Int)
    (hkey : ∀ p, key (Job.ofProcess p) = skey p) (hP : DistinctPids P)
    (hb : ∀ i, i < P.length → 0 < (deref P i).burst) (fuel : Nat) (s : NPState)
    (h : whileLoop (npCond P.length) (npBody key) fuel (npInit P) = some s) :
    NPLive P skey s :=
  whileLoop_invariant (npCond P.length) (npBody key) (NPLive P skey)
    (fun s hinv _ => npLive_step P key skey hkey hP hb s hinv) fuel (npInit P) s
    (npLive_init P skey) h

/-- A loop that ends, ends in a state in which its test fails. -/
theorem whileLoop_exit {σ : Type} (cond : σ → Bool) (body : σ → σ) :
    ∀ (fuel : Nat) (s s' : σ), whileLoop cond body fuel s = some s' → cond s' = false := by
  intro fuel
  induction fuel with
  | zero => intro s s' h; simp [whileLoop] at h
  | succ k ih =>
    intro s s' h
    simp only [whileLoop] at h
    by_cases hc : cond s = true
    · rw [if_pos hc] at h
      exact ih _ _ h
    · rw [if_neg hc] at h
      simp only [Option.some.injEq] at h
      subst h
      simpa using hc

/-- What `runSJF` / `runPriority` deliver whenever they return, whatever the size of the
numbers: the records passed to `calculateMetrics` are the processes of the registry, each
once; the segments and the records correspond one to one, a segment carrying the pid and the
burst of its process and starting at or after its arrival; and at the start of a segment its
process has the least key among the processes that have arrived and are not completed by
then. -/
theorem np_result_live (P : List Process) (key : Job → Int) (skey : Process → Int)
    (hkey : ∀ p, key (Job.ofProcess p) = skey p)
    (hskey : ∀ p q : Process, p.burst = q.burst → p.priority = q.priority → skey p = skey q)
    (hpid : (P.map (fun p => p.pid)).Nodup) (hb : ∀ p ∈ P, 0 < p.burst) (fuel : Nat)
    (r : RunResult Job)
    (h : (whileLoop (npCond P.length) (npBody key) fuel (npInit P)).map (npFinish P) = some r) :
    (r.procs.map (fun j => j.toProcess.entered)).Perm (P.map Process.entered) ∧
      List.Forall₂ (fun (seg : Segment) (p : Job) =>
          seg.pid = p.pid ∧ seg.duration = p.burst ∧ p.arrival ≤ seg.start ∧
          ∀ q ∈ r.procs, q.arrival ≤ seg.start →
            (∀ cq, q.completion = some cq → seg.start < cq) →
            skey p.toProcess ≤ skey q.toProcess)
        r.schedule r.procs := by
  obtain ⟨s, hs, rfl⟩ := Option.map_eq_some'.mp h
  have hinv := npLive_result P key skey hkey (distinctPids_of_nodup P hpid)
    (burst_pos_of_forall P hb) fuel s hs
  have hexit := whileLoop_exit _ _ fuel _ s hs
  have hge : ¬ s.done.length < P.length := by simpa [npCond] using hexit
  have hle := length_le_of_nodup_lt s.done P.length hinv.done_nodup hinv.done_lt
  have hsub : s.done ⊆ List.range P.length := fun j hj => List.mem_range.mpr (hinv.done_lt j hj)
  have hperm : s.done.Perm (List.range P.length) :=
    (List.subperm_of_subset hinv.done_nodup hsub).perm_of_length_le
      (by rw [List.length_range]; omega)
  have hprocs : (npFinish P s).procs =
      s.done.map (fun i => Job.calculateMetrics (deref s.remaining i)) := by
    obtain ⟨_, _, m3⟩ := mutate_fold Job.calculateMetrics default s.done s.remaining
      hinv.done_nodup (fun i hi => by rw [hinv.len]; exact hinv.done_lt i hi)
    simp only [npFinish]
    apply List.map_congr_left
    intro i hi
    exact m3 i hi
  constructor
  · rw [hprocs, List.map_map]
    have : P.map Process.entered = (List.range P.length).map (fun i => (deref P i).entered) := by
      conv_lhs => rw [← map_deref_range P]
      rw [List.map_map]
      rfl
    rw [this]
    refine List.Perm.trans (List.Perm.of_eq ?_) (hperm.map _)
    apply List.map_congr_left
    intro i hi
    obtain ⟨c, hc, _⟩ := hinv.finished i hi
    simp only [Function.comp, hc]
    rfl
  · rw [hprocs, npFinish_schedule, List.forall₂_map_right_iff]
    refine List.Forall₂.imp ?_ (forall₂_with_mem _ _ _ hinv.aligned)
    intro seg i ⟨⟨h1, h2, h3, h4⟩, _, hi⟩
    obtain ⟨ci, hci, _⟩ := hinv.finished i hi
    rw [hci]
    refine ⟨h1, h2, h3, ?_⟩
    intro q hq harr hlater
    obtain ⟨j, hj, rfl⟩ := List.mem_map.mp hq
    have hjP := hinv.done_lt j hj
    have := h4 j hjP ((npLive_same P skey s hinv j hjP).2 ▸ harr)
      (fun _ cj hcj => hlater cj hcj)
    rw [hskey (Job.calculateMetrics (deref s.remaining j)).toProcess (deref P j)
      (by obtain ⟨c, hc, _⟩ := hinv.finished j hj; rw [hc]; rfl)
      (by obtain ⟨c, hc, _⟩ := hinv.finished j hj; rw [hc]; rfl),
      hskey (Job.calculateMetrics (Job.withRun (deref P i) (some ci) 0)).toProcess (deref P i)
        rfl rfl]
    exact this

/-- C3: on a registry with distinct pids and positive bursts, whenever `runSJF` returns, the
records it passes to `calculateMetrics` are the processes of the registry; segments and
records correspond one to one; every segment starts at or after the arrival of its process,
and at that start its process has the least burst among the processes that have arrived by
then and are not completed by then. The same holds of the timeline that any number of
iterations of the loop has built, whether or not the loop ends; and `runSJF` returns (for any
fuel from `npFuel` on) when the times of the registry are safe integers. On `P1(0,5)`,
`P2(1,3)`, `P3(2,1)` the timeline is `[P1@0x5, P3@5x1, P2@6x3]`. -/
theorem runSJF_shortest_job :
    (∀ P : List Process, (P.map (fun p => p.pid)).Nodup → (∀ p ∈ P, 0 < p.burst) →
      (∀ fuel r, runSJF fuel P = some r →
        (r.procs.map (fun j => j.toProcess.entered)).Perm (P.map Process.entered) ∧
        List.Forall₂ (fun (seg : Segment) (p : Job) =>
            seg.pid = p.pid ∧ p.arrival ≤ seg.start ∧
            ∀ q ∈ r.procs, q.arrival ≤ seg.start →
              (∀ cq, q.completion = some cq → seg.start < cq) → p.burst ≤ q.burst)
          r.schedule r.procs) ∧
      (∀ k, List.Forall₂ (fun (seg : Segment) (i : Nat) =>
            seg.pid = (deref P i).pid ∧ (deref P i).arrival ≤ seg.start ∧
            ∀ j, j < P.length → (deref P j).arrival ≤ seg.start →
              (j ∈ (sjfStateAt P k).done →
                ∀ cj, (deref (sjfStateAt P k).remaining j).completion = some cj →
                  seg.start < cj) →
              (deref P i).burst ≤ (deref P j).burst)
          (sjfStateAt P k).schedule (sjfStateAt P k).done) ∧
      (SafeTimes P → ∃ r, ∀ fuel, npFuel P ≤ fuel → runSJF fuel P = some r)) ∧
    (∀ fuel, 4 ≤ fuel →
      (runSJF fuel [newProcess "P1" 0 5 1, newProcess "P2" 1 3 1, newProcess "P3" 2 1 1]).map
        (fun r => r.schedule) =
      some [{ pid := "P1", start := 0, duration := 5 }, { pid := "P3", start := 5, duration := 1 },
        { pid := "P2", start := 6, duration := 3 }]) := by
  constructor
  · intro P hpid hb
    refine ⟨?_, ?_, ?_⟩
    · intro fuel r h
      obtain ⟨h1, h2⟩ := np_result_live P (fun j => j.remaining) (fun p => p.burst)
        (fun _ => rfl) (fun _ _ h _ => h) hpid hb fuel r h
      refine ⟨h1, h2.imp ?_⟩
      intro seg p h
      exact ⟨h.1, h.2.2.1, h.2.2.2⟩
    · intro k
      have hinv := npLive_iterate P (fun j => j.remaining) (fun p => p.burst) (fun _ => rfl)
        (distinctPids_of_nodup P hpid) (burst_pos_of_forall P hb) k
      refine List.Forall₂.imp ?_ hinv.aligned
      intro seg i h
      exact ⟨h.1, h.2.2.1, h.2.2.2⟩
    · intro hs
      obtain ⟨r, h1, _⟩ := np_contract P (fun j => j.remaining) (fun p => p.burst)
        (fun _ => rfl) (fun _ _ h _ => h) hpid hb hs
      exact ⟨r, h1⟩
  · intro fuel hf
    simp only [runSJF]
    rw [whileLoop_eq_of_le _ _ 4 fuel _ (by decide) hf]
    decide

/-- Witness for C3 on the registry `P1(0,5)`, `P2(1,3)`, `P3(2,1)`, whose times are safe
integers: `runSJF` returns with fuel `npFuel`, and what it returns has the properties. -/
theorem runSJF_shortest_job_witness :
    ∃ r, runSJF (npFuel [newProcess "P1" 0 5 1, newProcess "P2" 1 3 1, newProcess "P3" 2 1 1])
        [newProcess "P1" 0 5 1, newProcess "P2" 1 3 1, newProcess "P3" 2 1 1] = some r ∧
      (r.procs.map (fun j => j.toProcess.entered)).Perm
        ([newProcess "P1" 0 5 1, newProcess "P2" 1 3 1, newProcess "P3" 2 1 1].map
          Process.entered) ∧
      List.Forall₂ (fun (seg : Segment) (p : Job) =>
          seg.pid = p.pid ∧ p.arrival ≤ seg.start ∧
          ∀ q ∈ r.procs, q.arrival ≤ seg.start →
            (∀ cq, q.completion = some cq → seg.start < cq) → p.burst ≤ q.burst)
        r.schedule r.procs :=
  match (runSJF_shortest_job.1 [newProcess "P1" 0 5 1, newProcess "P2" 1 3 1,
      newProcess "P3" 2 1 1] (by decide) (by decide)).2.2 (by decide) with
  | ⟨r, hr⟩ => ⟨r, hr _ (le_refl _),
      (runSJF_shortest_job.1 [newProcess "P1" 0 5 1, newProcess "P2" 1 3 1,
        newProcess "P3" 2 1 1] (by decide) (by decide)).1 _ r (hr _ (le_refl _))⟩

/-! ## `runSJF`: the order of the ready list -/

theorem pair_sublist_or {l : List Nat} (hl : l.Nodup) {a b : Nat} (ha : a ∈ l) (hb : b ∈ l)
    (hab : a ≠ b) : List.Sublist [a, b] l ∨ List.Sublist [b, a] l := by
  induction l with
  | nil => simp at ha
  | cons x l ih =>
    rw [List.nodup_cons] at hl
    rcases List.mem_cons.mp ha with rfl | ha'
    · rcases List.mem_cons.mp hb with rfl | hb'
      · exact absurd rfl hab
      · exact Or.inl (List.Sublist.cons₂ _ (List.singleton_sublist.mpr hb'))
    · rcases List.mem_cons.mp hb with rfl | hb'
      · exact Or.inr (List.Sublist.cons₂ _ (List.singleton_sublist.mpr ha'))
      · rcases ih hl.2 ha' hb' with h | h
        · exact Or.inl (List.Sublist.cons _ h)
        · exact Or.inr (List.Sublist.cons _ h)

/-- The sort is stable: two references of equal key stand in the sorted array in the order
in which they stood before. -/
theorem sortRefs_pair_stable (key : Nat → Int) (l : List Nat) (hl : l.Nodup) {i j : Nat}
    (hij : List.Sublist [i, j] (sortRefs key l)) (heq : key i = key j) :
    List.Sublist [i, j] l := by
  haveI : IsTotal ℕ (fun i j => key i ≤ key j) := ⟨fun a b => le_total (key a) (key b)⟩
  haveI : IsTrans ℕ (fun i j => key i ≤ key j) := ⟨fun a b c h1 h2 => le_trans h1 h2⟩
  have hnd : (sortRefs key l).Nodup := (sortRefs_perm key l).nodup_iff.mpr hl
  have h1 := pair_sublist_indexOf_lt hnd hij
  have hne : i ≠ j := by
    intro e
    subst e
    omega
  have hi : i ∈ l := (sortRefs_perm key l).subset (hij.subset (by simp))
  have hj : j ∈ l := (sortRefs_perm key l).subset (hij.subset (by simp))
  rcases pair_sublist_or hl hi hj hne with h | h
  · exact h
  · exfalso
    have hsub2 : List.Sublist [j, i] (sortRefs key l) :=
      List.pair_sublist_insertionSort (r := fun i j => key i ≤ key j) (le_of_eq heq.symm) h
    have h2 := pair_sublist_indexOf_lt hnd hsub2
    omega

theorem sjfStateAt_succ (P : List Process) (k : Nat) :
    sjfStateAt P (k + 1) = npBody (fun j => j.remaining) (sjfStateAt P k) := by
  simp only [sjfStateAt, Function.iterate_succ_apply']

theorem sjfLive (P : List Process) (hpid : (P.map (fun p => p.pid)).Nodup)
    (hb : ∀ p ∈ P, 0 < p.burst) (k : Nat) :
    NPLive P (fun p => p.burst) (sjfStateAt P k) :=
  npLive_iterate P (fun j => j.remaining) (fun p => p.burst) (fun _ => rfl)
    (distinctPids_of_nodup P hpid) (burst_pos_of_forall P hb) k

/-- The ready list after the admission pass of the iteration `k` is the former ready list
followed by the processes admitted at the iteration `k`, which come in registry order. -/
theorem sjf_admit_eq (P : List Process) (k : Nat) :
    admitReady (sjfStateAt P k).time (sjfStateAt P k).remaining (sjfStateAt P k).ready =
        (sjfStateAt P k).ready ++ sjfAdmitted P k ∧
      (sjfAdmitted P k).Sublist (List.range (sjfStateAt P k).remaining.length) := by
  obtain ⟨new, h1, h2⟩ := admitReady_append (sjfStateAt P k).time (sjfStateAt P k).remaining
    (List.range (sjfStateAt P k).remaining.length) (sjfStateAt P k).ready
  have h1' : admitReady (sjfStateAt P k).time (sjfStateAt P k).remaining (sjfStateAt P k).ready =
      (sjfStateAt P k).ready ++ new := h1
  have hnew : sjfAdmitted P k = new := by
    simp only [sjfAdmitted]
    rw [h1', List.drop_left]
  rw [hnew]
  exact ⟨h1', h2⟩

/-- The processes admitted at the iteration `k` are those that have arrived by the time of
the iteration and are neither done nor on the ready list already. -/
theorem mem_sjfAdmitted (P : List Process) (hpid : (P.map (fun p => p.pid)).Nodup)
    (hb : ∀ p ∈ P, 0 < p.burst) (k i : Nat) :
    i ∈ sjfAdmitted P k ↔ i < P.length ∧ (deref P i).arrival ≤ (sjfStateAt P k).time ∧
      i ∉ (sjfStateAt P k).done ∧ i ∉ (sjfStateAt P k).ready := by
  have hinv := sjfLive P hpid hb k
  obtain ⟨a1, a2, _, a4⟩ := npLive_admit P (fun p => p.burst) (distinctPids_of_nodup P hpid)
    (burst_pos_of_forall P hb) _ hinv
  obtain ⟨e, _⟩ := sjf_admit_eq P k
  rw [e] at a1 a2 a4
  constructor
  · intro hi
    obtain ⟨h1, h2, h3⟩ := a2 i (List.mem_append_right _ hi)
    refine ⟨h1, h3, h2, ?_⟩
    intro hr
    exact (List.nodup_append.mp a1).2.2 hr hi
  · intro ⟨h1, h2, h3, h4⟩
    rcases List.mem_append.mp (a4 i h1 h3 h2) with h | h
    · exact absurd h h4
    · exact h

/-- On the ready list after admission the sort key, the field `remaining`, is the burst. -/
theorem sjf_key_eq (P : List Process) (hpid : (P.map (fun p => p.pid)).Nodup)
    (hb : ∀ p ∈ P, 0 < p.burst) (k i : Nat)
    (hi : i ∈ admitReady (sjfStateAt P k).time (sjfStateAt P k).remaining
      (sjfStateAt P k).ready) :
    (deref (sjfStateAt P k).remaining i).remaining = (deref P i).burst := by
  have hinv := sjfLive P hpid hb k
  obtain ⟨_, a2, _, _⟩ := npLive_admit P (fun p => p.burst) (distinctPids_of_nodup P hpid)
    (burst_pos_of_forall P hb) _ hinv
  obtain ⟨h1, h2, _⟩ := a2 i hi
  rw [hinv.pending i h1 h2]
  rfl

/-- The order of the ready list of `runSJF`: every process on the ready list with which the
iteration `k` starts was admitted at an earlier iteration, and of two processes of equal
burst on it the one that stands first was admitted at an earlier iteration, or at the same
iteration and stands before the other in the registry. -/
theorem sjf_ready_order (P : List Process) (hpid : (P.map (fun p => p.pid)).Nodup)
    (hb : ∀ p ∈ P, 0 < p.burst) (k : Nat) :
    (∀ i ∈ (sjfStateAt P k).ready, ∃ ki, ki < k ∧ i ∈ sjfAdmitted P ki) ∧
      (∀ i j, List.Sublist [i, j] (sjfStateAt P k).ready →
        (deref P i).burst = (deref P j).burst →
        ∃ ki kj, ki ≤ kj ∧ kj < k ∧ i ∈ sjfAdmitted P ki ∧ j ∈ sjfAdmitted P kj ∧
          (ki = kj → i < j)) ∧
      (∀ i ∈ admitReady (sjfStateAt P k).time (sjfStateAt P k).remaining
          (sjfStateAt P k).ready, ∃ ki, ki ≤ k ∧ i ∈ sjfAdmitted P ki) ∧
      (∀ i j, List.Sublist [i, j] (admitReady (sjfStateAt P k).time
          (sjfStateAt P k).remaining (sjfStateAt P k).ready) →
        (deref P i).burst = (deref P j).burst → AdmittedBefore P k i j) := by
  have hstep : ∀ k,
      ((∀ i ∈ (sjfStateAt P k).ready, ∃ ki, ki < k ∧ i ∈ sjfAdmitted P ki) ∧
        (∀ i j, List.Sublist [i, j] (sjfStateAt P k).ready →
          (deref P i).burst = (deref P j).burst →
          ∃ ki kj, ki ≤ kj ∧ kj < k ∧ i ∈ sjfAdmitted P ki ∧ j ∈ sjfAdmitted P kj ∧
            (ki = kj → i < j))) →
      ((∀ i ∈ admitReady (sjfStateAt P k).time (sjfStateAt P k).remaining
          (sjfStateAt P k).ready, ∃ ki, ki ≤ k ∧ i ∈ sjfAdmitted P ki) ∧
        (∀ i j, List.Sublist [i, j] (admitReady (sjfStateAt P k).time
            (sjfStateAt P k).remaining (sjfStateAt P k).ready) →
          (deref P i).burst = (deref P j).burst → AdmittedBefore P k i j)) := by
    intro k ⟨r1, r2⟩
    obtain ⟨e, hsub⟩ := sjf_admit_eq P k
    rw [e]
    constructor
    · intro i hi
      rcases List.mem_append.mp hi with h | h
      · obtain ⟨ki, h1, h2⟩ := r1 i h
        exact ⟨ki, by omega, h2⟩
      · exact ⟨k, le_refl _, h⟩
    · intro i j hij hbij
      obtain ⟨l₁, l₂, hl, h1, h2⟩ := List.sublist_append_iff.mp hij
      match l₁, hl, h1 with
      | [], hl, _ =>
        simp only [List.nil_append] at hl
        subst hl
        have hlt : i < j := by
          have := (List.pairwise_lt_range _).sublist (h2.trans hsub)
          simpa using this
        exact ⟨k, k, le_refl _, le_refl _, h2.subset (by simp), h2.subset (by simp),
          fun _ => hlt⟩
      | [a], hl, h1 =>
        simp only [List.singleton_append, List.cons.injEq] at hl
        obtain ⟨rfl, hl⟩ := hl
        subst hl
        obtain ⟨ki, hki, hi⟩ := r1 i (h1.subset (by simp))
        exact ⟨ki, k, by omega, le_refl _, hi, h2.subset (by simp), fun e => by omega⟩
      | [a, b], hl, h1 =>
        simp only [List.cons_append, List.nil_append, List.cons.injEq] at hl
        obtain ⟨rfl, rfl, _⟩ := hl
        obtain ⟨ki, kj, g1, g2, g3, g4, g5⟩ := r2 i j h1 hbij
        exact ⟨ki, kj, g1, by omega, g3, g4, g5⟩
      | a :: b :: c :: l, hl, _ =>
        have := congrArg List.length hl
        simp only [List.length_cons, List.length_append, List.length_nil] at this
        omega
  have hready : ∀ k,
      (∀ i ∈ (sjfStateAt P k).ready, ∃ ki, ki < k ∧ i ∈ sjfAdmitted P ki) ∧
        (∀ i j, List.Sublist [i, j] (sjfStateAt P k).ready →
          (deref P i).burst = (deref P j).burst →
          ∃ ki kj, ki ≤ kj ∧ kj < k ∧ i ∈ sjfAdmitted P ki ∧ j ∈ sjfAdmitted P kj ∧
            (ki = kj → i < j)) := by
    intro k
    induction k with
    | zero =>
      have h0 : (sjfStateAt P 0).ready = [] := rfl
      rw [h0]
      exact ⟨by simp, by intro i j h; simp at h⟩
    | succ k ih =>
      obtain ⟨l1, l2⟩ := hstep k ih
      have hinv := sjfLive P hpid hb k
      obtain ⟨a1, _, _, _⟩ := npLive_admit P (fun p => p.burst)
        (distinctPids_of_nodup P hpid) (burst_pos_of_forall P hb) _ hinv
      rw [sjfStateAt_succ]
      cases hsort : sortRefs (fun i => (deref (sjfStateAt P k).remaining i).remaining)
          (admitReady (sjfStateAt P k).time (sjfStateAt P k).remaining
            (sjfStateAt P k).ready) with
      | nil =>
        rw [npBody_of_nil _ _ hsort]
        exact ⟨by simp, by intro i j h; simp at h⟩
      | cons c rest =>
        rw [npBody_of_cons _ _ c rest hsort]
        have hperm := sortRefs_perm (fun i => (deref (sjfStateAt P k).remaining i).remaining)
          (admitReady (sjfStateAt P k).time (sjfStateAt P k).remaining (sjfStateAt P k).ready)
        rw [hsort] at hperm
        constructor
        · intro i hi
          obtain ⟨ki, h1, h2⟩ := l1 i (hperm.subset (List.mem_cons_of_mem _ hi))
          exact ⟨ki, by omega, h2⟩
        · intro i j hij hbij
          have hij' : List.Sublist [i, j]
              (sortRefs (fun i => (deref (sjfStateAt P k).remaining i).remaining)
                (admitReady (sjfStateAt P k).time (sjfStateAt P k).remaining
                  (sjfStateAt P k).ready)) := by
            rw [hsort]
            exact List.Sublist.cons _ hij
          have hi := hperm.subset (List.mem_cons_of_mem _ (hij.subset (by simp : i ∈ [i, j])))
          have hj := hperm.subset (List.mem_cons_of_mem _ (hij.subset (by simp : j ∈ [i, j])))
          have hkey : (deref (sjfStateAt P k).remaining i).remaining =
              (deref (sjfStateAt P k).remaining j).remaining := by
            rw [sjf_key_eq P hpid hb k i hi, sjf_key_eq P hpid hb k j hj, hbij]
          obtain ⟨ki, kj, g1, g2, g3, g4, g5⟩ :=
            l2 i j (sortRefs_pair_stable _ _ a1 hij' hkey) hbij
          exact ⟨ki, kj, g1, by omega, g3, g4, g5⟩
  obtain ⟨r1, r2⟩ := hready k
  obtain ⟨l1, l2⟩ := hstep k ⟨r1, r2⟩
  exact ⟨r1, r2, l1, l2⟩

/-- A process that is on the ready list after the admission pass of the iteration `k`, or
done, is on the ready list or done when the next iteration starts. -/
theorem sjf_held_step (P : List Process) (k i : Nat)
    (h : i ∈ admitReady (sjfStateAt P k).time (sjfStateAt P k).remaining (sjfStateAt P k).ready ∨
      i ∈ (sjfStateAt P k).done) :
    i ∈ (sjfStateAt P (k + 1)).ready ∨ i ∈ (sjfStateAt P (k + 1)).done := by
  rw [sjfStateAt_succ]
  cases hsort : sortRefs (fun i => (deref (sjfStateAt P k).remaining i).remaining)
      (admitReady (sjfStateAt P k).time (sjfStateAt P k).remaining (sjfStateAt P k).ready) with
  | nil =>
    rw [npBody_of_nil _ _ hsort]
    rcases h with h | h
    · rw [sortRefs_eq_nil _ _ hsort] at h
      simp at h
    · exact Or.inr h
  | cons c rest =>
    rw [npBody_of_cons _ _ c rest hsort]
    have hperm := sortRefs_perm (fun i => (deref (sjfStateAt P k).remaining i).remaining)
      (admitReady (sjfStateAt P k).time (sjfStateAt P k).remaining (sjfStateAt P k).ready)
    rw [hsort] at hperm
    rcases h with h | h
    · rcases List.mem_cons.mp (hperm.symm.subset h) with rfl | h'
      · exact Or.inr (by simp)
      · exact Or.inl h'
    · exact Or.inr (List.mem_append_left _ h)

/-- A process admitted at the iteration `k` is on the ready list or done at the start of
every later iteration. -/
theorem sjf_held_later (P : List Process) (hpid : (P.map (fun p => p.pid)).Nodup)
    (hb : ∀ p ∈ P, 0 < p.burst) (k i : Nat) (h : i ∈ sjfAdmitted P k) (d : Nat) :
    i ∈ (sjfStateAt P (k + 1 + d)).ready ∨ i ∈ (sjfStateAt P (k + 1 + d)).done := by
  induction d with
  | zero =>
    apply sjf_held_step P k i
    rw [(sjf_admit_eq P k).1]
    exact Or.inl (List.mem_append_right _ h)
  | succ d ih =>
    apply sjf_held_step P (k + 1 + d) i
    rcases ih with h' | h'
    · obtain ⟨_, _, a3, _⟩ := npLive_admit P (fun p => p.burst) (distinctPids_of_nodup P hpid)
        (burst_pos_of_forall P hb) _ (sjfLive P hpid hb (k + 1 + d))
      exact Or.inl (a3 i h')
    · exact Or.inr h'

/-- A process is admitted to the ready list at one iteration only. -/
theorem sjfAdmitted_once (P : List Process) (hpid : (P.map (fun p => p.pid)).Nodup)
    (hb : ∀ p ∈ P, 0 < p.burst) (i k₁ k₂ : Nat) (h₁ : i ∈ sjfAdmitted P k₁)
    (h₂ : i ∈ sjfAdmitted P k₂) : k₁ = k₂ := by
  have key : ∀ a b, a < b → i ∈ sjfAdmitted P a → i ∈ sjfAdmitted P b → False := by
    intro a b hab ha hb'
    obtain ⟨d, rfl⟩ : ∃ d, b = a + 1 + d := ⟨b - a - 1, by omega⟩
    obtain ⟨_, _, g3, g4⟩ := (mem_sjfAdmitted P hpid hb _ i).mp hb'
    rcases sjf_held_later P hpid hb a i ha d with h | h
    · exact g4 h
    · exact g3 h
  rcases Nat.lt_trichotomy k₁ k₂ with h | h | h
  · exact absurd (key k₁ k₂ h h₁ h₂) id
  · exact h
  · exact absurd (key k₂ k₁ h h₂ h₁) id

/-- C19, counterexample: with the registry `P1(0,5)`, `P2(arrival 3, burst 2)`,
`P3(arrival 2, burst 2)`, at the decision point at time 5 the ready list is `[P2, P3]` (both
of burst 2, admitted in registry order) and `runSJF` selects `P2`, although `P3` arrived
earlier: the timeline is `[P1@0x5, P2@5x2, P3@7x2]`. -/
theorem runSJF_tie_ignores_arrival :
    (sjfStateAt [newProcess "P1" 0 5 1, newProcess "P2" 3 2 1, newProcess "P3" 2 2 1] 1).time =
      5 ∧
    (sjfStateAt [newProcess "P1" 0 5 1, newProcess "P2" 3 2 1, newProcess "P3" 2 2 1] 1).ready =
      [] ∧
    admitReady 5
      (sjfStateAt [newProcess "P1" 0 5 1, newProcess "P2" 3 2 1, newProcess "P3" 2 2 1] 1).remaining
      [] = [1, 2] ∧
    (runSJF 9 [newProcess "P1" 0 5 1, newProcess "P2" 3 2 1, newProcess "P3" 2 2 1]).map
      (fun r => r.schedule) =
      some [{ pid := "P1", start := 0, duration := 5 }, { pid := "P2", start := 5, duration := 2 },
        { pid := "P3", start := 7, duration := 2 }] := by
  refine ⟨by decide, by decide, by decide, by decide⟩

/-- C19, amended: in `runSJF` on a registry with distinct pids and positive bursts, at every
decision point (the iteration `k` of the loop, when the sorted ready list is `c :: rest`) the
process `c` is selected; the ready list is the former ready list followed by the processes
admitted at this iteration; `c` has the least burst on it; and every other ready process `j`
of the same burst was admitted after `c`: at a later iteration than `c`, or at the same
iteration with `c` before `j` in the registry. Every ready process was admitted at one
iteration, not after `k`; the processes admitted at an iteration are those that have arrived
by the time of that iteration and are neither done nor on the ready list already, in the
order of the registry; and no process is admitted at two iterations. Arrival times play no
other part in breaking ties. -/
theorem runSJF_tie_admission_order (P : List Process)
    (hpid : (P.map (fun p => p.pid)).Nodup) (hb : ∀ p ∈ P, 0 < p.burst) (k c : Nat)
    (rest : List Nat)
    (h : sortRefs (fun i => (deref (sjfStateAt P k).remaining i).remaining)
        (admitReady (sjfStateAt P k).time (sjfStateAt P k).remaining (sjfStateAt P k).ready) =
      c :: rest) :
    (sjfStateAt P (k + 1)).done = (sjfStateAt P k).done ++ [c] ∧
      (c :: rest).Perm ((sjfStateAt P k).ready ++ sjfAdmitted P k) ∧
      (∀ j ∈ rest, (deref P c).burst ≤ (deref P j).burst ∧
        ((deref P j).burst = (deref P c).burst → AdmittedBefore P k c j)) ∧
      (∀ i ∈ c :: rest, ∃ ki, ki ≤ k ∧ i ∈ sjfAdmitted P ki) ∧
      (∀ k' i, i ∈ sjfAdmitted P k' ↔
        i < P.length ∧ (deref P i).arrival ≤ (sjfStateAt P k').time ∧
          i ∉ (sjfStateAt P k').done ∧ i ∉ (sjfStateAt P k').ready) ∧
      (∀ k', (sjfAdmitted P k').Pairwise (fun i j => i < j)) ∧
      (∀ i k₁ k₂, i ∈ sjfAdmitted P k₁ → i ∈ sjfAdmitted P k₂ → k₁ = k₂) := by
  have hperm := sortRefs_perm (fun i => (deref (sjfStateAt P k).remaining i).remaining)
    (admitReady (sjfStateAt P k).time (sjfStateAt P k).remaining (sjfStateAt P k).ready)
  rw [h] at hperm
  obtain ⟨_, _, l1, l2⟩ := sjf_ready_order P hpid hb k
  have hinv := sjfLive P hpid hb k
  obtain ⟨a1, _, _, _⟩ := npLive_admit P (fun p => p.burst) (distinctPids_of_nodup P hpid)
    (burst_pos_of_forall P hb) _ hinv
  have hc := hperm.subset (List.mem_cons_self c rest)
  refine ⟨?_, ?_, ?_, ?_, mem_sjfAdmitted P hpid hb, ?_, sjfAdmitted_once P hpid hb⟩
  · rw [sjfStateAt_succ, npBody_of_cons _ _ c rest h]
  · rw [← (sjf_admit_eq P k).1]
    exact hperm
  · intro j hj
    have hjm := hperm.subset (List.mem_cons_of_mem c hj)
    have hmin := sortRefs_head_le _ _ c rest h j hjm
    simp only at hmin
    rw [sjf_key_eq P hpid hb k c hc, sjf_key_eq P hpid hb k j hjm] at hmin
    refine ⟨hmin, fun heq => ?_⟩
    have hcj : List.Sublist [c, j]
        (sortRefs (fun i => (deref (sjfStateAt P k).remaining i).remaining)
          (admitReady (sjfStateAt P k).time (sjfStateAt P k).remaining
            (sjfStateAt P k).ready)) := by
      rw [h]
      exact List.Sublist.cons₂ _ (List.singleton_sublist.mpr hj)
    have hkey : (deref (sjfStateAt P k).remaining c).remaining =
        (deref (sjfStateAt P k).remaining j).remaining := by
      rw [sjf_key_eq P hpid hb k c hc, sjf_key_eq P hpid hb k j hjm, heq]
    exact l2 c j (sortRefs_pair_stable _ _ a1 hcj hkey) heq.symm
  · intro i hi
    exact l1 i (hperm.subset hi)
  · intro k'
    exact (List.pairwise_lt_range _).sublist (sjf_admit_eq P k').2

/-- Witness for the amended C19: the registry `P1(0,5)`, `P2(1,2)`, `P3(2,2)`, `P4(3,2)` at
the decision point at time 7 (the third iteration), where the ready list carried over from
the decision point at time 5 is `[P3, P4]` (references 2 and 3): `P3` is selected, and it was
admitted before `P4`. -/
theorem runSJF_tie_admission_order_witness :
    (sjfStateAt [newProcess "P1" 0 5 1, newProcess "P2" 1 2 1, newProcess "P3" 2 2 1,
        newProcess "P4" 3 2 1] (2 + 1)).done =
      (sjfStateAt [newProcess "P1" 0 5 1, newProcess "P2" 1 2 1, newProcess "P3" 2 2 1,
        newProcess "P4" 3 2 1] 2).done ++ [2] ∧
    AdmittedBefore [newProcess "P1" 0 5 1, newProcess "P2" 1 2 1, newProcess "P3" 2 2 1,
      newProcess "P4" 3 2 1] 2 2 3 :=
  ⟨(runSJF_tie_admission_order
      [newProcess "P1" 0 5 1, newProcess "P2" 1 2 1, newProcess "P3" 2 2 1,
        newProcess "P4" 3 2 1]
      (by decide) (by decide) 2 2 [3] (by decide)).1,
    ((runSJF_tie_admission_order
      [newProcess "P1" 0 5 1, newProcess "P2" 1 2 1, newProcess "P3" 2 2 1,
        newProcess "P4" 3 2 1]
      (by decide) (by decide) 2 2 [3] (by decide)).2.2.1 3 (List.mem_singleton.mpr rfl)).2 rfl⟩

end CPUSched
